import Mathlib

/-!
Verification of the Smart Dictionary engine: three ordered-map
implementations (unbalanced BST, AVL tree, right-threaded tree) over a
common WordRecord payload, plus a prefix-autocomplete ranking layer.

Keys are modelled as lists of byte values (the content of a C string,
terminator excluded).  MAX_WORD_LEN is 64, so str_tolower into a
word buffer keeps at most 63 characters.
-/

namespace SmartDict

/-- Byte content of a C string (NUL terminator excluded). -/
abbrev Key := List Nat

/-- ASCII lowercasing of one byte, as in str_tolower (utils.c): bytes in
the range of capital A to Z get 32 added, everything else is unchanged. -/
def lowerByte (c : Nat) : Nat := if 65 ≤ c ∧ c ≤ 90 then c + 32 else c

/-- str_tolower (utils.c) into a MAX_WORD_LEN = 64 buffer: lowercases each
byte and truncates to 63 characters (one slot is kept for the terminator). -/
def strToLower (s : Key) : Key := (s.map lowerByte).take 63

/-- strcmp three-way comparison on NUL-terminated byte strings: the first
differing byte decides; a proper prefix sorts first. -/
def scmp : Key → Key → Ordering
  | [], [] => .eq
  | [], _ :: _ => .lt
  | _ :: _, [] => .gt
  | a :: as, b :: bs =>
    if a < b then .lt else if b < a then .gt else scmp as bs

/-- strncmp with bound n, honouring the NUL terminator as strncmp does:
the comparison stops after n bytes or at the end of either string. -/
def sncmp : Key → Key → Nat → Ordering
  | _, _, 0 => .eq
  | [], [], _ => .eq
  | [], _ :: _, _ => .lt
  | _ :: _, [], _ => .gt
  | a :: as, b :: bs, n + 1 =>
    if a < b then .lt else if b < a then .gt else sncmp as bs n

theorem scmp_self (a : Key) : scmp a a = .eq := by
  induction a with
  | nil => rfl
  | cons x xs ih => simp [scmp, ih]

theorem scmp_eq_iff {a b : Key} : scmp a b = .eq ↔ a = b := by
  induction a generalizing b with
  | nil => cases b <;> simp [scmp]
  | cons x xs ih =>
    cases b with
    | nil => simp [scmp]
    | cons y ys =>
      by_cases hxy : x < y
      · simp [scmp, hxy]
        omega
      · by_cases hyx : y < x
        · simp [scmp, hxy, hyx]
          omega
        · have hx : x = y := by omega
          simp [scmp, hxy, hyx, hx, ih]

theorem scmp_gt_iff_lt {a b : Key} : scmp a b = .gt ↔ scmp b a = .lt := by
  induction a generalizing b with
  | nil => cases b <;> simp [scmp]
  | cons x xs ih =>
    cases b with
    | nil => simp [scmp]
    | cons y ys =>
      by_cases hxy : x < y
      · have : ¬ y < x := by omega
        simp [scmp, hxy, this]
      · by_cases hyx : y < x
        · simp [scmp, hxy, hyx]
        · simp [scmp, hxy, hyx, ih]

theorem scmp_lt_trans {a b c : Key} :
    scmp a b = .lt → scmp b c = .lt → scmp a c = .lt := by
  induction a generalizing b c with
  | nil =>
    intro _ hbc
    cases b with
    | nil => cases c <;> simp_all [scmp]
    | cons y ys =>
      cases c with
      | nil => simp [scmp] at hbc
      | cons z zs => simp [scmp]
  | cons x xs ih =>
    intro hab hbc
    cases b with
    | nil => simp [scmp] at hab
    | cons y ys =>
      cases c with
      | nil => simp [scmp] at hbc
      | cons z zs =>
        simp only [scmp] at hab hbc ⊢
        by_cases hxy : x < y
        · by_cases hyz : y < z
          · have hxz : x < z := by omega
            simp [hxz]
          · by_cases hzy : z < y
            · simp [hxy, hyz, hzy] at hbc
            · have hyz2 : y = z := by omega
              have hxz : x < z := by omega
              simp [hxz]
        · by_cases hyx : y < x
          · simp [hxy, hyx] at hab
          · have hxy2 : x = y := by omega
            subst hxy2
            by_cases hxz : x < z
            · simp [hxz]
            · by_cases hzx : z < x
              · simp [hxz, hzx] at hbc
              · have : x = z := by omega
                subst this
                simp [hxz, hzx] at hab hbc ⊢
                exact ih hab hbc

/-- keyLt is the strict order strcmp induces on keys. -/
def keyLt (a b : Key) : Prop := scmp a b = .lt

instance (a b : Key) : Decidable (keyLt a b) := by
  unfold keyLt; infer_instance

theorem keyLt_irrefl (a : Key) : ¬ keyLt a a := by
  simp [keyLt, scmp_self]

theorem keyLt_trans {a b c : Key} : keyLt a b → keyLt b c → keyLt a c :=
  scmp_lt_trans

theorem keyLt_ne {a b : Key} (h : keyLt a b) : a ≠ b := by
  rintro rfl
  exact keyLt_irrefl a h

/-- WordRecord (dictionary.h): key plus free-form payload and two integer
scores.  The meaning and part_of_speech fields are carried as raw byte
strings; the two counters are C ints. -/
structure WordRecord where
  word : Key
  meaning : List Nat
  part_of_speech : List Nat
  frequency_score : Int
  user_select_count : Int
deriving DecidableEq, Repr

/-- Non-key payload of a record: everything except the word field. -/
def payloadOf (r : WordRecord) : List Nat × List Nat × Int × Int :=
  (r.meaning, r.part_of_speech, r.frequency_score, r.user_select_count)

/-- Record with its word normalized, as built at the top of bst_insert,
avl_insert and tbt_insert before descending. -/
def normRec (r : WordRecord) : WordRecord := { r with word := strToLower r.word }

/-- composite_score (autocomplete.c): frequency_score + 10 * user_select_count. -/
def composite_score (r : WordRecord) : Int :=
  r.frequency_score + 10 * r.user_select_count

/-! ### Unbalanced binary search tree (bst.c) -/

/-- BSTNode (bst.h): an embedded WordRecord plus two child links.  The
empty tree stands for a NULL pointer. -/
inductive BSTree where
  | leaf
  | node (l : BSTree) (data : WordRecord) (r : BSTree)
deriving DecidableEq, Repr

namespace BSTree

/-- Descent loop of bst_insert: compare the normalized word against the
current node, go left on negative, right on positive, stop silently on a
duplicate; an empty slot receives a fresh leaf node. -/
def insertGo : BSTree → WordRecord → BSTree
  | leaf, n => node leaf n leaf
  | node l d r, n =>
    match scmp n.word d.word with
    | .lt => node (insertGo l n) d r
    | .gt => node l d (insertGo r n)
    | .eq => node l d r

/-- bst_insert (bst.c): normalizes the word with str_tolower, then runs the
iterative cursor descent. -/
def bst_insert (t : BSTree) (r : WordRecord) : BSTree :=
  insertGo t (normRec r)

/-- Search descent of bst_search on the pre-lowercased word. -/
def searchGo : BSTree → Key → Option WordRecord
  | leaf, _ => none
  | node l d r, lw =>
    match scmp lw d.word with
    | .eq => some d
    | .lt => searchGo l lw
    | .gt => searchGo r lw

/-- bst_search (bst.c): NULL word gives NULL; otherwise the word is
lowercased and the iterative descent runs.  The returned handle is
modelled by the record stored at the found node. -/
def bst_search (t : BSTree) (w : Option Key) : Option WordRecord :=
  match w with
  | none => none
  | some w => searchGo t (strToLower w)

/-- bst_min_node (bst.c): data of the leftmost node of a subtree. -/
def bst_min_node : BSTree → Option WordRecord
  | leaf => none
  | node leaf d _ => some d
  | node (node a b c) _ _ => bst_min_node (node a b c)

/-- bst_delete_impl (bst.c): recursive delete on the pre-lowercased word.
The no-left-child case (which covers the leaf case, since then the right
child NULL is installed) and the no-right-child case splice the node out;
the two-children case copies the in-order successor record into the node
and deletes the successor from the right subtree. -/
def bst_delete_impl : BSTree → Key → BSTree
  | leaf, _ => leaf
  | node l d r, lw =>
    match scmp lw d.word with
    | .lt => node (bst_delete_impl l lw) d r
    | .gt => node l d (bst_delete_impl r lw)
    | .eq =>
      if l = leaf then r
      else if r = leaf then l
      else
        match bst_min_node r with
        | some s => node l s (bst_delete_impl r s.word)
        | none => node l d r

/-- bst_delete (bst.c): NULL word is a no-op; otherwise lowercase and run
the recursive delete. -/
def bst_delete (t : BSTree) (w : Option Key) : BSTree :=
  match w with
  | none => t
  | some w => bst_delete_impl t (strToLower w)

/-- In-order listing of the stored records (the visit order of
bst_inorder; the Morris traversal itself is verified separately). -/
def inorder : BSTree → List WordRecord
  | leaf => []
  | node l d r => inorder l ++ d :: inorder r

/-- Number of nodes. -/
def size : BSTree → Nat
  | leaf => 0
  | node l _ r => size l + 1 + size r

/-- Keys stored in the tree, in in-order. -/
def keys (t : BSTree) : List Key := (inorder t).map (·.word)

/-- bst_height (bst.c): 0 for the empty tree, else one more than the
taller child. -/
def bst_height : BSTree → Nat
  | leaf => 0
  | node l _ r => 1 + max (bst_height l) (bst_height r)

/-- Every key of the tree satisfies p. -/
def AllKeys (p : Key → Prop) : BSTree → Prop
  | leaf => True
  | node l d r => AllKeys p l ∧ p d.word ∧ AllKeys p r

/-- Binary-search-tree ordering invariant: left keys strictly below the
node's key, right keys strictly above, recursively. -/
def Ordered : BSTree → Prop
  | leaf => True
  | node l d r =>
      Ordered l ∧ Ordered r ∧
      AllKeys (fun k => keyLt k d.word) l ∧ AllKeys (fun k => keyLt d.word k) r

theorem allKeys_mono {p q : Key → Prop} (h : ∀ k, p k → q k) :
    ∀ {t : BSTree}, AllKeys p t → AllKeys q t
  | leaf, _ => trivial
  | node l d r, ⟨hl, hd, hr⟩ => ⟨allKeys_mono h hl, h _ hd, allKeys_mono h hr⟩

theorem allKeys_iff_mem {p : Key → Prop} :
    ∀ {t : BSTree}, AllKeys p t ↔ ∀ k ∈ keys t, p k := by
  intro t
  induction t with
  | leaf => simp [AllKeys, keys, inorder]
  | node l d r ihl ihr =>
    simp only [AllKeys, keys, inorder, List.map_append, List.map_cons,
      List.mem_append, List.mem_cons, ihl, ihr]
    constructor
    · rintro ⟨h1, h2, h3⟩ k (hk | rfl | hk)
      · exact h1 _ hk
      · exact h2
      · exact h3 _ hk
    · intro h
      exact ⟨fun k hk => h k (Or.inl hk), h _ (Or.inr (Or.inl rfl)),
        fun k hk => h k (Or.inr (Or.inr hk))⟩

theorem keys_node (l : BSTree) (d : WordRecord) (r : BSTree) :
    keys (node l d r) = keys l ++ d.word :: keys r := by
  simp [keys, inorder]

theorem keys_insertGo (t : BSTree) (n : WordRecord) (k : Key) :
    k ∈ keys (insertGo t n) ↔ k ∈ keys t ∨ k = n.word := by
  induction t with
  | leaf => simp [insertGo, keys_node, keys, inorder, eq_comm]
  | node l d r ihl ihr =>
    simp only [insertGo]
    cases hc : scmp n.word d.word with
    | lt =>
      simp only [keys_node, List.mem_append, List.mem_cons, ihl]
      tauto
    | eq =>
      have hw : n.word = d.word := scmp_eq_iff.mp hc
      rw [hw]
      simp only [keys_node, List.mem_append, List.mem_cons]
      tauto
    | gt =>
      simp only [keys_node, List.mem_append, List.mem_cons, ihr]
      tauto

theorem insertGo_AllKeys {p : Key → Prop} {t : BSTree} {n : WordRecord}
    (ht : AllKeys p t) (hn : p n.word) : AllKeys p (insertGo t n) := by
  induction t with
  | leaf => exact ⟨trivial, hn, trivial⟩
  | node l d r ihl ihr =>
    obtain ⟨hl, hd, hr⟩ := ht
    simp only [insertGo]
    cases scmp n.word d.word with
    | lt => exact ⟨ihl hl, hd, hr⟩
    | eq => exact ⟨hl, hd, hr⟩
    | gt => exact ⟨hl, hd, ihr hr⟩

theorem insertGo_Ordered {t : BSTree} {n : WordRecord} (ht : Ordered t) :
    Ordered (insertGo t n) := by
  induction t with
  | leaf => exact ⟨trivial, trivial, trivial, trivial⟩
  | node l d r ihl ihr =>
    obtain ⟨hl, hr, hal, har⟩ := ht
    simp only [insertGo]
    cases hc : scmp n.word d.word with
    | lt => exact ⟨ihl hl, hr, insertGo_AllKeys hal hc, har⟩
    | eq => exact ⟨hl, hr, hal, har⟩
    | gt => exact ⟨hl, ihr hr, hal, insertGo_AllKeys har (scmp_gt_iff_lt.mp hc)⟩

theorem pairwise_keys {t : BSTree} (ht : Ordered t) :
    (keys t).Pairwise keyLt := by
  induction t with
  | leaf => simp [keys, inorder]
  | node l d r ihl ihr =>
    obtain ⟨hl, hr, hal, har⟩ := ht
    rw [keys_node, List.pairwise_append]
    refine ⟨ihl hl, ?_, ?_⟩
    · rw [List.pairwise_cons]
      exact ⟨(allKeys_iff_mem.mp har : _), ihr hr⟩
    · intro a ha b hb
      have ha2 : keyLt a d.word := allKeys_iff_mem.mp hal a ha
      rcases List.mem_cons.mp hb with rfl | hb
      · exact ha2
      · exact keyLt_trans ha2 (allKeys_iff_mem.mp har b hb)

theorem nodup_keys {t : BSTree} (ht : Ordered t) : (keys t).Nodup :=
  (pairwise_keys ht).imp keyLt_ne

/-- Two records of an ordered tree with the same word are the same record. -/
theorem record_unique {t : BSTree} (ht : Ordered t) {d1 d2 : WordRecord}
    (h1 : d1 ∈ inorder t) (h2 : d2 ∈ inorder t) (hw : d1.word = d2.word) :
    d1 = d2 := by
  have hp : (inorder t).Pairwise (fun a b : WordRecord => a.word ≠ b.word) := by
    have := pairwise_keys ht
    rw [keys, List.pairwise_map] at this
    exact this.imp keyLt_ne
  by_contra hne
  exact hp.forall (fun a b h => (h ∘ Eq.symm : _)) h1 h2 hne hw

theorem searchGo_spec {t : BSTree} {lw : Key} {d : WordRecord}
    (h : searchGo t lw = some d) : d ∈ inorder t ∧ d.word = lw := by
  induction t with
  | leaf => simp [searchGo] at h
  | node l e r ihl ihr =>
    simp only [searchGo] at h
    cases hc : scmp lw e.word with
    | eq =>
      rw [hc] at h
      obtain rfl : e = d := by simpa using h
      exact ⟨by simp [inorder], (scmp_eq_iff.mp hc).symm⟩
    | lt =>
      rw [hc] at h
      obtain ⟨hm, hw⟩ := ihl h
      exact ⟨by simp [inorder, hm], hw⟩
    | gt =>
      rw [hc] at h
      obtain ⟨hm, hw⟩ := ihr h
      exact ⟨by simp [inorder, hm], hw⟩

theorem searchGo_not_mem {t : BSTree} {lw : Key} (ht : Ordered t)
    (h : lw ∉ keys t) : searchGo t lw = none := by
  induction t with
  | leaf => rfl
  | node l e r ihl ihr =>
    obtain ⟨hl, hr, _, _⟩ := ht
    rw [keys_node] at h
    simp only [List.mem_append, List.mem_cons] at h
    push_neg at h
    obtain ⟨h1, h2, h3⟩ := h
    simp only [searchGo]
    cases hc : scmp lw e.word with
    | eq => exact absurd (scmp_eq_iff.mp hc) h2
    | lt => exact ihl hl h1
    | gt => exact ihr hr h3

theorem searchGo_mem {t : BSTree} {lw : Key} (ht : Ordered t)
    (h : lw ∈ keys t) : ∃ d, searchGo t lw = some d := by
  induction t with
  | leaf => simp [keys, inorder] at h
  | node l e r ihl ihr =>
    obtain ⟨hl, hr, hal, har⟩ := ht
    rw [keys_node] at h
    simp only [List.mem_append, List.mem_cons] at h
    simp only [searchGo]
    cases hc : scmp lw e.word with
    | eq => exact ⟨e, rfl⟩
    | lt =>
      rcases h with h | h | h
      · exact ihl hl h
      · exact absurd hc (by rw [h, scmp_self]; simp)
      · have := allKeys_iff_mem.mp har lw h
        exact absurd (keyLt_trans hc this) (keyLt_irrefl lw)
    | gt =>
      rcases h with h | h | h
      · have := allKeys_iff_mem.mp hal lw h
        have hgl := scmp_gt_iff_lt.mp hc
        exact absurd (keyLt_trans this hgl) (keyLt_irrefl lw)
      · exact absurd hc (by rw [h, scmp_self]; simp)
      · exact ihr hr h

/-- Inserting a word already present (after normalization) into an ordered
tree leaves the tree entirely unchanged. -/
theorem insertGo_duplicate {t : BSTree} {n : WordRecord} (ht : Ordered t)
    (h : n.word ∈ keys t) : insertGo t n = t := by
  induction t with
  | leaf => simp [keys, inorder] at h
  | node l d r ihl ihr =>
    obtain ⟨hl, hr, hal, har⟩ := ht
    rw [keys_node] at h
    simp only [List.mem_append, List.mem_cons] at h
    simp only [insertGo]
    cases hc : scmp n.word d.word with
    | eq => rfl
    | lt =>
      rcases h with h | h | h
      · rw [ihl hl h]
      · exact absurd hc (by rw [h, scmp_self]; simp)
      · have := allKeys_iff_mem.mp har n.word h
        exact absurd (keyLt_trans hc this) (keyLt_irrefl n.word)
    | gt =>
      rcases h with h | h | h
      · have := allKeys_iff_mem.mp hal n.word h
        have hgl := scmp_gt_iff_lt.mp hc
        exact absurd (keyLt_trans this hgl) (keyLt_irrefl n.word)
      · exact absurd hc (by rw [h, scmp_self]; simp)
      · rw [ihr hr h]

theorem keys_leaf : keys leaf = [] := rfl

theorem bst_min_node_spec {t : BSTree} (ht : t ≠ leaf) :
    ∃ s, bst_min_node t = some s ∧ s ∈ inorder t ∧
      (Ordered t → ∀ k ∈ keys t, k = s.word ∨ keyLt s.word k) := by
  induction t with
  | leaf => exact absurd rfl ht
  | node l d r ihl ihr =>
    cases l with
    | leaf =>
      refine ⟨d, rfl, by simp [inorder], ?_⟩
      rintro ⟨_, _, _, har⟩ k hk
      rw [keys_node, keys_leaf, List.nil_append] at hk
      rcases List.mem_cons.mp hk with rfl | hk
      · exact Or.inl rfl
      · exact Or.inr (allKeys_iff_mem.mp har k hk)
    | node a b c =>
      obtain ⟨s, hmin, hmem, hleast⟩ := ihl (by simp)
      refine ⟨s, by simpa [bst_min_node] using hmin, ?_, ?_⟩
      · simp only [inorder, List.mem_append, List.mem_cons]
        exact Or.inl (by simpa [inorder] using hmem)
      · rintro ⟨hlo, hro, hal, har⟩ k hk
        have hsw : s.word ∈ keys (node a b c) := List.mem_map_of_mem (·.word) hmem
        have hsd : keyLt s.word d.word := allKeys_iff_mem.mp hal s.word hsw
        rw [keys_node] at hk
        rcases List.mem_append.mp hk with hk | hk
        · exact hleast hlo k hk
        · rcases List.mem_cons.mp hk with rfl | hk
          · exact Or.inr hsd
          · exact Or.inr (keyLt_trans hsd (allKeys_iff_mem.mp har k hk))

theorem delete_AllKeys {p : Key → Prop} {t : BSTree} (ht : AllKeys p t) :
    ∀ lw, AllKeys p (bst_delete_impl t lw) := by
  induction t with
  | leaf => intro lw; trivial
  | node l d r ihl ihr =>
    intro lw
    obtain ⟨hl, hd, hr⟩ := ht
    simp only [bst_delete_impl]
    cases scmp lw d.word with
    | lt => exact ⟨ihl hl lw, hd, hr⟩
    | gt => exact ⟨hl, hd, ihr hr lw⟩
    | eq =>
      by_cases h1 : l = leaf
      · rw [if_pos h1]; exact hr
      · rw [if_neg h1]
        by_cases h2 : r = leaf
        · rw [if_pos h2]; exact hl
        · rw [if_neg h2]
          obtain ⟨s, hmin, hmem, -⟩ := bst_min_node_spec h2
          rw [hmin]
          have hps : p s.word :=
            allKeys_iff_mem.mp hr s.word (List.mem_map_of_mem (·.word) hmem)
          exact ⟨hl, hps, ihr hr s.word⟩

theorem keys_delete_iff {t : BSTree} (ht : Ordered t) :
    ∀ lw k, k ∈ keys (bst_delete_impl t lw) ↔ k ∈ keys t ∧ k ≠ lw := by
  induction t with
  | leaf => intro lw k; simp [bst_delete_impl, keys_leaf]
  | node l d r ihl ihr =>
    intro lw k
    obtain ⟨hl, hr, hal, har⟩ := ht
    simp only [bst_delete_impl]
    cases hc : scmp lw d.word with
    | lt =>
      have hlwd : lw ≠ d.word := keyLt_ne hc
      simp only [keys_node, List.mem_append, List.mem_cons, ihl hl lw k]
      constructor
      · rintro (hk | rfl | hk)
        · exact ⟨Or.inl hk.1, hk.2⟩
        · exact ⟨Or.inr (Or.inl rfl), fun h => hlwd h.symm⟩
        · have : keyLt lw k := keyLt_trans hc (allKeys_iff_mem.mp har k hk)
          exact ⟨Or.inr (Or.inr hk), fun h => keyLt_ne this h.symm⟩
      · rintro ⟨hk | rfl | hk, hne⟩
        · exact Or.inl ⟨hk, hne⟩
        · exact Or.inr (Or.inl rfl)
        · exact Or.inr (Or.inr hk)
    | gt =>
      have hdlw : keyLt d.word lw := scmp_gt_iff_lt.mp hc
      simp only [keys_node, List.mem_append, List.mem_cons, ihr hr lw k]
      constructor
      · rintro (hk | rfl | hk)
        · have : keyLt k lw := keyLt_trans (allKeys_iff_mem.mp hal k hk) hdlw
          exact ⟨Or.inl hk, keyLt_ne this⟩
        · exact ⟨Or.inr (Or.inl rfl), keyLt_ne hdlw⟩
        · exact ⟨Or.inr (Or.inr hk.1), hk.2⟩
      · rintro ⟨hk | rfl | hk, hne⟩
        · exact Or.inl hk
        · exact Or.inr (Or.inl rfl)
        · exact Or.inr (Or.inr ⟨hk, hne⟩)
    | eq =>
      obtain rfl : lw = d.word := scmp_eq_iff.mp hc
      by_cases h1 : l = leaf
      · rw [if_pos h1]
        subst h1
        rw [keys_node, keys_leaf, List.nil_append]
        constructor
        · intro hk
          have : keyLt d.word k := allKeys_iff_mem.mp har k hk
          exact ⟨List.mem_cons.mpr (Or.inr hk), fun h => keyLt_ne this h.symm⟩
        · rintro ⟨hk, hne⟩
          rcases List.mem_cons.mp hk with rfl | hk
          · exact absurd rfl hne
          · exact hk
      · rw [if_neg h1]
        by_cases h2 : r = leaf
        · rw [if_pos h2]
          subst h2
          rw [keys_node, keys_leaf]
          constructor
          · intro hk
            have : keyLt k d.word := allKeys_iff_mem.mp hal k hk
            exact ⟨List.mem_append.mpr (Or.inl hk), keyLt_ne this⟩
          · rintro ⟨hk, hne⟩
            rcases List.mem_append.mp hk with hk | hk
            · exact hk
            · rcases List.mem_cons.mp hk with rfl | hk
              · exact absurd rfl hne
              · exact absurd hk (by simp)
        · rw [if_neg h2]
          obtain ⟨s, hmin, hmem, hleast⟩ := bst_min_node_spec h2
          rw [hmin]
          have hsr : s.word ∈ keys r := List.mem_map_of_mem (·.word) hmem
          have hds : keyLt d.word s.word := allKeys_iff_mem.mp har s.word hsr
          simp only [keys_node, List.mem_append, List.mem_cons, ihr hr s.word k]
          constructor
          · rintro (hk | rfl | hk)
            · have : keyLt k d.word := allKeys_iff_mem.mp hal k hk
              exact ⟨Or.inl hk, keyLt_ne this⟩
            · exact ⟨Or.inr (Or.inr hsr), fun h => keyLt_ne hds h.symm⟩
            · have : keyLt d.word k := allKeys_iff_mem.mp har k hk.1
              exact ⟨Or.inr (Or.inr hk.1), fun h => keyLt_ne this h.symm⟩
          · rintro ⟨hk | rfl | hk, hne⟩
            · exact Or.inl hk
            · exact absurd rfl hne
            · by_cases hks : k = s.word
              · exact Or.inr (Or.inl hks)
              · exact Or.inr (Or.inr ⟨hk, hks⟩)

theorem delete_Ordered {t : BSTree} (ht : Ordered t) :
    ∀ lw, Ordered (bst_delete_impl t lw) := by
  induction t with
  | leaf => intro lw; trivial
  | node l d r ihl ihr =>
    intro lw
    obtain ⟨hl, hr, hal, har⟩ := ht
    simp only [bst_delete_impl]
    cases hc : scmp lw d.word with
    | lt => exact ⟨ihl hl lw, hr, delete_AllKeys hal lw, har⟩
    | gt => exact ⟨hl, ihr hr lw, hal, delete_AllKeys har lw⟩
    | eq =>
      by_cases h1 : l = leaf
      · rw [if_pos h1]; exact hr
      · rw [if_neg h1]
        by_cases h2 : r = leaf
        · rw [if_pos h2]; exact hl
        · rw [if_neg h2]
          obtain ⟨s, hmin, hmem, hleast⟩ := bst_min_node_spec h2
          rw [hmin]
          have hsr : s.word ∈ keys r := List.mem_map_of_mem (·.word) hmem
          have hds : keyLt d.word s.word := allKeys_iff_mem.mp har s.word hsr
          refine ⟨hl, ihr hr s.word, ?_, ?_⟩
          · exact allKeys_mono (fun k hk => keyLt_trans hk hds) hal
          · rw [allKeys_iff_mem]
            intro k hk
            obtain ⟨hk1, hk2⟩ := (keys_delete_iff hr s.word k).mp hk
            rcases hleast hr k hk1 with rfl | h
            · exact absurd rfl hk2
            · exact h

theorem ordered_insertList : ∀ (ws : List WordRecord) (t : BSTree),
    Ordered t → Ordered (ws.foldl bst_insert t) := by
  intro ws
  induction ws with
  | nil => intro t ht; exact ht
  | cons w ws ih => intro t ht; exact ih _ (insertGo_Ordered ht)

theorem insertGo_ne_leaf (t : BSTree) (n : WordRecord) : insertGo t n ≠ leaf := by
  cases t with
  | leaf => simp [insertGo]
  | node l d r =>
    simp only [insertGo]
    cases scmp n.word d.word <;> simp

theorem ordered_of_pairwise {t : BSTree} (h : (keys t).Pairwise keyLt) :
    Ordered t := by
  induction t with
  | leaf => trivial
  | node l d r ihl ihr =>
    rw [keys_node, List.pairwise_append] at h
    obtain ⟨h1, h2, h3⟩ := h
    rw [List.pairwise_cons] at h2
    refine ⟨ihl h1, ihr h2.2, ?_, ?_⟩
    · rw [allKeys_iff_mem]
      intro k hk
      exact h3 k hk d.word (List.mem_cons_self _ _)
    · rw [allKeys_iff_mem]
      intro k hk
      exact h2.1 k hk

end BSTree

/-! ### AVL tree (avl.c) -/

/-- AVLNode (avl.h): record, two children and a stored height (leaf
nodes carry height 1; a NULL pointer is the empty tree). -/
inductive ATree where
  | leaf
  | node (l : ATree) (data : WordRecord) (r : ATree) (height : Nat)
deriving DecidableEq, Repr

namespace ATree

/-- avl_height (avl.c): the stored height, 0 for NULL. -/
def avl_height : ATree → Nat
  | leaf => 0
  | node _ _ _ h => h

/-- Left child of a node (NULL stays NULL). -/
def leftChild : ATree → ATree
  | leaf => leaf
  | node l _ _ _ => l

/-- Right child of a node (NULL stays NULL). -/
def rightChild : ATree → ATree
  | leaf => leaf
  | node _ _ r _ => r

/-- update_height (avl.c): store 1 + max of the children's stored
heights.  The C function mutates a non-NULL node in place; the model
rebuilds it. -/
def update_height : ATree → ATree
  | leaf => leaf
  | node l d r _ => node l d r (1 + max (avl_height l) (avl_height r))

/-- avl_balance_factor (avl.c): stored height of left minus stored height
of right, 0 for NULL. -/
def avl_balance_factor : ATree → Int
  | leaf => 0
  | node l _ r _ => (avl_height l : Int) - avl_height r

/-- rotate_right (avl.c): pulls the left child up, then updates the two
involved heights (lower node first).  The C code dereferences y->left
unconditionally; the fallthrough case is never reached by rebalance. -/
def rotate_right : ATree → ATree
  | node (node xl xd xr xh) yd yr yh =>
    update_height (node xl xd (update_height (node xr yd yr yh)) xh)
  | t => t

/-- rotate_left (avl.c), mirror image of rotate_right. -/
def rotate_left : ATree → ATree
  | node xl xd (node yl yd yr yh) xh =>
    update_height (node (update_height (node xl xd yl xh)) yd yr yh)
  | t => t

/-- rebalance (avl.c): dispatch on the node's balance factor bf and the
relevant child's balance factor; LL, LR, RR, RL cases, else identity. -/
def rebalance (t : ATree) : ATree :=
  if avl_balance_factor t > 1 ∧ avl_balance_factor (leftChild t) ≥ 0 then
    rotate_right t
  else if avl_balance_factor t > 1 ∧ avl_balance_factor (leftChild t) < 0 then
    match t with
    | node l d r h => rotate_right (node (rotate_left l) d r h)
    | leaf => leaf
  else if avl_balance_factor t < -1 ∧ avl_balance_factor (rightChild t) ≤ 0 then
    rotate_left t
  else if avl_balance_factor t < -1 ∧ avl_balance_factor (rightChild t) > 0 then
    match t with
    | node l d r h => rotate_left (node l d (rotate_right r) h)
    | leaf => leaf
  else t

/-- avl_new_node (avl.c): fresh node of height 1 (exits on malloc
failure; the allocation-failure model is separate). -/
def avl_new_node (r0 : WordRecord) : ATree := node leaf r0 leaf 1

/-- avl_insert_impl (avl.c): BST descent, then update_height and
rebalance on the way back up; duplicates return the subtree unchanged. -/
def avl_insert_impl : ATree → WordRecord → ATree
  | leaf, r0 => avl_new_node r0
  | node l d r h, r0 =>
    match scmp r0.word d.word with
    | .lt => rebalance (update_height (node (avl_insert_impl l r0) d r h))
    | .gt => rebalance (update_height (node l d (avl_insert_impl r r0) h))
    | .eq => node l d r h

/-- avl_insert (avl.c): lowercases the word into the record copy, then
runs the recursive insert. -/
def avl_insert (t : ATree) (r0 : WordRecord) : ATree :=
  avl_insert_impl t (normRec r0)

/-- avl_min_node (avl.c): record of the leftmost node of a subtree. -/
def avl_min_node : ATree → Option WordRecord
  | leaf => none
  | node leaf d _ _ => some d
  | node (node a b c h) _ _ _ => avl_min_node (node a b c h)

/-- avl_delete_impl (avl.c): BST delete with update_height and rebalance
on the way back up.  The 0-or-1-child case returns the surviving child
directly (no rebalance at this frame, matching the early return). -/
def avl_delete_impl : ATree → Key → ATree
  | leaf, _ => leaf
  | node l d r h, w =>
    match scmp w d.word with
    | .lt => rebalance (update_height (node (avl_delete_impl l w) d r h))
    | .gt => rebalance (update_height (node l d (avl_delete_impl r w) h))
    | .eq =>
      if l = leaf then r
      else if r = leaf then l
      else
        match avl_min_node r with
        | some s => rebalance (update_height (node l s (avl_delete_impl r s.word) h))
        | none => node l d r h

/-- avl_delete (avl.c): lowercase, then recursive delete. -/
def avl_delete (t : ATree) (w : Key) : ATree :=
  avl_delete_impl t (strToLower w)

/-- avl_search_impl (avl.c): recursive descent. -/
def avl_search_impl : ATree → Key → Option WordRecord
  | leaf, _ => none
  | node l d r _, w =>
    match scmp w d.word with
    | .lt => avl_search_impl l w
    | .gt => avl_search_impl r w
    | .eq => some d

/-- avl_search (avl.c): lowercase, then descend. -/
def avl_search (t : ATree) (w : Key) : Option WordRecord :=
  avl_search_impl t (strToLower w)

/-- Visit order of avl_inorder (avl.c). -/
def inorder : ATree → List WordRecord
  | leaf => []
  | node l d r _ => inorder l ++ d :: inorder r

/-- avl_count (avl.c). -/
def avl_count : ATree → Nat
  | leaf => 0
  | node l _ r _ => 1 + avl_count l + avl_count r

/-- Keys stored in the tree, in in-order. -/
def keys (t : ATree) : List Key := (inorder t).map (·.word)

/-- Real height of the tree shape, independent of the stored fields. -/
def rh : ATree → Nat
  | leaf => 0
  | node l _ r _ => 1 + max (rh l) (rh r)

/-- All stored height fields are correct: each node stores one more than
the max of its children's heights. -/
def WellH : ATree → Prop
  | leaf => True
  | node l _ r h => WellH l ∧ WellH r ∧ h = 1 + max (rh l) (rh r)

/-- AVL balance invariant on the real heights. -/
def BalancedT : ATree → Prop
  | leaf => True
  | node l _ r _ =>
      BalancedT l ∧ BalancedT r ∧
      (rh l : Int) - rh r ≤ 1 ∧ (rh r : Int) - rh l ≤ 1

theorem avl_height_eq_rh : ∀ {t : ATree}, WellH t → avl_height t = rh t
  | leaf, _ => rfl
  | node l _ r h, ⟨_, _, hh⟩ => hh

theorem avl_height_node (l : ATree) (d : WordRecord) (r : ATree) (h : Nat) :
    avl_height (node l d r h) = h := rfl

/-- Erase the stored heights: the underlying plain binary search tree. -/
def strip : ATree → BSTree
  | leaf => .leaf
  | node l d r _ => .node (strip l) d (strip r)

theorem strip_inorder : ∀ t : ATree, BSTree.inorder (strip t) = inorder t
  | leaf => rfl
  | node l d r _ => by
    simp [strip, BSTree.inorder, inorder, strip_inorder l, strip_inorder r]

theorem strip_keys (t : ATree) : BSTree.keys (strip t) = keys t := by
  simp [BSTree.keys, keys, strip_inorder]

theorem strip_eq_leaf_iff {t : ATree} : strip t = .leaf ↔ t = leaf := by
  cases t <;> simp [strip]

theorem inorder_update_height (t : ATree) :
    inorder (update_height t) = inorder t := by
  cases t <;> rfl

theorem inorder_rotate_right (t : ATree) :
    inorder (rotate_right t) = inorder t := by
  cases t with
  | leaf => rfl
  | node l d r h =>
    cases l with
    | leaf => rfl
    | node xl xd xr xh =>
      simp [rotate_right, update_height, inorder]

theorem inorder_rotate_left (t : ATree) :
    inorder (rotate_left t) = inorder t := by
  cases t with
  | leaf => rfl
  | node l d r h =>
    cases r with
    | leaf => rfl
    | node yl yd yr yh =>
      simp [rotate_left, update_height, inorder]

theorem inorder_rebalance (t : ATree) : inorder (rebalance t) = inorder t := by
  unfold rebalance
  split_ifs with h1 h2 h3 h4
  · exact inorder_rotate_right t
  · cases t with
    | leaf => rfl
    | node l d r h =>
      rw [inorder_rotate_right]
      simp [inorder, inorder_rotate_left]
  · exact inorder_rotate_left t
  · cases t with
    | leaf => rfl
    | node l d r h =>
      rw [inorder_rotate_left]
      simp [inorder, inorder_rotate_right]
  · rfl

theorem avl_min_eq_bst_min : ∀ t : ATree,
    avl_min_node t = BSTree.bst_min_node (strip t)
  | leaf => rfl
  | node leaf _ _ _ => rfl
  | node (node a b c hh) _ _ _ => by
    rw [show avl_min_node (node (node a b c hh) _ _ _) =
        avl_min_node (node a b c hh) from rfl,
      avl_min_eq_bst_min (node a b c hh)]
    rfl

theorem inorder_insert_impl (t : ATree) (n : WordRecord) :
    inorder (avl_insert_impl t n) =
      BSTree.inorder (BSTree.insertGo (strip t) n) := by
  induction t with
  | leaf => rfl
  | node l d r h ihl ihr =>
    simp only [avl_insert_impl, strip, BSTree.insertGo]
    cases scmp n.word d.word with
    | lt =>
      rw [inorder_rebalance, inorder_update_height]
      simp [inorder, BSTree.inorder, ihl, strip_inorder]
    | gt =>
      rw [inorder_rebalance, inorder_update_height]
      simp [inorder, BSTree.inorder, ihr, strip_inorder]
    | eq => simp [inorder, BSTree.inorder, strip_inorder]

theorem inorder_delete_impl (t : ATree) :
    ∀ w, inorder (avl_delete_impl t w) =
      BSTree.inorder (BSTree.bst_delete_impl (strip t) w) := by
  induction t with
  | leaf => intro w; rfl
  | node l d r h ihl ihr =>
    intro w
    simp only [avl_delete_impl, strip, BSTree.bst_delete_impl]
    cases hc : scmp w d.word with
    | lt =>
      rw [inorder_rebalance, inorder_update_height]
      simp [inorder, BSTree.inorder, ihl, strip_inorder]
    | gt =>
      rw [inorder_rebalance, inorder_update_height]
      simp [inorder, BSTree.inorder, ihr, strip_inorder]
    | eq =>
      by_cases h1 : l = leaf
      · rw [if_pos h1, if_pos (strip_eq_leaf_iff.mpr h1)]
        exact (strip_inorder r).symm
      · rw [if_neg h1, if_neg (fun hh => h1 (strip_eq_leaf_iff.mp hh))]
        by_cases h2 : r = leaf
        · rw [if_pos h2, if_pos (strip_eq_leaf_iff.mpr h2)]
          exact (strip_inorder l).symm
        · rw [if_neg h2, if_neg (fun hh => h2 (strip_eq_leaf_iff.mp hh))]
          rw [avl_min_eq_bst_min r]
          cases hm : BSTree.bst_min_node (strip r) with
          | none => simp [inorder, BSTree.inorder, strip_inorder]
          | some s =>
            rw [inorder_rebalance, inorder_update_height]
            simp [inorder, BSTree.inorder, strip_inorder, ihr]

/-- Combined AVL structural invariant: all stored heights correct and
every node balanced. -/
def Good (t : ATree) : Prop := WellH t ∧ BalancedT t

theorem rotate_right_eq {ll : ATree} {ld : WordRecord} {lr : ATree} (lh : Nat)
    (d : WordRecord) {r : ATree} (h : Nat)
    (h1 : WellH ll) (h2 : WellH lr) (h3 : WellH r) :
    rotate_right (node (node ll ld lr lh) d r h) =
      node ll ld (node lr d r (1 + max (rh lr) (rh r)))
        (1 + max (rh ll) (1 + max (rh lr) (rh r))) := by
  simp [rotate_right, update_height, avl_height_node, avl_height_eq_rh h1,
    avl_height_eq_rh h2, avl_height_eq_rh h3]

theorem rotate_left_eq {l : ATree} (d : WordRecord) {rl : ATree}
    (rd : WordRecord) {rr : ATree} (rh0 h : Nat)
    (h1 : WellH l) (h2 : WellH rl) (h3 : WellH rr) :
    rotate_left (node l d (node rl rd rr rh0) h) =
      node (node l d rl (1 + max (rh l) (rh rl))) rd rr
        (1 + max (1 + max (rh l) (rh rl)) (rh rr)) := by
  simp [rotate_left, update_height, avl_height_node, avl_height_eq_rh h1,
    avl_height_eq_rh h2, avl_height_eq_rh h3]

theorem rebalance_id {l : ATree} (d : WordRecord) {r : ATree} (h : Nat)
    (hwl : WellH l) (hwr : WellH r)
    (hb1 : (rh l : Int) - rh r ≤ 1) (hb2 : (rh r : Int) - rh l ≤ 1) :
    rebalance (node l d r h) = node l d r h := by
  have hbf : avl_balance_factor (node l d r h) = (rh l : Int) - rh r := by
    simp [avl_balance_factor, avl_height_eq_rh hwl, avl_height_eq_rh hwr]
  unfold rebalance
  rw [if_neg, if_neg, if_neg, if_neg]
  · rintro ⟨ha, -⟩; rw [hbf] at ha; omega
  · rintro ⟨ha, -⟩; rw [hbf] at ha; omega
  · rintro ⟨ha, -⟩; rw [hbf] at ha; omega
  · rintro ⟨ha, -⟩; rw [hbf] at ha; omega

theorem rebalance_spec {l : ATree} (d : WordRecord) {r : ATree}
    (hgl : Good l) (hgr : Good r)
    (hd2 : (rh l : Int) - rh r ≤ 2) (hd2' : (rh r : Int) - rh l ≤ 2) :
    Good (rebalance (node l d r (1 + max (rh l) (rh r)))) ∧
      (rh (rebalance (node l d r (1 + max (rh l) (rh r)))) = 1 + max (rh l) (rh r) ∨
       rh (rebalance (node l d r (1 + max (rh l) (rh r)))) + 1 = 1 + max (rh l) (rh r)) := by
  obtain ⟨hwl, hbl⟩ := hgl
  obtain ⟨hwr, hbr⟩ := hgr
  by_cases hsmall : (rh l : Int) - rh r ≤ 1 ∧ (rh r : Int) - rh l ≤ 1
  · rw [rebalance_id d _ hwl hwr hsmall.1 hsmall.2]
    exact ⟨⟨⟨hwl, hwr, rfl⟩, hbl, hbr, hsmall.1, hsmall.2⟩, Or.inl rfl⟩
  · have hbfl : avl_balance_factor l = (rh (leftChild l) : Int) - rh (rightChild l) ∨ l = leaf := by
      cases l with
      | leaf => exact Or.inr rfl
      | node a b c hh =>
        obtain ⟨hwa, hwc, -⟩ := hwl
        exact Or.inl (by simp [avl_balance_factor, leftChild, rightChild,
          avl_height_eq_rh hwa, avl_height_eq_rh hwc])
    have hcase : (rh l : Int) - rh r = 2 ∨ (rh r : Int) - rh l = 2 := by omega
    have hbfroot : avl_balance_factor (node l d r (1 + max (rh l) (rh r))) =
        (rh l : Int) - rh r := by
      simp [avl_balance_factor, avl_height_eq_rh hwl, avl_height_eq_rh hwr]
    rcases hcase with hcase | hcase
    · -- left heavy by exactly two
      cases l with
      | leaf => simp [rh] at hcase; omega
      | node ll ld lr lh =>
        obtain ⟨hwll, hwlr, hlh⟩ := hwl
        obtain ⟨hbll, hblr, hL1, hL2⟩ := hbl
        have hbfleft : avl_balance_factor (leftChild
            (node (node ll ld lr lh) d r (1 + max (rh (node ll ld lr lh)) (rh r)))) =
            (rh ll : Int) - rh lr := by
          simp [leftChild, avl_balance_factor, avl_height_eq_rh hwll,
            avl_height_eq_rh hwlr]
        by_cases hLL : (rh ll : Int) - rh lr ≥ 0
        · -- LL: single right rotation
          have hsel : rebalance (node (node ll ld lr lh) d r
              (1 + max (rh (node ll ld lr lh)) (rh r))) =
              rotate_right (node (node ll ld lr lh) d r
                (1 + max (rh (node ll ld lr lh)) (rh r))) := by
            unfold rebalance
            rw [if_pos ⟨by rw [hbfroot]; omega, by rw [hbfleft]; omega⟩]
          rw [hsel, rotate_right_eq lh d _ hwll hwlr hwr]
          simp only [rh] at hcase hL1 hL2
          exact ⟨⟨⟨hwll, ⟨hwlr, hwr, by (try simp only [rh]); all_goals omega⟩, by (try simp only [rh]); all_goals omega⟩,
            hbll, ⟨hblr, hbr, by (try simp only [rh]); all_goals omega, by (try simp only [rh]); all_goals omega⟩,
            by (try simp only [rh]); all_goals omega, by (try simp only [rh]); all_goals omega⟩,
            by (try simp only [rh]); all_goals omega⟩
        · -- LR: rotate left child left, then rotate right
          cases lr with
          | leaf => simp [rh] at hLL
          | node p pd q ph =>
            obtain ⟨hwp, hwq, hph⟩ := hwlr
            obtain ⟨hbp, hbq, hq1, hq2⟩ := hblr
            have hsel : rebalance (node (node ll ld (node p pd q ph) lh) d r
                (1 + max (rh (node ll ld (node p pd q ph) lh)) (rh r))) =
                rotate_right (node (rotate_left (node ll ld (node p pd q ph) lh)) d r
                  (1 + max (rh (node ll ld (node p pd q ph) lh)) (rh r))) := by
              unfold rebalance
              rw [if_neg (fun hcc => by rw [hbfleft] at hcc; omega),
                if_pos ⟨by rw [hbfroot]; omega, by rw [hbfleft]; omega⟩]
            have hw1 : WellH (node ll ld p (1 + max (rh ll) (rh p))) := ⟨hwll, hwp, rfl⟩
            rw [hsel, rotate_left_eq ld pd ph lh hwll hwp hwq,
              rotate_right_eq _ d _ hw1 hwq hwr]
            simp only [rh] at hcase hL1 hL2 hq1 hq2 hLL
            exact ⟨⟨⟨⟨hwll, hwp, by (try simp only [rh]); all_goals omega⟩,
              ⟨hwq, hwr, by (try simp only [rh]); all_goals omega⟩, by (try simp only [rh]); all_goals omega⟩,
              ⟨hbll, hbp, by (try simp only [rh]); all_goals omega, by (try simp only [rh]); all_goals omega⟩,
              ⟨hbq, hbr, by (try simp only [rh]); all_goals omega, by (try simp only [rh]); all_goals omega⟩,
              by (try simp only [rh]); all_goals omega, by (try simp only [rh]); all_goals omega⟩,
              by (try simp only [rh]); all_goals omega⟩
    · -- right heavy by exactly two
      cases r with
      | leaf => simp [rh] at hcase; omega
      | node rl rd rr rhh =>
        obtain ⟨hwrl, hwrr, hrh⟩ := hwr
        obtain ⟨hbrl, hbrr, hR1, hR2⟩ := hbr
        have hbfright : avl_balance_factor (rightChild
            (node l d (node rl rd rr rhh) (1 + max (rh l) (rh (node rl rd rr rhh))))) =
            (rh rl : Int) - rh rr := by
          simp [rightChild, avl_balance_factor, avl_height_eq_rh hwrl,
            avl_height_eq_rh hwrr]
        by_cases hRR : (rh rl : Int) - rh rr ≤ 0
        · -- RR: single left rotation
          have hsel : rebalance (node l d (node rl rd rr rhh)
              (1 + max (rh l) (rh (node rl rd rr rhh)))) =
              rotate_left (node l d (node rl rd rr rhh)
                (1 + max (rh l) (rh (node rl rd rr rhh)))) := by
            unfold rebalance
            rw [if_neg (fun hcc => by rw [hbfroot] at hcc; omega),
              if_neg (fun hcc => by rw [hbfroot] at hcc; omega),
              if_pos ⟨by rw [hbfroot]; omega, by rw [hbfright]; omega⟩]
          rw [hsel, rotate_left_eq d rd rhh _ hwl hwrl hwrr]
          simp only [rh] at hcase hR1 hR2
          exact ⟨⟨⟨⟨hwl, hwrl, by (try simp only [rh]); all_goals omega⟩, hwrr, by (try simp only [rh]); all_goals omega⟩,
            ⟨hbl, hbrl, by (try simp only [rh]); all_goals omega, by (try simp only [rh]); all_goals omega⟩,
            hbrr, by (try simp only [rh]); all_goals omega, by (try simp only [rh]); all_goals omega⟩,
            by (try simp only [rh]); all_goals omega⟩
        · -- RL: rotate right child right, then rotate left
          cases rl with
          | leaf => simp [rh] at hRR
          | node p pd q ph =>
            obtain ⟨hwp, hwq, hph⟩ := hwrl
            obtain ⟨hbp, hbq, hq1, hq2⟩ := hbrl
            have hsel : rebalance (node l d (node (node p pd q ph) rd rr rhh)
                (1 + max (rh l) (rh (node (node p pd q ph) rd rr rhh)))) =
                rotate_left (node l d
                  (rotate_right (node (node p pd q ph) rd rr rhh))
                  (1 + max (rh l) (rh (node (node p pd q ph) rd rr rhh)))) := by
              unfold rebalance
              rw [if_neg (fun hcc => by rw [hbfroot] at hcc; omega),
                if_neg (fun hcc => by rw [hbfroot] at hcc; omega),
                if_neg (fun hcc => by rw [hbfright] at hcc; omega),
                if_pos ⟨by rw [hbfroot]; omega, by rw [hbfright]; omega⟩]
            have hw1 : WellH (node q rd rr (1 + max (rh q) (rh rr))) := ⟨hwq, hwrr, rfl⟩
            rw [hsel, rotate_right_eq ph rd rhh hwp hwq hwrr,
              rotate_left_eq d pd _ _ hwl hwp hw1]
            simp only [rh] at hcase hR1 hR2 hq1 hq2 hRR
            exact ⟨⟨⟨⟨hwl, hwp, by (try simp only [rh]); all_goals omega⟩,
              ⟨hwq, hwrr, by (try simp only [rh]); all_goals omega⟩, by (try simp only [rh]); all_goals omega⟩,
              ⟨hbl, hbp, by (try simp only [rh]); all_goals omega, by (try simp only [rh]); all_goals omega⟩,
              ⟨hbq, hbrr, by (try simp only [rh]); all_goals omega, by (try simp only [rh]); all_goals omega⟩,
              by (try simp only [rh]); all_goals omega, by (try simp only [rh]); all_goals omega⟩,
              by (try simp only [rh]); all_goals omega⟩

theorem avl_insert_impl_good : ∀ (t : ATree), Good t → ∀ n : WordRecord,
    Good (avl_insert_impl t n) ∧
      (rh (avl_insert_impl t n) = rh t ∨ rh (avl_insert_impl t n) = rh t + 1) := by
  intro t
  induction t with
  | leaf =>
    intro _ n
    refine ⟨⟨⟨trivial, trivial, by simp [rh]⟩,
      trivial, trivial, by simp [rh], by simp [rh]⟩, ?_⟩
    right
    simp [avl_insert_impl, avl_new_node, rh]
  | node l d r h ihl ihr =>
    intro hg n
    obtain ⟨⟨hwl, hwr, hh⟩, hbl, hbr, hb1, hb2⟩ := hg
    simp only [avl_insert_impl]
    cases hc : scmp n.word d.word with
    | lt =>
      obtain ⟨⟨hwl2, hbl2⟩, hdel⟩ := ihl ⟨hwl, hbl⟩ n
      have hup : update_height (node (avl_insert_impl l n) d r h) =
          node (avl_insert_impl l n) d r (1 + max (rh (avl_insert_impl l n)) (rh r)) := by
        simp [update_height, avl_height_eq_rh hwl2, avl_height_eq_rh hwr]
      rw [hup]
      by_cases hsm : (rh (avl_insert_impl l n) : Int) - rh r ≤ 1 ∧
          (rh r : Int) - rh (avl_insert_impl l n) ≤ 1
      · rw [rebalance_id d _ hwl2 hwr hsm.1 hsm.2]
        exact ⟨⟨⟨hwl2, hwr, rfl⟩, hbl2, hbr, hsm.1, hsm.2⟩,
          by simp only [rh]; omega⟩
      · obtain ⟨hgood, hht⟩ := rebalance_spec d ⟨hwl2, hbl2⟩ ⟨hwr, hbr⟩
          (by omega) (by omega)
        refine ⟨hgood, ?_⟩
        simp only [rh] at hht ⊢
        omega
    | gt =>
      obtain ⟨⟨hwr2, hbr2⟩, hdel⟩ := ihr ⟨hwr, hbr⟩ n
      have hup : update_height (node l d (avl_insert_impl r n) h) =
          node l d (avl_insert_impl r n) (1 + max (rh l) (rh (avl_insert_impl r n))) := by
        simp [update_height, avl_height_eq_rh hwl, avl_height_eq_rh hwr2]
      rw [hup]
      by_cases hsm : (rh l : Int) - rh (avl_insert_impl r n) ≤ 1 ∧
          (rh (avl_insert_impl r n) : Int) - rh l ≤ 1
      · rw [rebalance_id d _ hwl hwr2 hsm.1 hsm.2]
        exact ⟨⟨⟨hwl, hwr2, rfl⟩, hbl, hbr2, hsm.1, hsm.2⟩,
          by simp only [rh]; omega⟩
      · obtain ⟨hgood, hht⟩ := rebalance_spec d ⟨hwl, hbl⟩ ⟨hwr2, hbr2⟩
          (by omega) (by omega)
        refine ⟨hgood, ?_⟩
        simp only [rh] at hht ⊢
        omega
    | eq => exact ⟨⟨⟨hwl, hwr, hh⟩, hbl, hbr, hb1, hb2⟩, Or.inl rfl⟩

theorem avl_delete_impl_good : ∀ (t : ATree), Good t → ∀ w : Key,
    Good (avl_delete_impl t w) ∧
      (rh (avl_delete_impl t w) = rh t ∨ rh (avl_delete_impl t w) + 1 = rh t) := by
  intro t
  induction t with
  | leaf => intro _ w; exact ⟨⟨trivial, trivial⟩, Or.inl rfl⟩
  | node l d r h ihl ihr =>
    intro hg w
    obtain ⟨⟨hwl, hwr, hh⟩, hbl, hbr, hb1, hb2⟩ := hg
    simp only [avl_delete_impl]
    cases hc : scmp w d.word with
    | lt =>
      obtain ⟨⟨hwl2, hbl2⟩, hdel⟩ := ihl ⟨hwl, hbl⟩ w
      have hup : update_height (node (avl_delete_impl l w) d r h) =
          node (avl_delete_impl l w) d r (1 + max (rh (avl_delete_impl l w)) (rh r)) := by
        simp [update_height, avl_height_eq_rh hwl2, avl_height_eq_rh hwr]
      rw [hup]
      by_cases hsm : (rh (avl_delete_impl l w) : Int) - rh r ≤ 1 ∧
          (rh r : Int) - rh (avl_delete_impl l w) ≤ 1
      · rw [rebalance_id d _ hwl2 hwr hsm.1 hsm.2]
        exact ⟨⟨⟨hwl2, hwr, rfl⟩, hbl2, hbr, hsm.1, hsm.2⟩,
          by simp only [rh]; omega⟩
      · obtain ⟨hgood, hht⟩ := rebalance_spec d ⟨hwl2, hbl2⟩ ⟨hwr, hbr⟩
          (by omega) (by omega)
        refine ⟨hgood, ?_⟩
        simp only [rh] at hht ⊢
        omega
    | gt =>
      obtain ⟨⟨hwr2, hbr2⟩, hdel⟩ := ihr ⟨hwr, hbr⟩ w
      have hup : update_height (node l d (avl_delete_impl r w) h) =
          node l d (avl_delete_impl r w) (1 + max (rh l) (rh (avl_delete_impl r w))) := by
        simp [update_height, avl_height_eq_rh hwl, avl_height_eq_rh hwr2]
      rw [hup]
      by_cases hsm : (rh l : Int) - rh (avl_delete_impl r w) ≤ 1 ∧
          (rh (avl_delete_impl r w) : Int) - rh l ≤ 1
      · rw [rebalance_id d _ hwl hwr2 hsm.1 hsm.2]
        exact ⟨⟨⟨hwl, hwr2, rfl⟩, hbl, hbr2, hsm.1, hsm.2⟩,
          by simp only [rh]; omega⟩
      · obtain ⟨hgood, hht⟩ := rebalance_spec d ⟨hwl, hbl⟩ ⟨hwr2, hbr2⟩
          (by omega) (by omega)
        refine ⟨hgood, ?_⟩
        simp only [rh] at hht ⊢
        omega
    | eq =>
      by_cases h1 : l = leaf
      · rw [if_pos h1]
        subst h1
        refine ⟨⟨hwr, hbr⟩, ?_⟩
        simp only [rh] at hb1 hb2 ⊢
        omega
      · rw [if_neg h1]
        by_cases h2 : r = leaf
        · rw [if_pos h2]
          subst h2
          refine ⟨⟨hwl, hbl⟩, ?_⟩
          simp only [rh] at hb1 hb2 ⊢
          omega
        · rw [if_neg h2]
          obtain ⟨s, hs, -, -⟩ :=
            BSTree.bst_min_node_spec (fun hh => h2 (strip_eq_leaf_iff.mp hh))
          rw [avl_min_eq_bst_min, hs]
          change Good (rebalance (update_height (node l s (avl_delete_impl r s.word) h))) ∧
            (rh (rebalance (update_height (node l s (avl_delete_impl r s.word) h))) =
              rh (node l d r h) ∨
             rh (rebalance (update_height (node l s (avl_delete_impl r s.word) h))) + 1 =
              rh (node l d r h))
          obtain ⟨⟨hwr2, hbr2⟩, hdel⟩ := ihr ⟨hwr, hbr⟩ s.word
          have hup : update_height (node l s (avl_delete_impl r s.word) h) =
              node l s (avl_delete_impl r s.word)
                (1 + max (rh l) (rh (avl_delete_impl r s.word))) := by
            simp [update_height, avl_height_eq_rh hwl, avl_height_eq_rh hwr2]
          rw [hup]
          by_cases hsm : (rh l : Int) - rh (avl_delete_impl r s.word) ≤ 1 ∧
              (rh (avl_delete_impl r s.word) : Int) - rh l ≤ 1
          · rw [rebalance_id s _ hwl hwr2 hsm.1 hsm.2]
            exact ⟨⟨⟨hwl, hwr2, rfl⟩, hbl, hbr2, hsm.1, hsm.2⟩,
              by simp only [rh]; omega⟩
          · obtain ⟨hgood, hht⟩ := rebalance_spec s ⟨hwl, hbl⟩ ⟨hwr2, hbr2⟩
              (by omega) (by omega)
            refine ⟨hgood, ?_⟩
            simp only [rh] at hht ⊢
            omega

theorem keys_node_avl (l : ATree) (d : WordRecord) (r : ATree) (h : Nat) :
    keys (node l d r h) = keys l ++ d.word :: keys r := by
  simp [keys, inorder]

theorem keys_insert_eq (t : ATree) (n : WordRecord) :
    keys (avl_insert_impl t n) = BSTree.keys (BSTree.insertGo (strip t) n) := by
  simp [keys, BSTree.keys, inorder_insert_impl]

theorem keys_delete_eq (t : ATree) (w : Key) :
    keys (avl_delete_impl t w) = BSTree.keys (BSTree.bst_delete_impl (strip t) w) := by
  simp [keys, BSTree.keys, inorder_delete_impl]

theorem avl_count_eq_length : ∀ t : ATree, avl_count t = (inorder t).length
  | leaf => rfl
  | node l _ r _ => by
    simp [avl_count, inorder, avl_count_eq_length l, avl_count_eq_length r]
    omega

/-- Inserting a word already present into a well-formed AVL tree returns
the tree entirely unchanged (the C code recomputes identical heights and
rebalance is the identity on balanced nodes). -/
theorem avl_insert_impl_duplicate : ∀ (t : ATree), Good t →
    BSTree.Ordered (strip t) → ∀ {n : WordRecord}, n.word ∈ keys t →
    avl_insert_impl t n = t := by
  intro t
  induction t with
  | leaf => intro _ _ n hmem; simp [keys, inorder] at hmem
  | node l d r h ihl ihr =>
    intro hg ho n hmem
    obtain ⟨⟨hwl, hwr, hh⟩, hbl, hbr, hb1, hb2⟩ := hg
    obtain ⟨hol, hor, hall, halr⟩ := ho
    rw [keys_node_avl] at hmem
    simp only [List.mem_append, List.mem_cons] at hmem
    have hupd : update_height (node l d r h) = node l d r h := by
      simp [update_height, avl_height_eq_rh hwl, avl_height_eq_rh hwr, hh]
    simp only [avl_insert_impl]
    cases hc : scmp n.word d.word with
    | eq => rfl
    | lt =>
      have hmem_l : n.word ∈ keys l := by
        rcases hmem with hk | hk | hk
        · exact hk
        · exact absurd hc (by rw [hk, scmp_self]; simp)
        · have : keyLt d.word n.word := by
            have := BSTree.allKeys_iff_mem.mp halr n.word
            rw [strip_keys] at this
            exact this hk
          exact absurd (keyLt_trans hc this) (keyLt_irrefl n.word)
      rw [ihl ⟨hwl, hbl⟩ hol hmem_l, hupd, rebalance_id d h hwl hwr hb1 hb2]
    | gt =>
      have hmem_r : n.word ∈ keys r := by
        rcases hmem with hk | hk | hk
        · have : keyLt n.word d.word := by
            have := BSTree.allKeys_iff_mem.mp hall n.word
            rw [strip_keys] at this
            exact this hk
          have hgl := scmp_gt_iff_lt.mp hc
          exact absurd (keyLt_trans this hgl) (keyLt_irrefl n.word)
        · exact absurd hc (by rw [hk, scmp_self]; simp)
        · exact hk
      rw [ihr ⟨hwr, hbr⟩ hor hmem_r, hupd, rebalance_id d h hwl hwr hb1 hb2]

end ATree

/-! ### Right-threaded binary tree (tbt.c)

The threaded tree is a pointer structure (threads point back up the
tree), so it is modelled by an explicit heap: a list of nodes indexed by
address, with the header sentinel at address 0.  Allocation appends a
node at the end of the store. -/

/-- TBTNode (tbt.h): record, two links and two thread flags. -/
structure TBTNode where
  data : WordRecord
  left : Nat
  right : Nat
  lthread : Bool
  rthread : Bool
deriving DecidableEq, Repr

/-- Node store of one threaded tree; the header lives at address 0. -/
abbrev THeap := List TBTNode

namespace TBT

/-- word_record_init (dictionary.c): zeroed record with default
frequency 1, held by the header. -/
def emptyRec : WordRecord := ⟨[], [], [], 1, 0⟩

/-- tbt_create_header (tbt.c): the self-referential empty header; left
and right point to itself and both flags mark threads. -/
def tbt_create_header : THeap := [⟨emptyRec, 0, 0, true, true⟩]

/-- Navigation loop of tbt_insert (and tbt_search): descend BST-style,
treating a thread flag as the absence of a child.  Returns some none on
a duplicate, some (some (parent, wentLeft)) at the empty slot; none only
when the fuel runs out or a pointer dangles, which never happens on
well-formed heaps. -/
def descend (hp : THeap) (w : Key) : Nat → Nat → Bool → Option Nat →
    Option (Option (Nat × Bool))
  | 0, _, _, _ => none
  | fuel + 1, parent, wentLeft, cur =>
    match cur with
    | none => some (some (parent, wentLeft))
    | some c =>
      match hp[c]? with
      | none => none
      | some nd =>
        match scmp w nd.data.word with
        | .eq => some none
        | .lt => descend hp w fuel c true (if nd.lthread then none else some nd.left)
        | .gt => descend hp w fuel c false (if nd.rthread then none else some nd.right)

/-- tbt_insert (tbt.c): lowercase the word, navigate to the empty slot
(duplicates are skipped silently), then wire the fresh node so that its
threads inherit the predecessor/successor relationship from the parent. -/
def tbt_insert (hp : THeap) (r0 : WordRecord) : THeap :=
  let r1 := normRec r0
  match hp[0]? with
  | none => hp
  | some hd =>
    match descend hp r1.word (hp.length + 1) 0 true
        (if hd.lthread then none else some hd.left) with
    | none => hp
    | some none => hp
    | some (some (p, wentLeft)) =>
      match hp[p]? with
      | none => hp
      | some pn =>
        if wentLeft then
          (hp.set p { pn with left := hp.length, lthread := false }) ++
            [⟨r1, pn.left, p, pn.lthread, true⟩]
        else
          (hp.set p { pn with right := hp.length, rthread := false }) ++
            [⟨r1, p, pn.right, true, pn.rthread⟩]

/-- Search loop of tbt_search (tbt.c), on the pre-lowercased word. -/
def searchGo (hp : THeap) (w : Key) : Nat → Option Nat → Option WordRecord
  | 0, _ => none
  | _ + 1, none => none
  | fuel + 1, some c =>
    match hp[c]? with
    | none => none
    | some nd =>
      match scmp w nd.data.word with
      | .eq => some nd.data
      | .lt => searchGo hp w fuel (if nd.lthread then none else some nd.left)
      | .gt => searchGo hp w fuel (if nd.rthread then none else some nd.right)

/-- tbt_search (tbt.c): lowercase, then descend from the header's root. -/
def tbt_search (hp : THeap) (w : Key) : Option WordRecord :=
  match hp[0]? with
  | none => none
  | some hd =>
    searchGo hp (strToLower w) (hp.length + 1)
      (if hd.lthread then none else some hd.left)

/-- Loop to the leftmost node of a subtree: follow left links while the
left flag marks a real child. -/
def leftmostFrom (hp : THeap) : Nat → Nat → Option Nat
  | 0, _ => none
  | fuel + 1, a =>
    match hp[a]? with
    | none => none
    | some nd => if nd.lthread then some a else leftmostFrom hp fuel nd.left

/-- tbt_inorder_successor (tbt.c): follow the right thread directly, or
descend to the leftmost node of the right subtree. -/
def tbt_inorder_successor (hp : THeap) (a : Nat) : Option Nat :=
  match hp[a]? with
  | none => none
  | some nd =>
    if nd.rthread then some nd.right
    else leftmostFrom hp (hp.length + 1) nd.right

/-- Visit loop shared by tbt_inorder, tbt_count and the collection phase
of tbt_delete: from a node, repeatedly step to the in-order successor
until the walk returns to the header, listing the visited records. -/
def walkFrom (hp : THeap) : Nat → Nat → Option (List WordRecord)
  | 0, _ => none
  | fuel + 1, a =>
    if a = 0 then some []
    else
      match hp[a]? with
      | none => none
      | some nd =>
        match tbt_inorder_successor hp a with
        | none => none
        | some nxt => (walkFrom hp fuel nxt).map (nd.data :: ·)

/-- tbt_inorder (tbt.c) visit sequence: empty if the header's left is a
thread, else walk from the leftmost real node. -/
def tbt_inorder_list (hp : THeap) : Option (List WordRecord) :=
  match hp[0]? with
  | none => none
  | some hd =>
    if hd.lthread then some []
    else
      match leftmostFrom hp (hp.length + 1) hd.left with
      | none => none
      | some start => walkFrom hp (hp.length + 1) start

/-- tbt_count (tbt.c): same walk as tbt_inorder with a counter instead
of the callback; modelled as the length of the visited sequence. -/
def tbt_count (hp : THeap) : Nat :=
  match tbt_inorder_list hp with
  | none => 0
  | some l => l.length

/-- tbt_delete (tbt.c): collect every record except the target via a
full walk, free all data nodes, reset the header to the empty state, and
re-insert the survivors in collected order.  Freeing plus fresh
allocation is modelled by rebuilding into a store holding only the reset
header (its record was never written, so it equals a fresh header). -/
def tbt_delete (hp : THeap) (w : Key) : THeap :=
  if tbt_count hp = 0 then hp
  else
    match tbt_inorder_list hp with
    | none => hp
    | some all =>
      if (all.filter (fun r0 => r0.word ≠ strToLower w)).length = tbt_count hp then hp
      else (all.filter (fun r0 => r0.word ≠ strToLower w)).foldl
        tbt_insert tbt_create_header

/-- Iterated in-order successor (for the step-count statement). -/
def succN (hp : THeap) : Nat → Nat → Option Nat
  | 0, a => some a
  | k + 1, a =>
    match tbt_inorder_successor hp a with
    | none => none
    | some b => succN hp k b

/-- Representation of a non-empty subtree at address a: the node stores
the root record; a missing left child is a thread to the in-order
predecessor p, a missing right child a thread to the in-order successor
s (both handed down from the context, the header being 0); A lists the
subtree's node addresses in in-order. -/
def Repr (hp : THeap) : BSTree → Nat → Nat → Nat → List Nat → Prop
  | .leaf, _, _, _, _ => False
  | .node l d r, a, p, s, A =>
    ∃ nd Al Ar, hp[a]? = some nd ∧ nd.data = d ∧ A = Al ++ a :: Ar ∧
      ((l = .leaf ∧ nd.lthread = true ∧ nd.left = p ∧ Al = []) ∨
       (nd.lthread = false ∧ Repr hp l nd.left p a Al)) ∧
      ((r = .leaf ∧ nd.rthread = true ∧ nd.right = s ∧ Ar = []) ∨
       (nd.rthread = false ∧ Repr hp r nd.right a s Ar))

/-- Full-heap invariant: the header sits at address 0 with its permanent
right self-thread; an empty tree has the left self-thread, a non-empty
tree a real left link to the represented root; node addresses are
distinct, nonzero and in range. -/
def HeapInv (hp : THeap) : BSTree → Prop
  | .leaf => ∃ hd, hp[0]? = some hd ∧ hd.right = 0 ∧ hd.rthread = true ∧
      hd.lthread = true ∧ hd.left = 0
  | .node l d r => ∃ hd A, hp[0]? = some hd ∧ hd.right = 0 ∧ hd.rthread = true ∧
      hd.lthread = false ∧ Repr hp (.node l d r) hd.left 0 0 A ∧
      (0 :: A).Nodup ∧ ∀ x ∈ A, x < hp.length

theorem repr_not_leaf {hp : THeap} {a p s : Nat} {A : List Nat}
    (h : Repr hp .leaf a p s A) : False := h

theorem repr_node_iff {hp : THeap} {l : BSTree} {d : WordRecord} {r : BSTree}
    {a p s : Nat} {A : List Nat} :
    Repr hp (.node l d r) a p s A ↔
    ∃ nd Al Ar, hp[a]? = some nd ∧ nd.data = d ∧ A = Al ++ a :: Ar ∧
      ((l = .leaf ∧ nd.lthread = true ∧ nd.left = p ∧ Al = []) ∨
       (nd.lthread = false ∧ Repr hp l nd.left p a Al)) ∧
      ((r = .leaf ∧ nd.rthread = true ∧ nd.right = s ∧ Ar = []) ∨
       (nd.rthread = false ∧ Repr hp r nd.right a s Ar)) := Iff.rfl

theorem repr_mem_self : ∀ {t : BSTree} {hp : THeap} {a p s : Nat} {A : List Nat},
    Repr hp t a p s A → a ∈ A := by
  intro t hp a p s A h
  cases t with
  | leaf => exact absurd h repr_not_leaf
  | node l d r =>
    obtain ⟨nd, Al, Ar, -, -, hA, -, -⟩ := repr_node_iff.mp h
    subst hA
    simp

theorem repr_ne_nil {t : BSTree} {hp : THeap} {a p s : Nat} {A : List Nat}
    (h : Repr hp t a p s A) : A ≠ [] := by
  intro hn
  subst hn
  exact absurd (repr_mem_self h) (List.not_mem_nil a)

theorem repr_mono : ∀ {t : BSTree} {hp hp2 : THeap} {a p s : Nat} {A : List Nat},
    Repr hp t a p s A → (∀ x ∈ A, hp2[x]? = hp[x]?) → Repr hp2 t a p s A := by
  intro t
  induction t with
  | leaf => intro hp hp2 a p s A h _; exact absurd h repr_not_leaf
  | node l d r ihl ihr =>
    intro hp hp2 a p s A h hag
    obtain ⟨nd, Al, Ar, hget, hdata, hA, hL, hR⟩ := repr_node_iff.mp h
    subst hA
    refine repr_node_iff.mpr ⟨nd, Al, Ar, ?_, hdata, rfl, ?_, ?_⟩
    · rw [hag a (by simp), hget]
    · rcases hL with hL | ⟨h1, h2⟩
      · exact Or.inl hL
      · exact Or.inr ⟨h1, ihl h2 (fun x hx => hag x (by simp [hx]))⟩
    · rcases hR with hR | ⟨h1, h2⟩
      · exact Or.inl hR
      · exact Or.inr ⟨h1, ihr h2 (fun x hx => hag x (by simp [hx]))⟩

theorem repr_records : ∀ {t : BSTree} {hp : THeap} {a p s : Nat} {A : List Nat},
    Repr hp t a p s A →
    List.Forall₂ (fun x d => ∃ nd : TBTNode, hp[x]? = some nd ∧ nd.data = d)
      A (BSTree.inorder t) := by
  intro t
  induction t with
  | leaf => intro hp a p s A h; exact absurd h repr_not_leaf
  | node l d r ihl ihr =>
    intro hp a p s A h
    obtain ⟨nd, Al, Ar, hget, hdata, hA, hL, hR⟩ := repr_node_iff.mp h
    subst hA
    have hmid : ∃ nd2 : TBTNode, hp[a]? = some nd2 ∧ nd2.data = d := ⟨nd, hget, hdata⟩
    have hleft : List.Forall₂
        (fun x d => ∃ nd : TBTNode, hp[x]? = some nd ∧ nd.data = d)
        Al (BSTree.inorder l) := by
      rcases hL with ⟨rfl, -, -, rfl⟩ | ⟨-, h2⟩
      · exact List.Forall₂.nil
      · exact ihl h2
    have hright : List.Forall₂
        (fun x d => ∃ nd : TBTNode, hp[x]? = some nd ∧ nd.data = d)
        Ar (BSTree.inorder r) := by
      rcases hR with ⟨rfl, -, -, rfl⟩ | ⟨-, h2⟩
      · exact List.Forall₂.nil
      · exact ihr h2
    exact List.rel_append hleft (List.Forall₂.cons hmid hright)

theorem nodup_bounded_length {A : List Nat} {n : Nat} (hd : A.Nodup)
    (hb : ∀ x ∈ A, x < n) : A.length ≤ n := by
  classical
  have h1 : A.toFinset ⊆ Finset.range n := by
    intro x hx
    simp only [List.mem_toFinset] at hx
    exact Finset.mem_range.mpr (hb x hx)
  have h2 := Finset.card_le_card h1
  rwa [List.toFinset_card_of_nodup hd, Finset.card_range] at h2

theorem heapinv_leaf_iff {hp : THeap} :
    HeapInv hp .leaf ↔ ∃ hd, hp[0]? = some hd ∧ hd.right = 0 ∧
      hd.rthread = true ∧ hd.lthread = true ∧ hd.left = 0 := Iff.rfl

theorem heapinv_node_iff {hp : THeap} {l : BSTree} {d : WordRecord} {r : BSTree} :
    HeapInv hp (.node l d r) ↔
    ∃ hd A, hp[0]? = some hd ∧ hd.right = 0 ∧ hd.rthread = true ∧
      hd.lthread = false ∧ Repr hp (.node l d r) hd.left 0 0 A ∧
      (0 :: A).Nodup ∧ ∀ x ∈ A, x < hp.length := Iff.rfl

theorem repr_leftmost : ∀ {t : BSTree} {hp : THeap} {a p s : Nat} {A : List Nat},
    Repr hp t a p s A → ∀ fuel, A.length ≤ fuel →
    leftmostFrom hp fuel a = A.head? := by
  intro t
  induction t with
  | leaf => intro hp a p s A h; exact absurd h repr_not_leaf
  | node l d r ihl ihr =>
    intro hp a p s A h fuel hfuel
    obtain ⟨nd, Al, Ar, hget, hdata, hA, hL, hR⟩ := repr_node_iff.mp h
    subst hA
    rw [List.length_append, List.length_cons] at hfuel
    obtain ⟨f, rfl⟩ : ∃ f, fuel = f + 1 := ⟨fuel - 1, by omega⟩
    rcases hL with ⟨rfl, h1, h2, rfl⟩ | ⟨h1, h2⟩
    · simp [leftmostFrom, hget, h1]
    · have hne := repr_ne_nil h2
      simp only [leftmostFrom, hget, h1, Bool.false_eq_true, if_false]
      rw [ihl h2 f (by omega)]
      cases Al with
      | nil => exact absurd rfl hne
      | cons x xs => simp

theorem repr_chain : ∀ {t : BSTree} {hp : THeap} {a p s : Nat} {A : List Nat},
    Repr hp t a p s A → A.Nodup → (∀ x ∈ A, x < hp.length) →
    List.Chain' (fun x y => tbt_inorder_successor hp x = some y) (A ++ [s]) := by
  intro t
  induction t with
  | leaf => intro hp a p s A h; exact absurd h repr_not_leaf
  | node l d r ihl ihr =>
    intro hp a p s A h hnd hb
    obtain ⟨nd, Al, Ar, hget, hdata, hA, hL, hR⟩ := repr_node_iff.mp h
    subst hA
    rw [List.nodup_append] at hnd
    obtain ⟨hndAl, hndaAr, -⟩ := hnd
    have hndAr : Ar.Nodup := (List.nodup_cons.mp hndaAr).2
    have hbAl : ∀ x ∈ Al, x < hp.length := fun x hx => hb x (by simp [hx])
    have hbAr : ∀ x ∈ Ar, x < hp.length := fun x hx => hb x (by simp [hx])
    obtain ⟨y, hy⟩ : ∃ y, (Ar ++ [s]).head? = some y := by
      cases Ar <;> simp
    have hsucc_a : tbt_inorder_successor hp a = some y := by
      rcases hR with ⟨rfl, h1, h2, rfl⟩ | ⟨h1, h2⟩
      · simp only [List.nil_append, List.head?_cons, Option.some.injEq] at hy
        subst hy
        simp [tbt_inorder_successor, hget, h1, h2]
      · have hne := repr_ne_nil h2
        have hlen : Ar.length ≤ hp.length := nodup_bounded_length hndAr hbAr
        simp only [tbt_inorder_successor, hget, h1, Bool.false_eq_true, if_false]
        rw [repr_leftmost h2 (hp.length + 1) (by omega)]
        cases Ar with
        | nil => exact absurd rfl hne
        | cons z zs => simpa using hy
    have hchainL : List.Chain'
        (fun x y => tbt_inorder_successor hp x = some y) (Al ++ [a]) := by
      rcases hL with ⟨rfl, -, -, rfl⟩ | ⟨-, h2⟩
      · simp
      · exact ihl h2 hndAl hbAl
    have hchainR : List.Chain'
        (fun x y => tbt_inorder_successor hp x = some y) (Ar ++ [s]) := by
      rcases hR with ⟨rfl, -, -, rfl⟩ | ⟨-, h2⟩
      · simp
      · exact ihr h2 hndAr hbAr
    rw [show (Al ++ a :: Ar) ++ [s] = Al ++ (a :: (Ar ++ [s])) by simp]
    rw [List.chain'_append]
    refine ⟨(List.chain'_append.mp hchainL).1, ?_, ?_⟩
    · rw [List.chain'_cons']
      refine ⟨fun z hz => ?_, hchainR⟩
      rw [hy] at hz
      obtain rfl : y = z := by simpa using hz
      exact hsucc_a
    · intro x hx z hz
      obtain rfl : a = z := by simpa using hz
      exact (List.chain'_append.mp hchainL).2.2 x hx a (by simp)

theorem walkFrom_spec : ∀ (A : List Nat) (L : List WordRecord) (hp : THeap) (fuel : Nat),
    List.Chain' (fun x y => tbt_inorder_successor hp x = some y) (A ++ [0]) →
    List.Forall₂ (fun x d => ∃ nd : TBTNode, hp[x]? = some nd ∧ nd.data = d) A L →
    0 ∉ A → A.length < fuel →
    walkFrom hp fuel (A.headD 0) = some L := by
  intro A
  induction A with
  | nil =>
    intro L hp fuel hchain hf h0 hfuel
    obtain ⟨f, rfl⟩ : ∃ f, fuel = f + 1 := ⟨fuel - 1, by omega⟩
    cases hf
    simp [walkFrom]
  | cons x A ih =>
    intro L hp fuel hchain hf h0 hfuel
    obtain ⟨f, rfl⟩ : ∃ f, fuel = f + 1 := ⟨fuel - 1, by omega⟩
    cases hf with
    | cons hx hf2 =>
      obtain ⟨nd, hget, hdata⟩ := hx
      have hx0 : x ≠ 0 := fun hh => h0 (by simp [hh])
      rw [List.cons_append, List.chain'_cons'] at hchain
      obtain ⟨hhead, hchain2⟩ := hchain
      obtain ⟨y, hy⟩ : ∃ y, (A ++ [0]).head? = some y := by cases A <;> simp
      have hsucc : tbt_inorder_successor hp x = some y := hhead y hy
      have hyhead : y = A.headD 0 := by
        cases A with
        | nil => exact (by simpa using hy : (0 : Nat) = y).symm
        | cons z zs => exact (by simpa using hy : z = y).symm
      subst hyhead
      simp only [walkFrom, List.headD_cons, if_neg hx0, hget, hsucc]
      rw [ih _ hp f hchain2 hf2 (fun hh => h0 (by simp [hh])) (by simpa using hfuel)]
      simp [hdata]

theorem tbt_inorder_list_eq {hp : THeap} {t : BSTree} (h : HeapInv hp t) :
    tbt_inorder_list hp = some (BSTree.inorder t) := by
  cases t with
  | leaf =>
    obtain ⟨hd, hget, -, -, hlth, -⟩ := heapinv_leaf_iff.mp h
    simp [tbt_inorder_list, hget, hlth, BSTree.inorder]
  | node l d r =>
    obtain ⟨hd, A, hget, -, -, hlth, hrep, hnd, hb⟩ := heapinv_node_iff.mp h
    have hndA : A.Nodup := (List.nodup_cons.mp hnd).2
    have h0A : 0 ∉ A := (List.nodup_cons.mp hnd).1
    have hlen : A.length ≤ hp.length := nodup_bounded_length hndA hb
    have hlm := repr_leftmost hrep (hp.length + 1) (by omega)
    have hchain := repr_chain hrep hndA hb
    have hrecs := repr_records hrep
    have hwalk := walkFrom_spec A (BSTree.inorder (.node l d r)) hp (hp.length + 1)
      hchain hrecs h0A (by omega)
    have hne := repr_ne_nil hrep
    simp only [tbt_inorder_list, hget, hlth, Bool.false_eq_true, if_false]
    rw [hlm]
    cases A with
    | nil => exact absurd rfl hne
    | cons x A2 =>
      simpa using hwalk

theorem tbt_count_eq {hp : THeap} {t : BSTree} (h : HeapInv hp t) :
    tbt_count hp = (BSTree.inorder t).length := by
  simp [tbt_count, tbt_inorder_list_eq h]

/-- Core correctness of the insertion descent: on a represented subtree
it either detects a duplicate (and the functional insert is the
identity), or it stops at the parent of the empty slot, and performing
the code's wiring there re-establishes the representation for the
functional insert result, with the fresh address joining the address
list. -/
theorem descend_insert : ∀ {t : BSTree} {hp : THeap} {a p s : Nat} {A : List Nat}
    (r1 : WordRecord),
    Repr hp t a p s A → A.Nodup → (∀ x ∈ A, x < hp.length) →
    ∀ fuel, A.length < fuel → ∀ par wl,
    (BSTree.insertGo t r1 = t ∧
      descend hp r1.word fuel par wl (some a) = some none) ∨
    (∃ p1 wl1 pn, descend hp r1.word fuel par wl (some a) = some (some (p1, wl1)) ∧
      p1 ∈ A ∧ hp[p1]? = some pn ∧
      ∃ A2, A2.Perm (hp.length :: A) ∧
        Repr (if wl1 then
            (hp.set p1 { pn with left := hp.length, lthread := false }) ++
              [⟨r1, pn.left, p1, pn.lthread, true⟩]
          else
            (hp.set p1 { pn with right := hp.length, rthread := false }) ++
              [⟨r1, p1, pn.right, true, pn.rthread⟩])
          (BSTree.insertGo t r1) a p s A2) := by
  intro t
  induction t with
  | leaf => intro hp a p s A r1 h; exact absurd h repr_not_leaf
  | node l d r ihl ihr =>
    intro hp a p s A r1 h hnd hb fuel hfuel par wl
    obtain ⟨nd, Al, Ar, hget, hdata, hA, hL, hR⟩ := repr_node_iff.mp h
    subst hA
    rw [List.nodup_append] at hnd
    obtain ⟨hndAl, hndaAr, hdisj⟩ := hnd
    have hndAr : Ar.Nodup := (List.nodup_cons.mp hndaAr).2
    have haAr : a ∉ Ar := (List.nodup_cons.mp hndaAr).1
    have haAl : a ∉ Al := fun hx => hdisj hx (by simp)
    have hbAl : ∀ x ∈ Al, x < hp.length := fun x hx => hb x (by simp [hx])
    have hbAr : ∀ x ∈ Ar, x < hp.length := fun x hx => hb x (by simp [hx])
    have hba : a < hp.length := hb a (by simp)
    rw [List.length_append, List.length_cons] at hfuel
    obtain ⟨f, rfl⟩ : ∃ f, fuel = f + 1 := ⟨fuel - 1, by omega⟩
    cases hc : scmp r1.word d.word with
    | eq =>
      refine Or.inl ⟨?_, ?_⟩
      · simp only [BSTree.insertGo, hc]
      · simp [descend, hget, hdata, hc]
    | lt =>
      rcases hL with ⟨rfl, hth, hleft, rfl⟩ | ⟨hth, hrepl⟩
      · -- empty left slot: attach here
        obtain ⟨f2, rfl⟩ : ∃ f2, f = f2 + 1 := ⟨f - 1, by omega⟩
        refine Or.inr ⟨a, true, nd, ?_, by simp, hget, ?_⟩
        · simp [descend, hget, hdata, hc, hth]
        · refine ⟨hp.length :: a :: Ar, by simp, ?_⟩
          rw [if_pos rfl]
          have hlen2 : (hp.set a { nd with left := hp.length, lthread := false }).length
              = hp.length := List.length_set hp a _
          have hgetroot :
              ((hp.set a { nd with left := hp.length, lthread := false }) ++
                [⟨r1, nd.left, a, nd.lthread, true⟩])[a]? =
              some { nd with left := hp.length, lthread := false } := by
            rw [List.getElem?_append_left (by rw [hlen2]; exact hba),
              List.getElem?_set_eq hba]
          have hgetnew :
              ((hp.set a { nd with left := hp.length, lthread := false }) ++
                [⟨r1, nd.left, a, nd.lthread, true⟩])[hp.length]? =
              some ⟨r1, nd.left, a, nd.lthread, true⟩ := by
            have hcc := List.getElem?_concat_length
              (hp.set a { nd with left := hp.length, lthread := false })
              (⟨r1, nd.left, a, nd.lthread, true⟩ : TBTNode)
            rwa [hlen2] at hcc
          simp only [BSTree.insertGo, hc]
          refine repr_node_iff.mpr ⟨{ nd with left := hp.length, lthread := false },
            [hp.length], Ar, hgetroot, hdata, by simp, ?_, ?_⟩
          · refine Or.inr ⟨rfl, ?_⟩
            refine repr_node_iff.mpr ⟨⟨r1, nd.left, a, nd.lthread, true⟩, [], [],
              hgetnew, rfl, rfl, ?_, ?_⟩
            · exact Or.inl ⟨rfl, hth, hleft, rfl⟩
            · exact Or.inl ⟨rfl, rfl, rfl, rfl⟩
          · rcases hR with ⟨rfl, h1, h2, rfl⟩ | ⟨h1, h2⟩
            · exact Or.inl ⟨rfl, h1, h2, rfl⟩
            · refine Or.inr ⟨h1, repr_mono h2 ?_⟩
              intro x hx
              have hxa : x ≠ a := fun hh => haAr (hh ▸ hx)
              have hxlen : x < hp.length := hbAr x hx
              rw [List.getElem?_append_left (by rw [hlen2]; exact hxlen),
                List.getElem?_set_ne (fun hh => hxa hh.symm)]
      · -- descend into the left subtree
        have hstep : descend hp r1.word (f + 1) par wl (some a) =
            descend hp r1.word f a true (some nd.left) := by
          simp [descend, hget, hdata, hc, hth]
        rcases ihl r1 hrepl hndAl hbAl f (by omega) a true with
          ⟨heq, hdesc⟩ | ⟨p1, wl1, pn, hdesc, hp1, hpn, A2l, hperm, hrep2⟩
        · refine Or.inl ⟨?_, by rw [hstep]; exact hdesc⟩
          simp only [BSTree.insertGo, hc, heq]
        · right
          refine ⟨p1, wl1, pn, ?_, ?_, ?_, ?_⟩
          · rw [hstep]; exact hdesc
          · exact List.mem_append.mpr (Or.inl hp1)
          · exact hpn
          refine ⟨A2l ++ a :: Ar, ?_, ?_⟩
          · have h1 : List.Perm (A2l ++ a :: Ar) ((hp.length :: Al) ++ a :: Ar) :=
              hperm.append_right _
            refine h1.trans ?_
            simp
          · have hap1 : a ≠ p1 := fun hh => haAl (hh ▸ hp1)
            have hp1len : p1 < hp.length := hbAl p1 hp1
            simp only [BSTree.insertGo, hc]
            cases wl1 with
            | true =>
              rw [if_pos rfl] at hrep2 ⊢
              have hlen2 : (hp.set p1 { pn with left := hp.length, lthread := false }).length
                  = hp.length := List.length_set hp p1 _
              have hgetroot :
                  ((hp.set p1 { pn with left := hp.length, lthread := false }) ++
                    [⟨r1, pn.left, p1, pn.lthread, true⟩])[a]? = some nd := by
                rw [List.getElem?_append_left (by rw [hlen2]; exact hba),
                  List.getElem?_set_ne (fun hh => hap1 hh.symm), hget]
              refine repr_node_iff.mpr ⟨nd, A2l, Ar, hgetroot, hdata, rfl,
                Or.inr ⟨hth, hrep2⟩, ?_⟩
              rcases hR with ⟨rfl, h1, h2, rfl⟩ | ⟨h1, h2⟩
              · exact Or.inl ⟨rfl, h1, h2, rfl⟩
              · refine Or.inr ⟨h1, repr_mono h2 ?_⟩
                intro x hx
                have hxp1 : x ≠ p1 := fun hh =>
                  hdisj (hh ▸ hp1) (by simp [hx])
                have hxlen : x < hp.length := hbAr x hx
                rw [List.getElem?_append_left (by rw [hlen2]; exact hxlen),
                  List.getElem?_set_ne (fun hh => hxp1 hh.symm)]
            | false =>
              rw [if_neg (by simp)] at hrep2 ⊢
              have hlen2 : (hp.set p1 { pn with right := hp.length, rthread := false }).length
                  = hp.length := List.length_set hp p1 _
              have hgetroot :
                  ((hp.set p1 { pn with right := hp.length, rthread := false }) ++
                    [⟨r1, p1, pn.right, true, pn.rthread⟩])[a]? = some nd := by
                rw [List.getElem?_append_left (by rw [hlen2]; exact hba),
                  List.getElem?_set_ne (fun hh => hap1 hh.symm), hget]
              refine repr_node_iff.mpr ⟨nd, A2l, Ar, hgetroot, hdata, rfl,
                Or.inr ⟨hth, hrep2⟩, ?_⟩
              rcases hR with ⟨rfl, h1, h2, rfl⟩ | ⟨h1, h2⟩
              · exact Or.inl ⟨rfl, h1, h2, rfl⟩
              · refine Or.inr ⟨h1, repr_mono h2 ?_⟩
                intro x hx
                have hxp1 : x ≠ p1 := fun hh =>
                  hdisj (hh ▸ hp1) (by simp [hx])
                have hxlen : x < hp.length := hbAr x hx
                rw [List.getElem?_append_left (by rw [hlen2]; exact hxlen),
                  List.getElem?_set_ne (fun hh => hxp1 hh.symm)]
    | gt =>
      rcases hR with ⟨rfl, hth, hright, rfl⟩ | ⟨hth, hrepr2⟩
      · -- empty right slot: attach here
        obtain ⟨f2, rfl⟩ : ∃ f2, f = f2 + 1 := ⟨f - 1, by omega⟩
        refine Or.inr ⟨a, false, nd, ?_, by simp, hget, ?_⟩
        · simp [descend, hget, hdata, hc, hth]
        · refine ⟨Al ++ a :: [hp.length], ?_, ?_⟩
          · have : List.Perm (Al ++ a :: [hp.length]) (Al ++ hp.length :: [a]) :=
              List.Perm.append_left _ (List.Perm.swap _ _ _)
            refine this.trans ?_
            have h2 : List.Perm (Al ++ hp.length :: [a]) (hp.length :: (Al ++ [a])) :=
              List.perm_middle
            refine h2.trans ?_
            simp
          · rw [if_neg (by simp)]
            have hlen2 : (hp.set a { nd with right := hp.length, rthread := false }).length
                = hp.length := List.length_set hp a _
            have hgetroot :
                ((hp.set a { nd with right := hp.length, rthread := false }) ++
                  [⟨r1, a, nd.right, true, nd.rthread⟩])[a]? =
                some { nd with right := hp.length, rthread := false } := by
              rw [List.getElem?_append_left (by rw [hlen2]; exact hba),
                List.getElem?_set_eq hba]
            have hgetnew :
                ((hp.set a { nd with right := hp.length, rthread := false }) ++
                  [⟨r1, a, nd.right, true, nd.rthread⟩])[hp.length]? =
                some ⟨r1, a, nd.right, true, nd.rthread⟩ := by
              have hcc := List.getElem?_concat_length
                (hp.set a { nd with right := hp.length, rthread := false })
                (⟨r1, a, nd.right, true, nd.rthread⟩ : TBTNode)
              rwa [hlen2] at hcc
            simp only [BSTree.insertGo, hc]
            refine repr_node_iff.mpr ⟨{ nd with right := hp.length, rthread := false },
              Al, [hp.length], hgetroot, hdata, by simp, ?_, ?_⟩
            · rcases hL with ⟨rfl, h1, h2, rfl⟩ | ⟨h1, h2⟩
              · exact Or.inl ⟨rfl, h1, h2, rfl⟩
              · refine Or.inr ⟨h1, repr_mono h2 ?_⟩
                intro x hx
                have hxa : x ≠ a := fun hh => haAl (hh ▸ hx)
                have hxlen : x < hp.length := hbAl x hx
                rw [List.getElem?_append_left (by rw [hlen2]; exact hxlen),
                  List.getElem?_set_ne (fun hh => hxa hh.symm)]
            · refine Or.inr ⟨rfl, ?_⟩
              refine repr_node_iff.mpr ⟨⟨r1, a, nd.right, true, nd.rthread⟩, [], [],
                hgetnew, rfl, rfl, ?_, ?_⟩
              · exact Or.inl ⟨rfl, rfl, rfl, rfl⟩
              · exact Or.inl ⟨rfl, hth, hright, rfl⟩
      · -- descend into the right subtree
        have hstep : descend hp r1.word (f + 1) par wl (some a) =
            descend hp r1.word f a false (some nd.right) := by
          simp [descend, hget, hdata, hc, hth]
        rcases ihr r1 hrepr2 hndAr hbAr f (by omega) a false with
          ⟨heq, hdesc⟩ | ⟨p1, wl1, pn, hdesc, hp1, hpn, A2r, hperm, hrep2⟩
        · refine Or.inl ⟨?_, by rw [hstep]; exact hdesc⟩
          simp only [BSTree.insertGo, hc, heq]
        · right
          refine ⟨p1, wl1, pn, ?_, ?_, ?_, ?_⟩
          · rw [hstep]; exact hdesc
          · exact List.mem_append.mpr (Or.inr (by simp [hp1]))
          · exact hpn
          refine ⟨Al ++ a :: A2r, ?_, ?_⟩
          · have h1 : List.Perm (Al ++ a :: A2r) (Al ++ a :: (hp.length :: Ar)) :=
              List.Perm.append_left _ (List.Perm.cons a hperm)
            refine h1.trans ?_
            have h2 : List.Perm ((Al ++ [a]) ++ hp.length :: Ar)
                (hp.length :: ((Al ++ [a]) ++ Ar)) := List.perm_middle
            have h3 : Al ++ a :: (hp.length :: Ar) = (Al ++ [a]) ++ hp.length :: Ar := by
              simp
            have h4 : hp.length :: ((Al ++ [a]) ++ Ar) = hp.length :: (Al ++ a :: Ar) := by
              simp
            rw [h3, ← h4]
            exact h2
          · have hap1 : a ≠ p1 := fun hh => haAr (hh ▸ hp1)
            have hp1len : p1 < hp.length := hbAr p1 hp1
            simp only [BSTree.insertGo, hc]
            cases wl1 with
            | true =>
              rw [if_pos rfl] at hrep2 ⊢
              have hlen2 : (hp.set p1 { pn with left := hp.length, lthread := false }).length
                  = hp.length := List.length_set hp p1 _
              have hgetroot :
                  ((hp.set p1 { pn with left := hp.length, lthread := false }) ++
                    [⟨r1, pn.left, p1, pn.lthread, true⟩])[a]? = some nd := by
                rw [List.getElem?_append_left (by rw [hlen2]; exact hba),
                  List.getElem?_set_ne (fun hh => hap1 hh.symm), hget]
              refine repr_node_iff.mpr ⟨nd, Al, A2r, hgetroot, hdata, rfl, ?_,
                Or.inr ⟨hth, hrep2⟩⟩
              rcases hL with ⟨rfl, h1, h2, rfl⟩ | ⟨h1, h2⟩
              · exact Or.inl ⟨rfl, h1, h2, rfl⟩
              · refine Or.inr ⟨h1, repr_mono h2 ?_⟩
                intro x hx
                have hxp1 : x ≠ p1 := fun hh =>
                  hdisj hx (by rw [hh]; simp [hp1])
                have hxlen : x < hp.length := hbAl x hx
                rw [List.getElem?_append_left (by rw [hlen2]; exact hxlen),
                  List.getElem?_set_ne (fun hh => hxp1 hh.symm)]
            | false =>
              rw [if_neg (by simp)] at hrep2 ⊢
              have hlen2 : (hp.set p1 { pn with right := hp.length, rthread := false }).length
                  = hp.length := List.length_set hp p1 _
              have hgetroot :
                  ((hp.set p1 { pn with right := hp.length, rthread := false }) ++
                    [⟨r1, p1, pn.right, true, pn.rthread⟩])[a]? = some nd := by
                rw [List.getElem?_append_left (by rw [hlen2]; exact hba),
                  List.getElem?_set_ne (fun hh => hap1 hh.symm), hget]
              refine repr_node_iff.mpr ⟨nd, Al, A2r, hgetroot, hdata, rfl, ?_,
                Or.inr ⟨hth, hrep2⟩⟩
              rcases hL with ⟨rfl, h1, h2, rfl⟩ | ⟨h1, h2⟩
              · exact Or.inl ⟨rfl, h1, h2, rfl⟩
              · refine Or.inr ⟨h1, repr_mono h2 ?_⟩
                intro x hx
                have hxp1 : x ≠ p1 := fun hh =>
                  hdisj hx (by rw [hh]; simp [hp1])
                have hxlen : x < hp.length := hbAl x hx
                rw [List.getElem?_append_left (by rw [hlen2]; exact hxlen),
                  List.getElem?_set_ne (fun hh => hxp1 hh.symm)]

/-- tbt_insert preserves the heap invariant, tracking the functional BST
insert on the abstract tree; a duplicate leaves the heap untouched. -/
theorem tbt_insert_inv {hp : THeap} {t : BSTree} (h : HeapInv hp t) (r0 : WordRecord) :
    HeapInv (tbt_insert hp r0) (BSTree.insertGo t (normRec r0)) ∧
      (BSTree.insertGo t (normRec r0) = t → tbt_insert hp r0 = hp) := by
  cases t with
  | leaf =>
    obtain ⟨hd, hget, hr0, hrth, hlth, hleft⟩ := heapinv_leaf_iff.mp h
    have hlen0 : 0 < hp.length := by
      by_contra hh
      push_neg at hh
      rw [List.getElem?_eq_none (by omega)] at hget
      exact Option.noConfusion hget
    constructor
    · have hres : tbt_insert hp r0 =
          (hp.set 0 { hd with left := hp.length, lthread := false }) ++
            [⟨normRec r0, hd.left, 0, hd.lthread, true⟩] := by
        simp [tbt_insert, hget, hlth, descend]
      rw [hres]
      have hlen2 : (hp.set 0 { hd with left := hp.length, lthread := false }).length
          = hp.length := List.length_set hp 0 _
      refine heapinv_node_iff.mpr ⟨{ hd with left := hp.length, lthread := false },
        [hp.length], ?_, hr0, hrth, rfl, ?_, ?_, ?_⟩
      · rw [List.getElem?_append_left (by rw [hlen2]; exact hlen0),
          List.getElem?_set_self hlen0]
      · refine repr_node_iff.mpr ⟨⟨normRec r0, hd.left, 0, hd.lthread, true⟩, [], [],
          ?_, rfl, rfl, ?_, ?_⟩
        · have hcc := List.getElem?_concat_length
            (hp.set 0 { hd with left := hp.length, lthread := false })
            (⟨normRec r0, hd.left, 0, hd.lthread, true⟩ : TBTNode)
          rwa [hlen2] at hcc
        · exact Or.inl ⟨rfl, hlth, hleft, rfl⟩
        · exact Or.inl ⟨rfl, rfl, rfl, rfl⟩
      · simp
        omega
      · intro x hx
        simp at hx
        subst hx
        simp [List.length_append, hlen2]
    · intro habs
      exact absurd habs (BSTree.insertGo_ne_leaf _ _)
  | node l d r =>
    obtain ⟨hd, A, hget, hr0, hrth, hlth, hrep, hnd, hb⟩ := heapinv_node_iff.mp h
    have hndA : A.Nodup := (List.nodup_cons.mp hnd).2
    have h0A : 0 ∉ A := (List.nodup_cons.mp hnd).1
    have hlenA : A.length ≤ hp.length := nodup_bounded_length hndA hb
    have hlen0 : 0 < hp.length := by
      by_contra hh
      push_neg at hh
      rw [List.getElem?_eq_none (by omega)] at hget
      exact Option.noConfusion hget
    rcases descend_insert (normRec r0) hrep hndA hb (hp.length + 1) (by omega) 0 true with
      ⟨heq, hdesc⟩ | ⟨p1, wl1, pn, hdesc, hp1A, hpn, A2, hperm, hrep2⟩
    · have hres : tbt_insert hp r0 = hp := by
        simp [tbt_insert, hget, hlth, hdesc]
      rw [hres, heq]
      exact ⟨h, fun _ => rfl⟩
    · have hp10 : p1 ≠ 0 := fun hh => h0A (hh ▸ hp1A)
      have hres : tbt_insert hp r0 =
          if wl1 then
            (hp.set p1 { pn with left := hp.length, lthread := false }) ++
              [⟨normRec r0, pn.left, p1, pn.lthread, true⟩]
          else
            (hp.set p1 { pn with right := hp.length, rthread := false }) ++
              [⟨normRec r0, p1, pn.right, true, pn.rthread⟩] := by
        simp [tbt_insert, hget, hlth, hdesc, hpn]
      have hlen3 : (tbt_insert hp r0).length = hp.length + 1 := by
        rw [hres]
        cases wl1 <;> simp
      have hA2len : A2.length = A.length + 1 := by
        rw [hperm.length_eq]
        simp
      have hcontra : BSTree.insertGo (.node l d r) (normRec r0) ≠ BSTree.node l d r := by
        intro habs
        have h1 := (repr_records hrep).length_eq
        have h2 := (repr_records hrep2).length_eq
        rw [habs] at h2
        omega
      refine ⟨?_, fun habs => absurd habs hcontra⟩
      obtain ⟨l2, d2, r2, htt⟩ : ∃ l2 d2 r2,
          BSTree.insertGo (.node l d r) (normRec r0) = BSTree.node l2 d2 r2 := by
        cases hx : BSTree.insertGo (.node l d r) (normRec r0) with
        | leaf => exact absurd hx (BSTree.insertGo_ne_leaf _ _)
        | node l2 d2 r2 => exact ⟨l2, d2, r2, rfl⟩
      rw [htt]
      rw [htt] at hrep2
      have hget0 : (tbt_insert hp r0)[0]? = some hd := by
        rw [hres]
        cases wl1 with
        | true =>
          rw [if_pos rfl,
            List.getElem?_append_left (by rw [List.length_set]; exact hlen0),
            List.getElem?_set_ne hp10, hget]
        | false =>
          rw [if_neg (by simp),
            List.getElem?_append_left (by rw [List.length_set]; exact hlen0),
            List.getElem?_set_ne hp10, hget]
      refine heapinv_node_iff.mpr ⟨hd, A2, hget0, hr0, hrth, hlth, ?_, ?_, ?_⟩
      · rw [← hres] at hrep2
        exact hrep2
      · have hnd2 : (0 :: hp.length :: A).Nodup := by
          rw [List.nodup_cons]
          refine ⟨?_, ?_⟩
          · intro hx
            rcases List.mem_cons.mp hx with hx | hx
            · omega
            · exact h0A hx
          · rw [List.nodup_cons]
            exact ⟨fun hx => absurd (hb _ hx) (by omega), hndA⟩
        exact (List.Perm.nodup_iff (List.Perm.cons 0 hperm)).mpr hnd2
      · intro x hx
        have := hperm.mem_iff.mp hx
        rw [hlen3]
        rcases List.mem_cons.mp this with hx2 | hx2
        · omega
        · have := hb x hx2
          omega

theorem tbt_create_header_inv : HeapInv tbt_create_header .leaf :=
  heapinv_leaf_iff.mpr ⟨⟨emptyRec, 0, 0, true, true⟩, rfl, rfl, rfl, rfl, rfl⟩

theorem tbtInsertList_inv : ∀ (ws : List WordRecord) (hp : THeap) (t : BSTree),
    HeapInv hp t →
    HeapInv (ws.foldl tbt_insert hp) (ws.foldl BSTree.bst_insert t) := by
  intro ws
  induction ws with
  | nil => intro hp t h; exact h
  | cons w ws ih => intro hp t h; exact ih _ _ (tbt_insert_inv h w).1

/-- tbt_delete preserves the heap invariant; the resulting abstract tree
is ordered whenever the original was (the rebuild path re-inserts into an
empty tree, so it is ordered unconditionally). -/
theorem tbt_delete_inv {hp : THeap} {t : BSTree} (h : HeapInv hp t) (w : Key) :
    ∃ t2 : BSTree, HeapInv (tbt_delete hp w) t2 ∧
      (BSTree.Ordered t → BSTree.Ordered t2) := by
  by_cases hc0 : tbt_count hp = 0
  · refine ⟨t, ?_, id⟩
    have hres : tbt_delete hp w = hp := by simp [tbt_delete, hc0]
    rw [hres]
    exact h
  · by_cases hc1 : ((BSTree.inorder t).filter
        (fun r0 => r0.word ≠ strToLower w)).length = tbt_count hp
    · refine ⟨t, ?_, id⟩
      have hres : tbt_delete hp w = hp := by
        simp only [tbt_delete, tbt_inorder_list_eq h, if_neg hc0]
        rw [if_pos hc1]
      rw [hres]
      exact h
    · refine ⟨((BSTree.inorder t).filter
          (fun r0 => r0.word ≠ strToLower w)).foldl BSTree.bst_insert .leaf,
        ?_, fun _ => BSTree.ordered_insertList _ _ trivial⟩
      have hres : tbt_delete hp w = ((BSTree.inorder t).filter
          (fun r0 => r0.word ≠ strToLower w)).foldl tbt_insert tbt_create_header := by
        simp only [tbt_delete, tbt_inorder_list_eq h, if_neg hc0]
        rw [if_neg hc1]
      rw [hres]
      exact tbtInsertList_inv _ _ _ tbt_create_header_inv

theorem chain_succN : ∀ (i : Nat) (A : List Nat) (hp : THeap) (a0 : Nat),
    List.Chain' (fun x y => tbt_inorder_successor hp x = some y) (a0 :: A) →
    i ≤ A.length → succN hp i a0 = (a0 :: A)[i]? := by
  intro i
  induction i with
  | zero => intro A hp a0 _ _; simp [succN]
  | succ i ih =>
    intro A hp a0 hchain hle
    cases A with
    | nil => simp at hle
    | cons b A2 =>
      rw [List.chain'_cons] at hchain
      obtain ⟨hstep, hchain2⟩ := hchain
      simp only [succN, hstep]
      rw [ih A2 hp b hchain2 (by simpa using hle)]
      simp

end TBT

/-- One dictionary operation: insert a record or delete a word (as typed;
each tree lowercases internally). -/
inductive DictOp where
  | ins (r0 : WordRecord)
  | del (w : Key)

namespace BSTree

/-- One operation applied to the unbalanced tree (bst.c entry points). -/
def bstApply (t : BSTree) : DictOp → BSTree
  | .ins r0 => bst_insert t r0
  | .del w => bst_delete t (some w)

/-- State of the unbalanced tree after a sequence of operations starting
from the empty tree. -/
def bstRun (ops : List DictOp) : BSTree := ops.foldl bstApply leaf

theorem bstApply_ordered {t : BSTree} (ht : Ordered t) (op : DictOp) :
    Ordered (bstApply t op) := by
  cases op with
  | ins r0 => exact insertGo_Ordered ht
  | del w => exact delete_Ordered ht (strToLower w)

theorem bstRun_ordered (ops : List DictOp) : Ordered (bstRun ops) := by
  suffices h : ∀ (l : List DictOp) (t : BSTree), Ordered t → Ordered (l.foldl bstApply t) by
    exact h ops leaf trivial
  intro l
  induction l with
  | nil => intro t ht; exact ht
  | cons op ops ih => intro t ht; exact ih _ (bstApply_ordered ht op)

end BSTree

namespace ATree

/-- One operation applied to the AVL tree (avl.c entry points). -/
def avlApply (t : ATree) : DictOp → ATree
  | .ins r0 => avl_insert t r0
  | .del w => avl_delete t w

/-- State of the AVL tree after a sequence of operations starting from
the empty tree. -/
def avlRun (ops : List DictOp) : ATree := ops.foldl avlApply leaf

theorem avlApply_good {t : ATree} (hg : Good t) (op : DictOp) :
    Good (avlApply t op) := by
  cases op with
  | ins r0 => exact (avl_insert_impl_good t hg (normRec r0)).1
  | del w => exact (avl_delete_impl_good t hg (strToLower w)).1

theorem avlApply_strip_ordered {t : ATree} (ho : BSTree.Ordered (strip t))
    (op : DictOp) : BSTree.Ordered (strip (avlApply t op)) := by
  apply BSTree.ordered_of_pairwise
  cases op with
  | ins r0 =>
    rw [strip_keys]
    show ((avl_insert_impl t (normRec r0)).keys).Pairwise keyLt
    rw [keys_insert_eq]
    exact BSTree.pairwise_keys (BSTree.insertGo_Ordered ho)
  | del w =>
    rw [strip_keys]
    show ((avl_delete_impl t (strToLower w)).keys).Pairwise keyLt
    rw [keys_delete_eq]
    exact BSTree.pairwise_keys (BSTree.delete_Ordered ho (strToLower w))

theorem avlRun_good_ordered (ops : List DictOp) :
    Good (avlRun ops) ∧ BSTree.Ordered (strip (avlRun ops)) := by
  suffices h : ∀ (l : List DictOp) (t : ATree),
      Good t → BSTree.Ordered (strip t) →
      Good (l.foldl avlApply t) ∧ BSTree.Ordered (strip (l.foldl avlApply t)) by
    exact h ops leaf ⟨trivial, trivial⟩ trivial
  intro l
  induction l with
  | nil => intro t hg ho; exact ⟨hg, ho⟩
  | cons op ops ih =>
    intro t hg ho
    exact ih _ (avlApply_good hg op) (avlApply_strip_ordered ho op)

end ATree

namespace TBT

/-- One operation applied to the threaded tree (tbt.c entry points). -/
def tbtApply (hp : THeap) : DictOp → THeap
  | .ins r0 => tbt_insert hp r0
  | .del w => tbt_delete hp w

/-- State of the threaded tree after a sequence of operations starting
from a fresh header. -/
def tbtRun (ops : List DictOp) : THeap := ops.foldl tbtApply tbt_create_header

/-- Every reachable threaded-tree heap represents an ordered abstract
binary search tree. -/
theorem tbtRun_inv (ops : List DictOp) :
    ∃ t : BSTree, HeapInv (tbtRun ops) t ∧ BSTree.Ordered t := by
  suffices h : ∀ (l : List DictOp) (hp : THeap) (t : BSTree),
      HeapInv hp t → BSTree.Ordered t →
      ∃ t2, HeapInv (l.foldl tbtApply hp) t2 ∧ BSTree.Ordered t2 by
    exact h ops tbt_create_header .leaf tbt_create_header_inv trivial
  intro l
  induction l with
  | nil => intro hp t h ho; exact ⟨t, h, ho⟩
  | cons op ops ih =>
    intro hp t h ho
    cases op with
    | ins r0 =>
      exact ih _ _ ((tbt_insert_inv h r0).1) (BSTree.insertGo_Ordered ho)
    | del w =>
      obtain ⟨t2, h2, ho2⟩ := tbt_delete_inv h w
      exact ih _ _ h2 (ho2 ho)

/-- Heap built from an insert-only sequence; it represents exactly the
unbalanced BST built from the same records. -/
def tbtInsHeap (ws : List WordRecord) : THeap := ws.foldl tbt_insert tbt_create_header

theorem tbtInsHeap_inv (ws : List WordRecord) :
    HeapInv (tbtInsHeap ws) (ws.foldl BSTree.bst_insert .leaf) :=
  tbtInsertList_inv ws tbt_create_header .leaf tbt_create_header_inv

end TBT

/-! ### Prefix autocomplete engine (autocomplete.c) -/

/-- MAX_CANDIDATES (autocomplete.c): collection ceiling. -/
def MAX_CANDIDATES : Nat := 512

/-- Boolean order matching cmp_score_desc (autocomplete.c): a sorts no
later than b when its composite score is at least b's.  qsort with
cmp_score_desc produces some order consistent with this; the model uses
mergeSort with the same order. -/
def scoreLe (a b : WordRecord) : Bool := composite_score b ≤ composite_score a

/-- Model of the qsort call with cmp_score_desc. -/
def sortDesc (l : List WordRecord) : List WordRecord := l.mergeSort scoreLe

/-- Rank of an Ordering for monotonicity arguments. -/
def ordRank : Ordering → Nat
  | .lt => 0
  | .eq => 1
  | .gt => 2

theorem sncmp_mono : ∀ (a : Key) (b p : Key) (n : Nat), scmp a b = .lt →
    ordRank (sncmp a p n) ≤ ordRank (sncmp b p n) := by
  intro a
  induction a with
  | nil =>
    intro b p n hab
    cases b with
    | nil => simp [scmp] at hab
    | cons y bs =>
      cases n with
      | zero => simp [sncmp]
      | succ n =>
        cases p with
        | nil => simp [sncmp, ordRank]
        | cons q qs => simp [sncmp, ordRank]
  | cons x as ih =>
    intro b p n hab
    cases b with
    | nil => simp [scmp] at hab
    | cons y bs =>
      cases n with
      | zero => simp [sncmp]
      | succ n =>
        cases p with
        | nil => simp [sncmp]
        | cons q qs =>
          simp only [scmp] at hab
          by_cases hxy : x < y
          · simp only [hxy, if_true] at hab
            simp only [sncmp]
            by_cases hxq : x < q
            · simp [hxq, ordRank]
            · by_cases hqx : q < x
              · have hyq : ¬ y < q := by omega
                have hqy : q < y := by omega
                simp [hxq, hqx, hyq, hqy, ordRank]
              · have hx : x = q := by omega
                have hqy : q < y := by omega
                have hyq : ¬ y < q := by omega
                simp only [hxq, hqx, if_false, hyq, hqy, if_true]
                cases sncmp as qs n <;> simp [ordRank]
          · by_cases hyx : y < x
            · simp [hxy, hyx] at hab
            · have hxy2 : x = y := by omega
              subst hxy2
              simp only [hxy, if_false] at hab
              simp only [sncmp]
              by_cases hxq : x < q
              · simp [hxq]
              · by_cases hqx : q < x
                · simp [hxq, hqx]
                · simp only [hxq, hqx, if_false]
                  exact ih bs qs n hab

theorem sncmp_gt_mono {a b p : Key} {n : Nat} (hab : scmp a b = .lt)
    (ha : sncmp a p n = .gt) : sncmp b p n = .gt := by
  have := sncmp_mono a b p n hab
  rw [ha] at this
  cases hx : sncmp b p n <;> rw [hx] at this <;> simp [ordRank] at this ⊢

theorem sncmp_lt_mono {a b p : Key} {n : Nat} (hab : scmp a b = .lt)
    (hb : sncmp b p n = .lt) : sncmp a p n = .lt := by
  have := sncmp_mono a b p n hab
  rw [hb] at this
  cases hx : sncmp a p n <;> rw [hx] at this <;> simp [ordRank] at this ⊢

theorem sncmp_prefix_iff : ∀ (p w : Key),
    sncmp w p p.length = .eq ↔ p.IsPrefix w := by
  intro p
  induction p with
  | nil => intro w; simp [sncmp, List.nil_prefix]
  | cons q qs ih =>
    intro w
    cases w with
    | nil =>
      simp only [List.length_cons, sncmp]
      constructor
      · intro h; exact absurd h (by simp)
      · intro h
        exact absurd (List.IsPrefix.length_le h) (by simp)
    | cons x ws =>
      simp only [List.length_cons, sncmp]
      by_cases hxq : x < q
      · simp only [hxq, if_true]
        constructor
        · intro h; exact absurd h (by simp)
        · intro h
          obtain ⟨t2, ht⟩ := h
          simp only [List.cons_append, List.cons.injEq] at ht
          omega
      · by_cases hqx : q < x
        · simp only [hxq, if_false, hqx, if_true]
          constructor
          · intro h; exact absurd h (by simp)
          · intro h
            obtain ⟨t2, ht⟩ := h
            simp only [List.cons_append, List.cons.injEq] at ht
            omega
        · have hx : x = q := by omega
          subst hx
          simp only [hxq, hqx, if_false]
          rw [ih ws, List.cons_prefix_cons]
          simp

namespace BSTree

theorem length_inorder : ∀ t : BSTree, (inorder t).length = size t
  | leaf => rfl
  | node l d r => by
    simp [inorder, size, length_inorder l, length_inorder r]
    omega

/-- bst_collect (autocomplete.c): pruned recursive collection into the
candidate buffer, honouring the MAX_CANDIDATES ceiling; acc models the
filled part of the buffer. -/
def bst_collect (pfx : Key) (plen : Nat) : BSTree → List WordRecord → List WordRecord
  | leaf, acc => acc
  | node l d r, acc =>
    if MAX_CANDIDATES ≤ acc.length then acc
    else
      match sncmp d.word pfx plen with
      | .gt => bst_collect pfx plen l acc
      | .lt => bst_collect pfx plen r acc
      | .eq =>
        bst_collect pfx plen r
          (if (bst_collect pfx plen l acc).length < MAX_CANDIDATES then
            bst_collect pfx plen l acc ++ [d]
          else bst_collect pfx plen l acc)

/-- autocomplete_bst (autocomplete.c): lowercase the prefix, collect,
sort by composite score descending, return the first
min(candidate count, top_k) records. -/
def autocomplete_bst (t : BSTree) (pfx : Key) (top_k : Nat) : List WordRecord :=
  (sortDesc (bst_collect (strToLower pfx) (strToLower pfx).length t [])).take
    (min (bst_collect (strToLower pfx) (strToLower pfx).length t []).length top_k)

theorem beq_gt_eq : (Ordering.gt == Ordering.eq) = false := rfl

theorem beq_lt_eq : (Ordering.lt == Ordering.eq) = false := rfl

theorem beq_eq_eq : (Ordering.eq == Ordering.eq) = true := rfl

theorem bst_collect_eq : ∀ {t : BSTree} (pfx : Key) (plen : Nat)
    (acc : List WordRecord), Ordered t → acc.length + size t ≤ MAX_CANDIDATES →
    bst_collect pfx plen t acc =
      acc ++ (inorder t).filter (fun r => sncmp r.word pfx plen == Ordering.eq) := by
  intro t
  induction t with
  | leaf => intro pfx plen acc _ _; simp [bst_collect, inorder]
  | node l d r ihl ihr =>
    intro pfx plen acc ho hle
    obtain ⟨hol, hor, hall, halr⟩ := ho
    rw [show size (node l d r) = size l + 1 + size r from rfl] at hle
    have hlenl := length_inorder l
    have hlenr := length_inorder r
    simp only [bst_collect]
    rw [if_neg (by omega)]
    cases hc : sncmp d.word pfx plen with
    | gt =>
      rw [ihl pfx plen acc hol (by omega)]
      have hrnil : (inorder r).filter
          (fun r2 => sncmp r2.word pfx plen == Ordering.eq) = [] := by
        rw [List.filter_eq_nil_iff]
        intro r2 hr2
        have hlt : keyLt d.word r2.word :=
          allKeys_iff_mem.mp halr r2.word (List.mem_map_of_mem _ hr2)
        simp [sncmp_gt_mono hlt hc, beq_gt_eq]
      simp [inorder, List.filter_append, List.filter_cons, hc, hrnil, beq_gt_eq]
    | lt =>
      rw [ihr pfx plen acc hor (by omega)]
      have hlnil : (inorder l).filter
          (fun r2 => sncmp r2.word pfx plen == Ordering.eq) = [] := by
        rw [List.filter_eq_nil_iff]
        intro r2 hr2
        have hlt : keyLt r2.word d.word :=
          allKeys_iff_mem.mp hall r2.word (List.mem_map_of_mem _ hr2)
        simp [sncmp_lt_mono hlt hc, beq_lt_eq]
      simp [inorder, List.filter_append, List.filter_cons, hc, hlnil, beq_lt_eq]
    | eq =>
      have hacc1 : bst_collect pfx plen l acc =
          acc ++ (inorder l).filter (fun r2 => sncmp r2.word pfx plen == Ordering.eq) :=
        ihl pfx plen acc hol (by omega)
      have hlen1 : (bst_collect pfx plen l acc).length < MAX_CANDIDATES := by
        rw [hacc1, List.length_append]
        have := List.length_filter_le
          (fun r2 => sncmp r2.word pfx plen == Ordering.eq) (inorder l)
        omega
      rw [if_pos hlen1]
      have hbound2 : (bst_collect pfx plen l acc ++ [d]).length + size r ≤
          MAX_CANDIDATES := by
        rw [List.length_append, hacc1, List.length_append, List.length_singleton]
        have := List.length_filter_le
          (fun r2 => sncmp r2.word pfx plen == Ordering.eq) (inorder l)
        omega
      rw [ihr pfx plen _ hor hbound2, hacc1]
      simp [inorder, List.filter_append, List.filter_cons, hc, beq_eq_eq]

end BSTree

namespace ATree

/-- avl_collect (autocomplete.c): identical algorithm on AVL nodes. -/
def avl_collect (pfx : Key) (plen : Nat) : ATree → List WordRecord → List WordRecord
  | leaf, acc => acc
  | node l d r _, acc =>
    if MAX_CANDIDATES ≤ acc.length then acc
    else
      match sncmp d.word pfx plen with
      | .gt => avl_collect pfx plen l acc
      | .lt => avl_collect pfx plen r acc
      | .eq =>
        avl_collect pfx plen r
          (if (avl_collect pfx plen l acc).length < MAX_CANDIDATES then
            avl_collect pfx plen l acc ++ [d]
          else avl_collect pfx plen l acc)

/-- autocomplete_avl (autocomplete.c). -/
def autocomplete_avl (t : ATree) (pfx : Key) (top_k : Nat) : List WordRecord :=
  (sortDesc (avl_collect (strToLower pfx) (strToLower pfx).length t [])).take
    (min (avl_collect (strToLower pfx) (strToLower pfx).length t []).length top_k)

theorem avl_collect_eq_strip : ∀ (t : ATree) (pfx : Key) (plen : Nat)
    (acc : List WordRecord),
    avl_collect pfx plen t acc = BSTree.bst_collect pfx plen (strip t) acc := by
  intro t
  induction t with
  | leaf => intro pfx plen acc; rfl
  | node l d r h ihl ihr =>
    intro pfx plen acc
    simp only [avl_collect, strip, BSTree.bst_collect]
    by_cases hm : MAX_CANDIDATES ≤ acc.length
    · rw [if_pos hm, if_pos hm]
    · rw [if_neg hm, if_neg hm]
      cases sncmp d.word pfx plen with
      | gt => exact ihl pfx plen acc
      | lt => exact ihr pfx plen acc
      | eq => simp [ihl, ihr]

end ATree

namespace TBT

/-- Lower-bound descent of autocomplete_tbt (autocomplete.c): keep the
last node whose first plen characters compare at least equal, moving
left from it; move right below smaller nodes. -/
def lbDescend (hp : THeap) (pfx : Key) (plen : Nat) :
    Nat → Option Nat → Option Nat → Option Nat
  | 0, st, _ => st
  | _ + 1, st, none => st
  | fuel + 1, st, some c =>
    match hp[c]? with
    | none => st
    | some nd =>
      match sncmp nd.data.word pfx plen with
      | .lt => lbDescend hp pfx plen fuel st
          (if nd.rthread then none else some nd.right)
      | _ => lbDescend hp pfx plen fuel (some c)
          (if nd.lthread then none else some nd.left)

/-- Forward collection walk of autocomplete_tbt (autocomplete.c): from
the lower bound, follow in-order successors collecting matches, stopping
at the header or at the first key past the prefix range. -/
def collectWalk (hp : THeap) (pfx : Key) (plen : Nat) :
    Nat → Nat → List WordRecord → Option (List WordRecord)
  | 0, _, _ => none
  | fuel + 1, cur, acc =>
    if cur = 0 then some acc
    else
      match hp[cur]? with
      | none => none
      | some nd =>
        match sncmp nd.data.word pfx plen with
        | .gt => some acc
        | .eq =>
          match tbt_inorder_successor hp cur with
          | none => none
          | some nxt => collectWalk hp pfx plen fuel nxt
              (if acc.length < MAX_CANDIDATES then acc ++ [nd.data] else acc)
        | .lt =>
          match tbt_inorder_successor hp cur with
          | none => none
          | some nxt => collectWalk hp pfx plen fuel nxt acc

/-- autocomplete_tbt (autocomplete.c): empty prefix, missing header or
empty tree yield no results; otherwise locate the lower bound, walk
forward collecting matches, sort by composite score and truncate. -/
def autocomplete_tbt (hp : THeap) (pfx : Key) (top_k : Nat) : List WordRecord :=
  if (strToLower pfx).length = 0 then []
  else
    match hp[0]? with
    | none => []
    | some hd =>
      if hd.lthread then []
      else
        match lbDescend hp (strToLower pfx) (strToLower pfx).length
            (hp.length + 1) none (some hd.left) with
        | none => []
        | some st =>
          match collectWalk hp (strToLower pfx) (strToLower pfx).length
              (hp.length + 1) st [] with
          | none => []
          | some cands => (sortDesc cands).take (min cands.length top_k)

/-- Pure counterpart of the collection walk over the visited record
sequence. -/
def collectPure (pfx : Key) (plen : Nat) : List WordRecord → List WordRecord →
    List WordRecord
  | [], acc => acc
  | r :: L, acc =>
    match sncmp r.word pfx plen with
    | .gt => acc
    | .lt => collectPure pfx plen L acc
    | .eq => collectPure pfx plen L
        (if acc.length < MAX_CANDIDATES then acc ++ [r] else acc)

/-- Pure counterpart of the lower-bound descent: first address whose
record compares at least equal on the prefix length. -/
def firstGeAux (pfx : Key) (plen : Nat) : List Nat → List WordRecord → Option Nat
  | x :: A, r :: L =>
    if sncmp r.word pfx plen = .lt then firstGeAux pfx plen A L else some x
  | _, _ => none

theorem collectPure_sorted : ∀ (L : List WordRecord) (pfx : Key) (plen : Nat)
    (acc : List WordRecord),
    List.Pairwise (fun a b : WordRecord => keyLt a.word b.word) L →
    acc.length + L.length ≤ MAX_CANDIDATES →
    collectPure pfx plen L acc =
      acc ++ L.filter (fun r => sncmp r.word pfx plen == Ordering.eq) := by
  intro L
  induction L with
  | nil => intro pfx plen acc _ _; simp [collectPure]
  | cons r L ih =>
    intro pfx plen acc hpw hle
    rw [List.pairwise_cons] at hpw
    obtain ⟨hr, hpw2⟩ := hpw
    rw [List.length_cons] at hle
    simp only [collectPure]
    cases hc : sncmp r.word pfx plen with
    | gt =>
      have hnil : L.filter (fun r2 => sncmp r2.word pfx plen == Ordering.eq) = [] := by
        rw [List.filter_eq_nil_iff]
        intro r2 hr2
        simp [sncmp_gt_mono (hr r2 hr2) hc, BSTree.beq_gt_eq]
      simp [List.filter_cons, hc, hnil, BSTree.beq_gt_eq]
    | lt =>
      rw [ih pfx plen acc hpw2 (by omega)]
      simp [List.filter_cons, hc, BSTree.beq_lt_eq]
    | eq =>
      rw [if_pos (by omega)]
      have hle2 : (acc ++ [r]).length + L.length ≤ MAX_CANDIDATES := by
        simp only [List.length_append, List.length_singleton]; omega
      rw [ih pfx plen (acc ++ [r]) hpw2 hle2]
      simp [List.filter_cons, hc, BSTree.beq_eq_eq]

theorem collectWalk_spec : ∀ (A : List Nat) (L : List WordRecord) (hp : THeap)
    (pfx : Key) (plen : Nat) (fuel : Nat) (acc : List WordRecord),
    List.Chain' (fun x y => tbt_inorder_successor hp x = some y) (A ++ [0]) →
    List.Forall₂ (fun x d => ∃ nd : TBTNode, hp[x]? = some nd ∧ nd.data = d) A L →
    0 ∉ A → A.length < fuel →
    collectWalk hp pfx plen fuel (A.headD 0) acc =
      some (collectPure pfx plen L acc) := by
  intro A
  induction A with
  | nil =>
    intro L hp pfx plen fuel acc hchain hf h0 hfuel
    obtain ⟨f, rfl⟩ : ∃ f, fuel = f + 1 := ⟨fuel - 1, by omega⟩
    cases hf
    simp [collectWalk, collectPure]
  | cons x A ih =>
    intro L hp pfx plen fuel acc hchain hf h0 hfuel
    obtain ⟨f, rfl⟩ : ∃ f, fuel = f + 1 := ⟨fuel - 1, by omega⟩
    cases hf with
    | cons hx hf2 =>
      rename_i b L2
      obtain ⟨nd, hget, hdata⟩ := hx
      have hx0 : x ≠ 0 := fun hh => h0 (hh ▸ List.mem_cons_self 0 A)
      have h0' : 0 ∉ A := fun hh => h0 (List.mem_cons_of_mem _ hh)
      rw [List.cons_append, List.chain'_cons'] at hchain
      obtain ⟨hhead, hchain2⟩ := hchain
      obtain ⟨y, hy⟩ : ∃ y, (A ++ [0]).head? = some y := by cases A <;> simp
      have hsucc : tbt_inorder_successor hp x = some y := hhead y hy
      have hyhead : y = A.headD 0 := by
        cases A with
        | nil => exact (by simpa using hy : (0 : Nat) = y).symm
        | cons z zs => exact (by simpa using hy : z = y).symm
      subst hyhead
      have hfuel2 : A.length < f := by simp at hfuel; omega
      simp only [collectWalk, List.headD_cons, if_neg hx0, hget, hdata]
      cases hc : sncmp b.word pfx plen with
      | gt => simp [collectPure, hc]
      | lt =>
        simp only [hsucc, collectPure, hc]
        exact ih L2 hp pfx plen f acc hchain2 hf2 h0' hfuel2
      | eq =>
        simp only [hsucc, collectPure, hc]
        exact ih L2 hp pfx plen f _ hchain2 hf2 h0' hfuel2

theorem lbDescend_none (hp : THeap) (pfx : Key) (plen : Nat) :
    ∀ (fuel : Nat) (st : Option Nat), lbDescend hp pfx plen fuel st none = st := by
  intro fuel st
  cases fuel <;> simp [lbDescend]

theorem firstGeAux_append (pfx : Key) (plen : Nat) :
    ∀ (A1 : List Nat) (L1 : List WordRecord) (A2 : List Nat) (L2 : List WordRecord),
    A1.length = L1.length →
    firstGeAux pfx plen (A1 ++ A2) (L1 ++ L2) =
      match firstGeAux pfx plen A1 L1 with
      | some x => some x
      | none => firstGeAux pfx plen A2 L2 := by
  intro A1
  induction A1 with
  | nil =>
    intro L1 A2 L2 hlen
    cases L1 with
    | nil => simp [firstGeAux]
    | cons r L1 => simp at hlen
  | cons x A1 ih =>
    intro L1 A2 L2 hlen
    cases L1 with
    | nil => simp at hlen
    | cons r L1 =>
      simp only [List.cons_append, firstGeAux, List.append_eq]
      by_cases hc : sncmp r.word pfx plen = .lt
      · simp only [if_pos hc]
        rw [ih L1 A2 L2 (by simpa using hlen)]
      · simp [if_neg hc]

theorem firstGeAux_none (pfx : Key) (plen : Nat) :
    ∀ (A : List Nat) (L : List WordRecord), A.length = L.length →
    (firstGeAux pfx plen A L = none ↔ ∀ r ∈ L, sncmp r.word pfx plen = .lt) := by
  intro A
  induction A with
  | nil =>
    intro L hlen
    cases L with
    | nil => simp [firstGeAux]
    | cons r L => simp at hlen
  | cons x A ih =>
    intro L hlen
    cases L with
    | nil => simp at hlen
    | cons r L =>
      simp only [firstGeAux]
      by_cases hc : sncmp r.word pfx plen = .lt
      · rw [if_pos hc, ih L (by simpa using hlen)]
        simp [hc]
      · rw [if_neg hc]
        constructor
        · intro h; exact absurd h (by simp)
        · intro h; exact absurd (h r (by simp)) hc

theorem firstGeAux_some (pfx : Key) (plen : Nat) :
    ∀ (A : List Nat) (L : List WordRecord) (x : Nat), A.length = L.length →
    firstGeAux pfx plen A L = some x →
    ∃ A1 A2 r2 L1 L2, A = A1 ++ x :: A2 ∧ L = L1 ++ r2 :: L2 ∧
      A1.length = L1.length ∧ (∀ r3 ∈ L1, sncmp r3.word pfx plen = .lt) ∧
      sncmp r2.word pfx plen ≠ .lt := by
  intro A
  induction A with
  | nil =>
    intro L x hlen h
    cases L with
    | nil => simp [firstGeAux] at h
    | cons r L => simp at hlen
  | cons y A ih =>
    intro L x hlen h
    cases L with
    | nil => simp at hlen
    | cons r L =>
      simp only [firstGeAux] at h
      by_cases hc : sncmp r.word pfx plen = .lt
      · rw [if_pos hc] at h
        obtain ⟨A1, A2, r2, L1, L2, hA, hL, hlen2, hall, hr2⟩ :=
          ih L x (by simpa using hlen) h
        refine ⟨y :: A1, A2, r2, r :: L1, L2, by simp [hA], by simp [hL],
          by simp [hlen2], ?_, hr2⟩
        intro r3 hr3
        rcases List.mem_cons.mp hr3 with rfl | hr3
        · exact hc
        · exact hall r3 hr3
      · rw [if_neg hc] at h
        obtain rfl : y = x := by simpa using h
        exact ⟨[], A, r, [], L, rfl, rfl, rfl, by simp, hc⟩

theorem lbDescend_spec : ∀ (t : BSTree) (hp : THeap) (a p s : Nat) (A : List Nat)
    (pfx : Key) (plen : Nat),
    Repr hp t a p s A → BSTree.Ordered t →
    ∀ fuel, A.length < fuel → ∀ st,
    lbDescend hp pfx plen fuel st (some a) =
      match firstGeAux pfx plen A (BSTree.inorder t) with
      | some x => some x
      | none => st := by
  intro t
  induction t with
  | leaf => intro hp a p s A pfx plen h; exact absurd h repr_not_leaf
  | node l d r ihl ihr =>
    intro hp a p s A pfx plen h ho fuel hfuel st
    obtain ⟨hol, hor, hall, halr⟩ := ho
    obtain ⟨nd, Al, Ar, hget, hdata, hA, hL, hR⟩ := repr_node_iff.mp h
    subst hA
    rw [List.length_append, List.length_cons] at hfuel
    obtain ⟨f, rfl⟩ : ∃ f, fuel = f + 1 := ⟨fuel - 1, by omega⟩
    have hlenl : Al.length = (BSTree.inorder l).length := by
      rcases hL with ⟨rfl, -, -, rfl⟩ | ⟨-, h2⟩
      · simp [BSTree.inorder]
      · exact (repr_records h2).length_eq
    have happ := firstGeAux_append pfx plen Al (BSTree.inorder l)
      (a :: Ar) (d :: BSTree.inorder r) hlenl
    rw [show BSTree.inorder (.node l d r) =
      BSTree.inorder l ++ d :: BSTree.inorder r from rfl, happ]
    simp only [lbDescend, hget, hdata]
    cases hc : sncmp d.word pfx plen with
    | lt =>
      have hlnone : firstGeAux pfx plen Al (BSTree.inorder l) = none := by
        rw [firstGeAux_none pfx plen Al _ hlenl]
        intro r2 hr2
        have hlt : keyLt r2.word d.word :=
          BSTree.allKeys_iff_mem.mp hall r2.word (List.mem_map_of_mem _ hr2)
        exact sncmp_lt_mono hlt hc
      simp only [hlnone, firstGeAux, if_pos hc]
      rcases hR with ⟨rfl, hth, hright, rfl⟩ | ⟨hth, h2⟩
      · simp [hth, lbDescend_none, BSTree.inorder, firstGeAux]
      · simp only [hth, Bool.false_eq_true, if_false]
        exact ihr hp nd.right a s Ar pfx plen h2 hor f (by omega) st
    | eq =>
      simp only [firstGeAux, if_neg (by simp [hc] : ¬sncmp d.word pfx plen = .lt)]
      rcases hL with ⟨rfl, hth, hleft, rfl⟩ | ⟨hth, h2⟩
      · simp [hth, lbDescend_none, BSTree.inorder, firstGeAux]
      · simp only [hth, Bool.false_eq_true, if_false]
        rw [ihl hp nd.left p a Al pfx plen h2 hol f (by omega) (some a)]
        cases hfg : firstGeAux pfx plen Al (BSTree.inorder l) <;> simp
    | gt =>
      simp only [firstGeAux, if_neg (by simp [hc] : ¬sncmp d.word pfx plen = .lt)]
      rcases hL with ⟨rfl, hth, hleft, rfl⟩ | ⟨hth, h2⟩
      · simp [hth, lbDescend_none, BSTree.inorder, firstGeAux]
      · simp only [hth, Bool.false_eq_true, if_false]
        rw [ihl hp nd.left p a Al pfx plen h2 hol f (by omega) (some a)]
        cases hfg : firstGeAux pfx plen Al (BSTree.inorder l) <;> simp

theorem autocomplete_tbt_eq {hp : THeap} {t : BSTree} (hinv : HeapInv hp t)
    (ho : BSTree.Ordered t) (hsz : BSTree.size t ≤ MAX_CANDIDATES)
    (pfx : Key) (top_k : Nat) (hne : (strToLower pfx).length ≠ 0) :
    autocomplete_tbt hp pfx top_k =
      (sortDesc ((BSTree.inorder t).filter
        (fun r => sncmp r.word (strToLower pfx) (strToLower pfx).length ==
          Ordering.eq))).take
      (min ((BSTree.inorder t).filter
        (fun r => sncmp r.word (strToLower pfx) (strToLower pfx).length ==
          Ordering.eq)).length top_k) := by
  cases t with
  | leaf =>
    obtain ⟨hd, hget0, hr0, hrth, hlth, hleft⟩ := hinv
    simp [autocomplete_tbt, if_neg hne, hget0, hlth, BSTree.inorder, sortDesc]
  | node l d r =>
    obtain ⟨hd, A, hget0, hr0, hrth, hlth, hrepr, hnodup, hbound⟩ := hinv
    have hndA : A.Nodup := (List.nodup_cons.mp hnodup).2
    have h0A : 0 ∉ A := (List.nodup_cons.mp hnodup).1
    have hlenA : A.length ≤ hp.length := nodup_bounded_length hndA hbound
    have hlen : A.length = (BSTree.inorder (.node l d r)).length :=
      (repr_records hrepr).length_eq
    have hlb := lbDescend_spec (.node l d r) hp hd.left 0 0 A (strToLower pfx)
      (strToLower pfx).length hrepr ho (hp.length + 1) (by omega) none
    simp only [autocomplete_tbt, if_neg hne, hget0, hlth, Bool.false_eq_true,
      if_false, hlb]
    cases hfg : firstGeAux (strToLower pfx) (strToLower pfx).length A
        (BSTree.inorder (.node l d r)) with
    | none =>
      have hallbelow := (firstGeAux_none _ _ A _ hlen).mp hfg
      have hfnil : (BSTree.inorder (.node l d r)).filter
          (fun r2 => sncmp r2.word (strToLower pfx) (strToLower pfx).length ==
            Ordering.eq) = [] := by
        rw [List.filter_eq_nil_iff]
        intro r2 hr2
        simp [hallbelow r2 hr2, BSTree.beq_lt_eq]
      simp [hfnil, sortDesc]
    | some x =>
      obtain ⟨A1, A2, r2, L1, L2, hA, hL, hlen1, hallL1, hr2⟩ :=
        firstGeAux_some _ _ A _ x hlen hfg
      have hchain := repr_chain hrepr hndA hbound
      rw [hA, List.append_assoc] at hchain
      have hchain2 := hchain.right_of_append
      have hf := repr_records hrepr
      rw [hA, hL] at hf
      have hf2 : List.Forall₂
          (fun x2 d2 => ∃ nd : TBTNode, hp[x2]? = some nd ∧ nd.data = d2)
          (x :: A2) (r2 :: L2) := by
        have hdrop := List.forall₂_drop A1.length hf
        rwa [List.drop_left, List.drop_left' hlen1.symm] at hdrop
      have h0x : 0 ∉ x :: A2 := fun hh => h0A (hA ▸ List.mem_append_right A1 hh)
      have hfuel : (x :: A2).length < hp.length + 1 := by
        have hle2 : (x :: A2).length ≤ A.length := by rw [hA]; simp
        omega
      have hcw := collectWalk_spec (x :: A2) (r2 :: L2) hp (strToLower pfx)
        (strToLower pfx).length (hp.length + 1) [] hchain2 hf2 h0x hfuel
      rw [List.headD_cons] at hcw
      have hpwL : (BSTree.inorder (.node l d r)).Pairwise
          (fun a b : WordRecord => keyLt a.word b.word) :=
        List.pairwise_map.mp (BSTree.pairwise_keys ho)
      rw [hL] at hpwL
      have hpw2 : (r2 :: L2).Pairwise
          (fun a b : WordRecord => keyLt a.word b.word) :=
        hpwL.sublist (List.sublist_append_right L1 (r2 :: L2))
      have hlen2 : (0 : Nat) + (r2 :: L2).length ≤ MAX_CANDIDATES := by
        have hsub : (r2 :: L2).length ≤ (BSTree.inorder (.node l d r)).length := by
          rw [hL]; simp
        rw [BSTree.length_inorder] at hsub
        omega
      have hcp := collectPure_sorted (r2 :: L2) (strToLower pfx)
        (strToLower pfx).length [] hpw2 (by simpa using hlen2)
      rw [List.nil_append] at hcp
      have hfilter : (BSTree.inorder (.node l d r)).filter
          (fun r3 => sncmp r3.word (strToLower pfx) (strToLower pfx).length ==
            Ordering.eq) =
          (r2 :: L2).filter
          (fun r3 => sncmp r3.word (strToLower pfx) (strToLower pfx).length ==
            Ordering.eq) := by
        rw [hL, List.filter_append]
        have hnil1 : L1.filter
            (fun r3 => sncmp r3.word (strToLower pfx) (strToLower pfx).length ==
              Ordering.eq) = [] := by
          rw [List.filter_eq_nil_iff]
          intro r3 hr3
          simp [hallL1 r3 hr3, BSTree.beq_lt_eq]
        rw [hnil1, List.nil_append]
      simp only [hcw, hcp, hfilter]

end TBT

namespace Morris

/-- Pointer-level node of the unbalanced tree as touched by the Morris
traversals in bst.c: a record plus nullable child pointers, modelled as
addresses into an explicit heap (none = NULL). -/
structure MNode where
  data : WordRecord
  left : Option Nat
  right : Option Nat
deriving Repr, DecidableEq

abbrev MHeap := List MNode

/-- Inner predecessor loop of bst_inorder/bst_count (bst.c):
`pre = cur->left; while (pre->right && pre->right != cur) pre = pre->right;`
returning the address where the loop stops. -/
def findPred (hp : MHeap) (c : Nat) : Nat → Nat → Option Nat
  | 0, _ => none
  | fuel + 1, p =>
    match hp[p]? with
    | none => none
    | some pn =>
      match pn.right with
      | none => some p
      | some q => if q = c then some p else findPred hp c fuel q

/-- Outer Morris loop of bst_inorder/bst_count (bst.c), generic in the
accumulator so that both the callback traversal and the counter are
instances. Each outer-loop iteration consumes one unit of fuel; the
returned heap exposes every pointer mutation the traversal made. -/
def morrisRun {α : Type} (visit : α → WordRecord → α) :
    Nat → MHeap → Option Nat → α → Option (MHeap × α)
  | 0, _, _, _ => none
  | _ + 1, hp, none, acc => some (hp, acc)
  | fuel + 1, hp, some c, acc =>
    match hp[c]? with
    | none => none
    | some nd =>
      match nd.left with
      | none => morrisRun visit fuel hp nd.right (visit acc nd.data)
      | some la =>
        match findPred hp c (hp.length + 1) la with
        | none => none
        | some m =>
          match hp[m]? with
          | none => none
          | some pn =>
            match pn.right with
            | none => morrisRun visit fuel
                (hp.set m { pn with right := some c }) (some la) acc
            | some _ => morrisRun visit fuel
                (hp.set m { pn with right := none }) nd.right
                (visit acc nd.data)

/-- Number of outer-loop iterations the Morris traversal spends inside a
subtree: nodes without a left child are handled once, nodes with a left
child twice (thread, then unthread-and-visit). -/
def mfuel : BSTree → Nat
  | .leaf => 0
  | .node l _ r => (if l = .leaf then 1 else 2 + mfuel l) + mfuel r

/-- Heap representation of a pointer tree for the Morris model: the tree
hangs at address a, every pointer is a real child link, except that the
right pointer of the rightmost node holds e (none for a clean tree; the
traversal temporarily sets it to an ancestor). A lists the node
addresses in inorder. -/
def MRepr (hp : MHeap) : BSTree → Nat → Option Nat → List Nat → Prop
  | .leaf, _, _, _ => False
  | .node l d r, a, e, A =>
    ∃ nd Al Ar, hp[a]? = some nd ∧ nd.data = d ∧ A = Al ++ a :: Ar ∧
      ((l = .leaf ∧ nd.left = none ∧ Al = []) ∨
       (∃ la, nd.left = some la ∧ MRepr hp l la none Al)) ∧
      ((r = .leaf ∧ nd.right = e ∧ Ar = []) ∨
       (∃ ra, nd.right = some ra ∧ MRepr hp r ra e Ar))

theorem mrepr_not_leaf {hp : MHeap} {a : Nat} {e : Option Nat} {A : List Nat}
    (h : MRepr hp .leaf a e A) : False := h

theorem mrepr_node_iff {hp : MHeap} {l : BSTree} {d : WordRecord} {r : BSTree}
    {a : Nat} {e : Option Nat} {A : List Nat} :
    MRepr hp (.node l d r) a e A ↔
    ∃ nd Al Ar, hp[a]? = some nd ∧ nd.data = d ∧ A = Al ++ a :: Ar ∧
      ((l = .leaf ∧ nd.left = none ∧ Al = []) ∨
       (∃ la, nd.left = some la ∧ MRepr hp l la none Al)) ∧
      ((r = .leaf ∧ nd.right = e ∧ Ar = []) ∨
       (∃ ra, nd.right = some ra ∧ MRepr hp r ra e Ar)) := Iff.rfl

theorem mrepr_mem_self : ∀ {t : BSTree} {hp : MHeap} {a : Nat} {e : Option Nat}
    {A : List Nat}, MRepr hp t a e A → a ∈ A := by
  intro t hp a e A h
  cases t with
  | leaf => exact absurd h mrepr_not_leaf
  | node l d r =>
    obtain ⟨nd, Al, Ar, -, -, hA, -, -⟩ := mrepr_node_iff.mp h
    subst hA
    simp

theorem mrepr_ne_nil {t : BSTree} {hp : MHeap} {a : Nat} {e : Option Nat}
    {A : List Nat} (h : MRepr hp t a e A) : A ≠ [] := by
  intro hn
  subst hn
  exact absurd (mrepr_mem_self h) (List.not_mem_nil a)

theorem mrepr_mono : ∀ {t : BSTree} {hp hp2 : MHeap} {a : Nat} {e : Option Nat}
    {A : List Nat},
    MRepr hp t a e A → (∀ x ∈ A, hp2[x]? = hp[x]?) → MRepr hp2 t a e A := by
  intro t
  induction t with
  | leaf => intro hp hp2 a e A h _; exact absurd h mrepr_not_leaf
  | node l d r ihl ihr =>
    intro hp hp2 a e A h hag
    obtain ⟨nd, Al, Ar, hget, hdata, hA, hL, hR⟩ := mrepr_node_iff.mp h
    subst hA
    refine mrepr_node_iff.mpr ⟨nd, Al, Ar, ?_, hdata, rfl, ?_, ?_⟩
    · rw [hag a (by simp), hget]
    · rcases hL with hl | ⟨la, hleft, h2⟩
      · exact Or.inl hl
      · exact Or.inr ⟨la, hleft, ihl h2 fun x hx => hag x (by simp [hx])⟩
    · rcases hR with hr | ⟨ra, hright, h2⟩
      · exact Or.inl hr
      · exact Or.inr ⟨ra, hright, ihr h2 fun x hx => hag x (by simp [hx])⟩

theorem mrepr_last : ∀ {t : BSTree} {hp : MHeap} {a : Nat} {e : Option Nat}
    {A : List Nat}, MRepr hp t a e A →
    ∃ m pn, A.getLast? = some m ∧ hp[m]? = some pn ∧ pn.right = e := by
  intro t
  induction t with
  | leaf => intro hp a e A h; exact absurd h mrepr_not_leaf
  | node l d r ihl ihr =>
    intro hp a e A h
    obtain ⟨nd, Al, Ar, hget, hdata, hA, hL, hR⟩ := mrepr_node_iff.mp h
    subst hA
    rcases hR with ⟨rfl, hright, rfl⟩ | ⟨ra, hright, h2⟩
    · exact ⟨a, nd, by simp, hget, hright⟩
    · obtain ⟨m, pn, hgl, hm, hpr⟩ := ihr h2
      refine ⟨m, pn, ?_, hm, hpr⟩
      rw [show Al ++ a :: Ar = (Al ++ [a]) ++ Ar by simp,
        List.getLast?_append_of_ne_nil (Al ++ [a]) (mrepr_ne_nil h2)]
      exact hgl

theorem set_self_of_getElem? {β : Type} {l : List β} {i : Nat} {x : β}
    (h : l[i]? = some x) : l.set i x = l := by
  have hlt : i < l.length := by
    by_contra hge
    rw [List.getElem?_eq_none (by omega)] at h
    exact Option.noConfusion h
  apply List.ext_getElem?
  intro n
  by_cases hn : i = n
  · subst hn
    rw [List.getElem?_set_self hlt]
    exact h.symm
  · rw [List.getElem?_set_ne hn]

theorem mrepr_set_last : ∀ {t : BSTree} {hp : MHeap} {a : Nat} {e : Option Nat}
    {A : List Nat} {m : Nat} {pn : MNode} (e2 : Option Nat),
    MRepr hp t a e A → A.Nodup → A.getLast? = some m → hp[m]? = some pn →
    MRepr (hp.set m { data := pn.data, left := pn.left, right := e2 })
      t a e2 A := by
  intro t
  induction t with
  | leaf => intro hp a e A m pn e2 h; exact absurd h mrepr_not_leaf
  | node l d r ihl ihr =>
    intro hp a e A m pn e2 h hnd hgl hm
    obtain ⟨nd, Al, Ar, hget, hdata, hA, hL, hR⟩ := mrepr_node_iff.mp h
    subst hA
    rw [List.nodup_append] at hnd
    obtain ⟨hndAl, hndaAr, hdisj⟩ := hnd
    rcases hR with ⟨rfl, hright, rfl⟩ | ⟨ra, hright, h2⟩
    · have hma : m = a := by
        rw [List.getLast?_concat] at hgl
        exact (Option.some.inj hgl).symm
      subst hma
      have hpn : pn = nd := by
        rw [hget] at hm
        exact (Option.some.inj hm).symm
      subst hpn
      have hlt : m < hp.length := by
        by_contra hge
        rw [List.getElem?_eq_none (by omega)] at hget
        exact Option.noConfusion hget
      refine mrepr_node_iff.mpr
        ⟨{ data := pn.data, left := pn.left, right := e2 }, Al, [], ?_, hdata,
          rfl, ?_, Or.inl ⟨rfl, rfl, rfl⟩⟩
      · rw [List.getElem?_set_self hlt]
      · rcases hL with ⟨hleaf, hleft, rfl⟩ | ⟨la, hleft, h2l⟩
        · exact Or.inl ⟨hleaf, hleft, rfl⟩
        · refine Or.inr ⟨la, hleft, mrepr_mono h2l ?_⟩
          intro x hx
          have hxm : m ≠ x := fun hh => hdisj hx (by simp [hh.symm])
          exact List.getElem?_set_ne hxm
    · have hgl2 : Ar.getLast? = some m := by
        rw [show Al ++ a :: Ar = (Al ++ [a]) ++ Ar by simp,
          List.getLast?_append_of_ne_nil (Al ++ [a]) (mrepr_ne_nil h2)] at hgl
        exact hgl
      have hmAr : m ∈ Ar := List.mem_of_getLast?_eq_some hgl2
      have hndAr : Ar.Nodup := (List.nodup_cons.mp hndaAr).2
      have hanotAr : a ∉ Ar := (List.nodup_cons.mp hndaAr).1
      have hma : m ≠ a := fun hh => hanotAr (hh ▸ hmAr)
      refine mrepr_node_iff.mpr ⟨nd, Al, Ar, ?_, hdata, rfl, ?_, ?_⟩
      · rw [List.getElem?_set_ne hma]
        exact hget
      · rcases hL with hl | ⟨la, hleft, h2l⟩
        · exact Or.inl hl
        · refine Or.inr ⟨la, hleft, mrepr_mono h2l ?_⟩
          intro x hx
          have hxm : m ≠ x := fun hh =>
            hdisj hx (List.mem_cons_of_mem a (hh ▸ hmAr))
          exact List.getElem?_set_ne hxm
      · exact Or.inr ⟨ra, hright, ihr e2 h2 hndAr hgl2 hm⟩

theorem findPred_spec : ∀ (t : BSTree) (hp : MHeap) (la c : Nat) (e : Option Nat)
    (A : List Nat), MRepr hp t la e A → (e = none ∨ e = some c) → c ∉ A →
    ∀ fuel, A.length < fuel → findPred hp c fuel la = A.getLast? := by
  intro t
  induction t with
  | leaf => intro hp la c e A h; exact absurd h mrepr_not_leaf
  | node l d r ihl ihr =>
    intro hp la c e A h he hc fuel hfuel
    obtain ⟨nd, Al, Ar, hget, hdata, hA, hL, hR⟩ := mrepr_node_iff.mp h
    subst hA
    rw [List.length_append, List.length_cons] at hfuel
    obtain ⟨f, rfl⟩ : ∃ f, fuel = f + 1 := ⟨fuel - 1, by omega⟩
    simp only [findPred, hget]
    rcases hR with ⟨rfl, hright, rfl⟩ | ⟨ra, hright, h2⟩
    · rcases he with rfl | rfl
      · simp [hright, List.getLast?_concat]
      · simp [hright, List.getLast?_concat]
    · have hcAr : c ∉ Ar := fun hh => hc (by simp [hh])
      have hraAr : ra ∈ Ar := mrepr_mem_self h2
      have hrac : ra ≠ c := fun hh => hcAr (hh ▸ hraAr)
      simp only [hright, if_neg hrac]
      rw [ihr hp ra c e Ar h2 he hcAr f (by omega)]
      rw [show Al ++ la :: Ar = (Al ++ [la]) ++ Ar by simp,
        List.getLast?_append_of_ne_nil (Al ++ [la]) (mrepr_ne_nil h2)]

theorem morrisRun_step {α : Type} (visit : α → WordRecord → α) (fuel : Nat)
    (hp : MHeap) (c : Nat) (acc : α) :
    morrisRun visit (fuel + 1) hp (some c) acc =
      match hp[c]? with
      | none => none
      | some nd =>
        match nd.left with
        | none => morrisRun visit fuel hp nd.right (visit acc nd.data)
        | some la =>
          match findPred hp c (hp.length + 1) la with
          | none => none
          | some m =>
            match hp[m]? with
            | none => none
            | some pn =>
              match pn.right with
              | none => morrisRun visit fuel
                  (hp.set m { pn with right := some c }) (some la) acc
              | some _ => morrisRun visit fuel
                  (hp.set m { pn with right := none }) nd.right
                  (visit acc nd.data) := by
  simp only [morrisRun]

theorem morris_seg {α : Type} (visit : α → WordRecord → α) :
    ∀ (t : BSTree) (hp : MHeap) (a : Nat) (e : Option Nat) (A : List Nat)
      (acc : α) (f : Nat),
      MRepr hp t a e A → A.Nodup → (∀ x ∈ A, x < hp.length) →
      morrisRun visit (mfuel t + f) hp (some a) acc =
        morrisRun visit f hp e (List.foldl visit acc (BSTree.inorder t)) := by
  intro t
  induction t with
  | leaf => intro hp a e A acc f h; exact absurd h mrepr_not_leaf
  | node l d r ihl ihr =>
    intro hp a e A acc f h hnd hb
    obtain ⟨nd, Al, Ar, hget, hdata, hA, hL, hR⟩ := mrepr_node_iff.mp h
    subst hA
    have hndfull := hnd
    rw [List.nodup_append] at hnd
    obtain ⟨hndAl, hndaAr, hdisj⟩ := hnd
    have hndAr : Ar.Nodup := (List.nodup_cons.mp hndaAr).2
    have haAr : a ∉ Ar := (List.nodup_cons.mp hndaAr).1
    have haAl : a ∉ Al := fun hh => hdisj hh (List.mem_cons_self a Ar)
    have hbAr : ∀ x ∈ Ar, x < hp.length := fun x hx => hb x (by simp [hx])
    have hbAl : ∀ x ∈ Al, x < hp.length := fun x hx => hb x (by simp [hx])
    rcases hL with ⟨rfl, hleft, rfl⟩ | ⟨la, hleft, hl⟩
    · rw [show mfuel (.node .leaf d r) + f = (mfuel r + f) + 1 by
        simp [mfuel]; omega,
        morrisRun_step visit (mfuel r + f) hp a acc]
      simp only [hget, hleft, hdata]
      rw [show BSTree.inorder (.node .leaf d r) = d :: BSTree.inorder r from by
        simp [BSTree.inorder], List.foldl_cons]
      rcases hR with ⟨rfl, hright, rfl⟩ | ⟨ra, hright, h2⟩
      · rw [hright]
        simp [mfuel, BSTree.inorder]
      · rw [hright]
        exact ihr hp ra e Ar (visit acc d) f h2 hndAr hbAr
    · have hlne : l ≠ .leaf := fun hh => mrepr_not_leaf (hh ▸ hl)
      obtain ⟨m, pn, hgl, hm, hpnr⟩ := mrepr_last hl
      have hmAl : m ∈ Al := List.mem_of_getLast?_eq_some hgl
      have hma : m ≠ a := fun hh => haAl (hh ▸ hmAl)
      have hmlt : m < hp.length := hbAl m hmAl
      have hAlen : (Al ++ a :: Ar).length ≤ hp.length :=
        TBT.nodup_bounded_length hndfull hb
      have hAllen : Al.length < hp.length + 1 := by
        rw [List.length_append, List.length_cons] at hAlen; omega
      rw [show mfuel (.node l d r) + f =
        (mfuel l + ((mfuel r + f) + 1)) + 1 by simp [mfuel, if_neg hlne]; omega,
        morrisRun_step visit (mfuel l + ((mfuel r + f) + 1)) hp a acc]
      have hfp1 : findPred hp a (hp.length + 1) la = some m := by
        rw [findPred_spec l hp la a none Al hl (Or.inl rfl) haAl _ hAllen]
        exact hgl
      simp only [hget, hleft, hfp1, hm, hpnr, hdata]
      have hb1 : ∀ x ∈ Al, x < (hp.set m { data := pn.data, left := pn.left, right := some a }).length := by
        intro x hx
        rw [List.length_set]
        exact hbAl x hx
      have hrep1 : MRepr (hp.set m { data := pn.data, left := pn.left, right := some a }) l la (some a) Al :=
        mrepr_set_last (some a) hl hndAl hgl hm
      rw [ihl (hp.set m { data := pn.data, left := pn.left, right := some a })
        la (some a) Al acc ((mfuel r + f) + 1) hrep1 hndAl hb1]
      have hget1 : (hp.set m { data := pn.data, left := pn.left, right := some a })[a]? = some nd := by
        rw [List.getElem?_set_ne hma]; exact hget
      have hfp2 : findPred (hp.set m { data := pn.data, left := pn.left, right := some a }) a
          ((hp.set m { data := pn.data, left := pn.left, right := some a }).length + 1) la = some m := by
        rw [findPred_spec l _ la a (some a) Al hrep1 (Or.inr rfl) haAl _
          (by rw [List.length_set]; exact hAllen)]
        exact hgl
      have hm1 : (hp.set m { data := pn.data, left := pn.left, right := some a })[m]? =
          some { data := pn.data, left := pn.left, right := some a } :=
        List.getElem?_set_self hmlt
      rw [morrisRun_step visit (mfuel r + f)
        (hp.set m { data := pn.data, left := pn.left, right := some a }) a
        (List.foldl visit acc (BSTree.inorder l))]
      simp only [hget1, hleft, hfp2, hm1, hdata]
      have hrestore : (hp.set m { data := pn.data, left := pn.left, right := some a }).set m
          { data := pn.data, left := pn.left, right := none } = hp := by
        rw [List.set_set]
        have hpn2 : ({ data := pn.data, left := pn.left, right := none } :
            MNode) = pn := by
          cases pn with
          | mk pd pl pr =>
            have hpr : pr = none := hpnr
            subst hpr
            rfl
        rw [hpn2]
        exact set_self_of_getElem? hm
      rw [hrestore]
      rw [show BSTree.inorder (.node l d r) =
        BSTree.inorder l ++ d :: BSTree.inorder r from rfl,
        List.foldl_append, List.foldl_cons]
      rcases hR with ⟨rfl, hright, rfl⟩ | ⟨ra, hright, h2⟩
      · rw [hright]
        simp [mfuel, BSTree.inorder]
      · rw [hright]
        exact ihr hp ra e Ar
          (visit (List.foldl visit acc (BSTree.inorder l)) d) f h2 hndAr hbAr

/-- Canonical pointer layout of a tree: each subtree occupies a contiguous
block with its root first. -/
def buildAux : BSTree → Nat → List MNode
  | .leaf, _ => []
  | .node l d r, base =>
    { data := d,
      left := if l = .leaf then none else some (base + 1),
      right := if r = .leaf then none else some (base + 1 + BSTree.size l) } ::
    (buildAux l (base + 1) ++ buildAux r (base + 1 + BSTree.size l))

def buildHeap (t : BSTree) : MHeap := buildAux t 0

/-- Inorder sequence of the addresses assigned by buildAux. -/
def addrsAux : BSTree → Nat → List Nat
  | .leaf, _ => []
  | .node l _ r, base =>
    addrsAux l (base + 1) ++ base :: addrsAux r (base + 1 + BSTree.size l)

theorem length_buildAux : ∀ (t : BSTree) (base : Nat),
    (buildAux t base).length = BSTree.size t := by
  intro t
  induction t with
  | leaf => intro base; rfl
  | node l d r ihl ihr =>
    intro base
    simp only [buildAux, List.length_cons, List.length_append, ihl, ihr]
    rw [show BSTree.size (.node l d r) =
      BSTree.size l + 1 + BSTree.size r from rfl]
    omega

theorem addrsAux_mem : ∀ (t : BSTree) (base x : Nat), x ∈ addrsAux t base →
    base ≤ x ∧ x < base + BSTree.size t := by
  intro t
  induction t with
  | leaf => intro base x hx; simp [addrsAux] at hx
  | node l d r ihl ihr =>
    intro base x hx
    rw [show BSTree.size (.node l d r) =
      BSTree.size l + 1 + BSTree.size r from rfl]
    simp only [addrsAux, List.mem_append, List.mem_cons] at hx
    rcases hx with hx | rfl | hx
    · have := ihl (base + 1) x hx; omega
    · omega
    · have := ihr (base + 1 + BSTree.size l) x hx; omega

theorem addrsAux_nodup : ∀ (t : BSTree) (base : Nat),
    (addrsAux t base).Nodup := by
  intro t
  induction t with
  | leaf => intro base; simp [addrsAux]
  | node l d r ihl ihr =>
    intro base
    simp only [addrsAux]
    rw [List.nodup_append]
    refine ⟨ihl _, ?_, ?_⟩
    · rw [List.nodup_cons]
      refine ⟨fun hb => ?_, ihr _⟩
      have := addrsAux_mem r _ base hb
      omega
    · intro x hxl hxr
      have h1 := addrsAux_mem l _ x hxl
      rcases List.mem_cons.mp hxr with rfl | hxr2
      · omega
      · have h2 := addrsAux_mem r _ x hxr2
        omega

theorem buildAux_repr : ∀ (t : BSTree) (base : Nat) (hp : MHeap),
    t ≠ .leaf →
    (∀ k, k < BSTree.size t → hp[base + k]? = (buildAux t base)[k]?) →
    MRepr hp t base none (addrsAux t base) := by
  intro t
  induction t with
  | leaf => intro base hp hne _; exact absurd rfl hne
  | node l d r ihl ihr =>
    intro base hp _ H
    have hsz : BSTree.size (.node l d r) =
        BSTree.size l + 1 + BSTree.size r := rfl
    have hget : hp[base]? = some
        { data := d,
          left := if l = .leaf then none else some (base + 1),
          right := if r = .leaf then none
            else some (base + 1 + BSTree.size l) } := by
      have h0 := H 0 (by rw [hsz]; omega)
      rw [Nat.add_zero] at h0
      rw [h0]
      simp [buildAux]
    refine mrepr_node_iff.mpr ⟨_, addrsAux l (base + 1),
      addrsAux r (base + 1 + BSTree.size l), hget, rfl, rfl, ?_, ?_⟩
    · by_cases hl : l = .leaf
      · exact Or.inl ⟨hl, by simp [hl], by simp [hl, addrsAux]⟩
      · refine Or.inr ⟨base + 1, by simp [hl], ihl (base + 1) hp hl ?_⟩
        intro k hk
        have hidx := H (1 + k) (by rw [hsz]; omega)
        rw [show base + (1 + k) = (base + 1) + k by omega] at hidx
        rw [hidx]
        simp only [buildAux]
        rw [show 1 + k = k + 1 from by omega, List.getElem?_cons_succ,
          List.getElem?_append_left (by rw [length_buildAux]; exact hk)]
    · by_cases hr : r = .leaf
      · exact Or.inl ⟨hr, by simp [hr], by simp [hr, addrsAux]⟩
      · refine Or.inr ⟨base + 1 + BSTree.size l, by simp [hr],
          ihr _ hp hr ?_⟩
        intro k hk
        have hidx := H (1 + BSTree.size l + k) (by rw [hsz]; omega)
        rw [show base + (1 + BSTree.size l + k) =
          (base + 1 + BSTree.size l) + k by omega] at hidx
        rw [hidx]
        simp only [buildAux]
        rw [show 1 + BSTree.size l + k = (BSTree.size l + k) + 1 from by omega,
          List.getElem?_cons_succ,
          List.getElem?_append_right (by rw [length_buildAux]; omega),
          length_buildAux, Nat.add_sub_cancel_left]

theorem buildHeap_repr (t : BSTree) (h : t ≠ .leaf) :
    MRepr (buildHeap t) t 0 none (addrsAux t 0) :=
  buildAux_repr t 0 (buildHeap t) h (fun k _ => by simp [buildHeap])

theorem mfuel_le : ∀ t : BSTree, mfuel t ≤ 2 * BSTree.size t := by
  intro t
  induction t with
  | leaf => simp [mfuel]
  | node l d r ihl ihr =>
    rw [show BSTree.size (.node l d r) =
      BSTree.size l + 1 + BSTree.size r from rfl]
    by_cases hl : l = .leaf
    · simp only [mfuel, if_pos hl]; omega
    · simp only [mfuel, if_neg hl]; omega

theorem foldl_snoc_eq : ∀ (L acc : List WordRecord),
    List.foldl (fun a r => a ++ [r]) acc L = acc ++ L := by
  intro L
  induction L with
  | nil => intro acc; simp
  | cons x L ih => intro acc; simp [List.foldl_cons, ih]

theorem foldl_count_eq : ∀ (L : List WordRecord) (n : Nat),
    List.foldl (fun k _ => k + 1) n L = n + L.length := by
  intro L
  induction L with
  | nil => intro n; simp
  | cons x L ih => intro n; rw [List.foldl_cons, ih]; simp; omega

/-- bst_inorder (bst.c): Morris inorder traversal over the canonical heap
of t, collecting the visited records and returning the final heap. -/
def bst_inorder (t : BSTree) : Option (MHeap × List WordRecord) :=
  morrisRun (fun acc r => acc ++ [r]) (2 * BSTree.size t + 1) (buildHeap t)
    (match t with | .leaf => none | .node _ _ _ => some 0) []

/-- bst_count (bst.c): the same Morris loop with a counter instead of a
callback. -/
def bst_count (t : BSTree) : Option (MHeap × Nat) :=
  morrisRun (fun k _ => k + 1) (2 * BSTree.size t + 1) (buildHeap t)
    (match t with | .leaf => none | .node _ _ _ => some 0) 0

theorem bst_inorder_spec : ∀ t : BSTree,
    bst_inorder t = some (buildHeap t, BSTree.inorder t) := by
  intro t
  cases t with
  | leaf => rfl
  | node l d r =>
    have hrep := buildHeap_repr (.node l d r) (fun h => BSTree.noConfusion h)
    have hnd := addrsAux_nodup (.node l d r) 0
    have hb : ∀ x ∈ addrsAux (.node l d r) 0,
        x < (buildHeap (.node l d r)).length := by
      intro x hx
      have h2 := (addrsAux_mem _ 0 x hx).2
      rw [show (buildHeap (.node l d r)).length = BSTree.size (.node l d r)
        from length_buildAux _ 0]
      omega
    have hfuel := mfuel_le (.node l d r)
    simp only [bst_inorder]
    rw [show 2 * BSTree.size (.node l d r) + 1 = mfuel (.node l d r) +
      (2 * BSTree.size (.node l d r) + 1 - mfuel (.node l d r)) from by omega]
    rw [morris_seg (fun acc r => acc ++ [r]) (.node l d r) (buildHeap _) 0
      none (addrsAux _ 0) []
      (2 * BSTree.size (.node l d r) + 1 - mfuel (.node l d r)) hrep hnd hb]
    obtain ⟨y, hy⟩ : ∃ y, 2 * BSTree.size (.node l d r) + 1 -
        mfuel (.node l d r) = y + 1 :=
      ⟨2 * BSTree.size (.node l d r) - mfuel (.node l d r), by omega⟩
    rw [hy]
    simp only [morrisRun]
    rw [foldl_snoc_eq, List.nil_append]

theorem bst_count_spec : ∀ t : BSTree,
    bst_count t = some (buildHeap t, BSTree.size t) := by
  intro t
  cases t with
  | leaf => rfl
  | node l d r =>
    have hrep := buildHeap_repr (.node l d r) (fun h => BSTree.noConfusion h)
    have hnd := addrsAux_nodup (.node l d r) 0
    have hb : ∀ x ∈ addrsAux (.node l d r) 0,
        x < (buildHeap (.node l d r)).length := by
      intro x hx
      have h2 := (addrsAux_mem _ 0 x hx).2
      rw [show (buildHeap (.node l d r)).length = BSTree.size (.node l d r)
        from length_buildAux _ 0]
      omega
    have hfuel := mfuel_le (.node l d r)
    simp only [bst_count]
    rw [show 2 * BSTree.size (.node l d r) + 1 = mfuel (.node l d r) +
      (2 * BSTree.size (.node l d r) + 1 - mfuel (.node l d r)) from by omega]
    rw [morris_seg (fun k _ => k + 1) (.node l d r) (buildHeap _) 0
      none (addrsAux _ 0) 0
      (2 * BSTree.size (.node l d r) + 1 - mfuel (.node l d r)) hrep hnd hb]
    obtain ⟨y, hy⟩ : ∃ y, 2 * BSTree.size (.node l d r) + 1 -
        mfuel (.node l d r) = y + 1 :=
      ⟨2 * BSTree.size (.node l d r) - mfuel (.node l d r), by omega⟩
    rw [hy]
    simp only [morrisRun]
    rw [foldl_count_eq, Nat.zero_add, BSTree.length_inorder]

end Morris

/-! ### Supporting lemmas and error-path models for the claim theorems -/

theorem sncmp_zero (a b : Key) : sncmp a b 0 = .eq := by
  cases a <;> cases b <;> rfl

theorem ordering_beq_eq_true_iff (x : Ordering) :
    (x == Ordering.eq) = true ↔ x = Ordering.eq := by
  cases x <;> simp <;> rfl

theorem normRec_word (r : WordRecord) : (normRec r).word = strToLower r.word := rfl

theorem scoreLe_trans : ∀ a b c : WordRecord,
    scoreLe a b → scoreLe b c → scoreLe a c := by
  intro a b c
  simp only [scoreLe, decide_eq_true_eq]
  omega

theorem scoreLe_total : ∀ a b : WordRecord, scoreLe a b || scoreLe b a := by
  intro a b
  simp only [scoreLe, Bool.or_eq_true, decide_eq_true_eq]
  omega

theorem scoreLe_iff (a b : WordRecord) :
    scoreLe a b = true ↔ composite_score b ≤ composite_score a := by
  simp [scoreLe]

theorem sortDesc_pairwise (l : List WordRecord) :
    (sortDesc l).Pairwise (fun a b => composite_score b ≤ composite_score a) := by
  have h := List.sorted_mergeSort scoreLe_trans scoreLe_total l
  exact h.imp (fun hab => (scoreLe_iff _ _).mp hab)

theorem sortDesc_perm (l : List WordRecord) : List.Perm (sortDesc l) l :=
  List.mergeSort_perm l scoreLe

namespace BSTree

theorem mem_inorder_insertGo : ∀ (t : BSTree) (n d : WordRecord),
    d ∈ inorder (insertGo t n) → d ∈ inorder t ∨ d = n := by
  intro t
  induction t with
  | leaf =>
    intro n d hd
    simp [insertGo, inorder] at hd
    exact Or.inr hd
  | node l e r ihl ihr =>
    intro n d hd
    simp only [insertGo] at hd
    cases hc : scmp n.word e.word <;> rw [hc] at hd <;>
      simp only [inorder, List.mem_append, List.mem_cons] at hd ⊢
    · rcases hd with hd | hd | hd
      · rcases ihl n d hd with h2 | h2
        · exact Or.inl (Or.inl h2)
        · exact Or.inr h2
      · exact Or.inl (Or.inr (Or.inl hd))
      · exact Or.inl (Or.inr (Or.inr hd))
    · exact Or.inl hd
    · rcases hd with hd | hd | hd
      · exact Or.inl (Or.inl hd)
      · exact Or.inl (Or.inr (Or.inl hd))
      · rcases ihr n d hd with h2 | h2
        · exact Or.inl (Or.inr (Or.inr h2))
        · exact Or.inr h2

theorem mem_keys_insertList : ∀ (ws : List WordRecord) (t : BSTree) (k : Key),
    k ∈ keys (ws.foldl bst_insert t) ↔
      k ∈ keys t ∨ k ∈ ws.map (fun r => strToLower r.word) := by
  intro ws
  induction ws with
  | nil => intro t k; simp
  | cons w ws ih =>
    intro t k
    rw [List.foldl_cons, ih]
    simp only [bst_insert, keys_insertGo, normRec_word, List.map_cons,
      List.mem_cons]
    tauto

theorem size_eq_keys_length (t : BSTree) : size t = (keys t).length := by
  rw [keys, List.length_map, length_inorder]

theorem distinct_count_insertList (ws : List WordRecord) :
    size (ws.foldl bst_insert .leaf) =
      (ws.map (fun r => strToLower r.word)).dedup.length := by
  rw [size_eq_keys_length]
  have hnd1 : (keys (ws.foldl bst_insert .leaf)).Nodup :=
    nodup_keys (ordered_insertList ws .leaf trivial)
  have hnd2 : ((ws.map (fun r => strToLower r.word)).dedup).Nodup :=
    List.nodup_dedup _
  have hmem : ∀ k, k ∈ keys (ws.foldl bst_insert .leaf) ↔
      k ∈ (ws.map (fun r => strToLower r.word)).dedup := by
    intro k
    rw [List.mem_dedup, mem_keys_insertList]
    simp [keys_leaf]
  rw [← List.toFinset_card_of_nodup hnd1, ← List.toFinset_card_of_nodup hnd2]
  congr 1
  ext k
  simp only [List.mem_toFinset]
  exact hmem k

/-- bst_insert with an explicit allocator outcome: on malloc failure
bst_new_node returns NULL (bst.c), so the empty slot stays NULL and the
function returns normally. -/
def insertGoAlloc (ok : Bool) : BSTree → WordRecord → BSTree
  | leaf, n => if ok then node leaf n leaf else leaf
  | node l d r, n =>
    match scmp n.word d.word with
    | .lt => node (insertGoAlloc ok l n) d r
    | .gt => node l d (insertGoAlloc ok r n)
    | .eq => node l d r

def bst_insert_alloc (ok : Bool) (t : BSTree) (r : WordRecord) : BSTree :=
  insertGoAlloc ok t (normRec r)

theorem insertGoAlloc_fail : ∀ (t : BSTree) (n : WordRecord),
    insertGoAlloc false t n = t := by
  intro t
  induction t with
  | leaf => intro n; rfl
  | node l d r ihl ihr =>
    intro n
    simp only [insertGoAlloc]
    cases scmp n.word d.word <;> simp [ihl, ihr]

theorem insertGoAlloc_ok : ∀ (t : BSTree) (n : WordRecord),
    insertGoAlloc true t n = insertGo t n := by
  intro t
  induction t with
  | leaf => intro n; rfl
  | node l d r ihl ihr =>
    intro n
    simp only [insertGoAlloc, insertGo]
    cases scmp n.word d.word <;> simp [ihl, ihr]

/-- bst_insert (bst.c) with its NULL-record guard: `if (!root || !rec)
return;`. -/
def bst_insert_c (t : BSTree) (r : Option WordRecord) : BSTree :=
  match r with
  | none => t
  | some r0 => bst_insert t r0

theorem autocomplete_bst_eq {t : BSTree} (ho : Ordered t)
    (hsz : size t ≤ MAX_CANDIDATES) (pfx : Key) (k : Nat) :
    autocomplete_bst t pfx k =
      (sortDesc ((inorder t).filter (fun r =>
        sncmp r.word (strToLower pfx) (strToLower pfx).length ==
          Ordering.eq))).take
      (min ((inorder t).filter (fun r =>
        sncmp r.word (strToLower pfx) (strToLower pfx).length ==
          Ordering.eq)).length k) := by
  have hcol := bst_collect_eq (t := t) (strToLower pfx)
    (strToLower pfx).length [] ho (by simpa using hsz)
  simp only [autocomplete_bst, hcol, List.nil_append]

end BSTree

namespace ATree

theorem keys_leaf_avl : keys leaf = [] := rfl

/-- avl_insert_impl with an explicit allocator outcome: avl_new_node
(avl.c) calls exit(EXIT_FAILURE) when malloc fails, modelled as an
Except error that aborts the whole call. -/
def avl_insert_impl_alloc (ok : Bool) : ATree → WordRecord → Except Unit ATree
  | leaf, n => if ok then .ok (avl_new_node n) else .error ()
  | node l d r h, n =>
    match scmp n.word d.word with
    | .eq => .ok (node l d r h)
    | .lt =>
      match avl_insert_impl_alloc ok l n with
      | .error e => .error e
      | .ok l2 => .ok (rebalance (update_height (node l2 d r h)))
    | .gt =>
      match avl_insert_impl_alloc ok r n with
      | .error e => .error e
      | .ok r2 => .ok (rebalance (update_height (node l d r2 h)))

def avl_insert_alloc (ok : Bool) (t : ATree) (r0 : WordRecord) :
    Except Unit ATree :=
  avl_insert_impl_alloc ok t (normRec r0)

theorem avl_insert_impl_alloc_fail : ∀ (t : ATree) (n : WordRecord),
    n.word ∉ keys t → avl_insert_impl_alloc false t n = .error () := by
  intro t
  induction t with
  | leaf => intro n _; rfl
  | node l d r h ihl ihr =>
    intro n hmem
    rw [keys_node_avl] at hmem
    simp only [List.mem_append, List.mem_cons] at hmem
    push_neg at hmem
    obtain ⟨h1, h2, h3⟩ := hmem
    simp only [avl_insert_impl_alloc]
    cases hc : scmp n.word d.word with
    | eq => exact absurd (scmp_eq_iff.mp hc) h2
    | lt => rw [ihl n h1]
    | gt => rw [ihr n h3]

theorem avl_insert_impl_alloc_ok : ∀ (t : ATree) (n : WordRecord),
    avl_insert_impl_alloc true t n = .ok (avl_insert_impl t n) := by
  intro t
  induction t with
  | leaf => intro n; rfl
  | node l d r h ihl ihr =>
    intro n
    simp only [avl_insert_impl_alloc, avl_insert_impl]
    cases scmp n.word d.word <;> simp [ihl, ihr]

theorem autocomplete_avl_eq_strip (t : ATree) (pfx : Key) (k : Nat) :
    autocomplete_avl t pfx k = BSTree.autocomplete_bst (strip t) pfx k := by
  simp [autocomplete_avl, BSTree.autocomplete_bst, avl_collect_eq_strip]

theorem mem_keys_avlInsertList : ∀ (ws : List WordRecord) (t : ATree) (k : Key),
    k ∈ keys (ws.foldl avl_insert t) ↔
      k ∈ keys t ∨ k ∈ ws.map (fun r => strToLower r.word) := by
  intro ws
  induction ws with
  | nil => intro t k; simp
  | cons w ws ih =>
    intro t k
    rw [List.foldl_cons, ih]
    have hstep : ∀ k2, k2 ∈ keys (avl_insert t w) ↔
        k2 ∈ keys t ∨ k2 = strToLower w.word := by
      intro k2
      rw [show avl_insert t w = avl_insert_impl t (normRec w) from rfl,
        keys_insert_eq, BSTree.keys_insertGo, strip_keys, normRec_word]
    simp only [hstep, List.map_cons, List.mem_cons]
    tauto

theorem avlInsertList_eq_run (ws : List WordRecord) :
    ws.foldl avl_insert .leaf = avlRun (ws.map DictOp.ins) := by
  simp only [avlRun, List.foldl_map, avlApply]

theorem distinct_count_avlInsertList (ws : List WordRecord) :
    avl_count (ws.foldl avl_insert .leaf) =
      (ws.map (fun r => strToLower r.word)).dedup.length := by
  rw [avl_count_eq_length,
    show (inorder (ws.foldl avl_insert .leaf)).length =
      (keys (ws.foldl avl_insert .leaf)).length from
      (by rw [keys, List.length_map])]
  have hord : BSTree.Ordered (strip (ws.foldl avl_insert .leaf)) := by
    rw [avlInsertList_eq_run]
    exact (avlRun_good_ordered (ws.map DictOp.ins)).2
  have hnd1 : (keys (ws.foldl avl_insert .leaf)).Nodup := by
    have hpw := BSTree.pairwise_keys hord
    rw [strip_keys] at hpw
    exact hpw.imp (fun hab => keyLt_ne hab)
  have hnd2 : ((ws.map (fun r => strToLower r.word)).dedup).Nodup :=
    List.nodup_dedup _
  have hmem : ∀ k, k ∈ keys (ws.foldl avl_insert .leaf) ↔
      k ∈ (ws.map (fun r => strToLower r.word)).dedup := by
    intro k
    rw [List.mem_dedup, mem_keys_avlInsertList]
    simp [keys_leaf_avl]
  rw [← List.toFinset_card_of_nodup hnd1, ← List.toFinset_card_of_nodup hnd2]
  congr 1
  ext k
  simp only [List.mem_toFinset]
  exact hmem k

end ATree

namespace TBT

/-- tbt_insert with an explicit allocator outcome: tbt_new_node (tbt.c)
calls exit(EXIT_FAILURE) when malloc fails; the allocation happens only
after the descent reaches an empty slot (duplicates return first). -/
def tbt_insert_alloc (ok : Bool) (hp : THeap) (r0 : WordRecord) :
    Except Unit THeap :=
  let r1 := normRec r0
  match hp[0]? with
  | none => .ok hp
  | some hd =>
    match descend hp r1.word (hp.length + 1) 0 true
        (if hd.lthread then none else some hd.left) with
    | none => .ok hp
    | some none => .ok hp
    | some (some (p, wentLeft)) =>
      if ok then
        match hp[p]? with
        | none => .ok hp
        | some pn =>
          if wentLeft then
            .ok ((hp.set p { pn with left := hp.length, lthread := false }) ++
              [⟨r1, pn.left, p, pn.lthread, true⟩])
          else
            .ok ((hp.set p { pn with right := hp.length, rthread := false }) ++
              [⟨r1, p, pn.right, true, pn.rthread⟩])
      else .error ()

theorem tbt_insert_alloc_fail {hp : THeap} {t : BSTree} (h : HeapInv hp t)
    (r0 : WordRecord) (hfresh : strToLower r0.word ∉ BSTree.keys t) :
    tbt_insert_alloc false hp r0 = .error () := by
  cases t with
  | leaf =>
    obtain ⟨hd, hget, hr0, hrth, hlth, hleft⟩ := heapinv_leaf_iff.mp h
    simp [tbt_insert_alloc, hget, hlth, descend]
  | node l d r =>
    obtain ⟨hd, A, hget, hr0, hrth, hlth, hrep, hnd, hb⟩ := heapinv_node_iff.mp h
    have hndA : A.Nodup := (List.nodup_cons.mp hnd).2
    have hlen : A.length ≤ hp.length := nodup_bounded_length hndA hb
    rcases descend_insert (normRec r0) hrep hndA hb (hp.length + 1)
        (by omega) 0 true with
      ⟨heq, hdesc⟩ | ⟨p1, wl1, pn, hdesc, -, -, -⟩
    · exfalso
      apply hfresh
      have hmem : (normRec r0).word ∈
          BSTree.keys (BSTree.insertGo (.node l d r) (normRec r0)) :=
        (BSTree.keys_insertGo _ _ _).mpr (Or.inr rfl)
      rw [heq] at hmem
      exact hmem
    · simp [tbt_insert_alloc, hget, hlth, hdesc]

theorem tbt_insert_alloc_ok (hp : THeap) (r0 : WordRecord) :
    tbt_insert_alloc true hp r0 = .ok (tbt_insert hp r0) := by
  simp only [tbt_insert_alloc, tbt_insert]
  repeat' split
  all_goals simp_all

/-- tbt_delete with an explicit allocator outcome for the collection
array: on malloc failure the function prints and returns with the tree
untouched (tbt.c line 169). -/
def tbt_delete_alloc (ok : Bool) (hp : THeap) (w : Key) : THeap :=
  if tbt_count hp = 0 then hp
  else if ok then tbt_delete hp w else hp

theorem tbt_delete_alloc_fail (hp : THeap) (w : Key) :
    tbt_delete_alloc false hp w = hp := by
  by_cases h : tbt_count hp = 0 <;> simp [tbt_delete_alloc, h]

theorem tbt_delete_alloc_ok (hp : THeap) (w : Key) :
    tbt_delete_alloc true hp w = tbt_delete hp w := by
  by_cases h : tbt_count hp = 0
  · simp [tbt_delete_alloc, h, tbt_delete]
  · simp [tbt_delete_alloc, h]

theorem distinct_count_tbtInsHeap (ws : List WordRecord) :
    tbt_count (tbtInsHeap ws) =
      (ws.map (fun r => strToLower r.word)).dedup.length := by
  rw [tbt_count_eq (tbtInsHeap_inv ws), BSTree.length_inorder,
    BSTree.distinct_count_insertList]

end TBT

/-! ### Claim theorems -/

/-- Claim C1: after every sequence of inserts and deletes on any of the
three trees (including two-children deletes via the successor copy), the
in-order key sequence is strictly ascending under the lexicographic
order on normalized keys: the unbalanced and AVL trees directly, the
threaded tree through the abstract search tree its heap represents,
whose in-order records are exactly what tbt_inorder visits. -/
theorem claim_C1 : ∀ ops : List DictOp,
    (BSTree.keys (BSTree.bstRun ops)).Pairwise keyLt ∧
    (ATree.keys (ATree.avlRun ops)).Pairwise keyLt ∧
    ∃ t : BSTree, TBT.HeapInv (TBT.tbtRun ops) t ∧
      TBT.tbt_inorder_list (TBT.tbtRun ops) = some (BSTree.inorder t) ∧
      (BSTree.keys t).Pairwise keyLt := by
  intro ops
  refine ⟨BSTree.pairwise_keys (BSTree.bstRun_ordered ops), ?_, ?_⟩
  · have hpw := BSTree.pairwise_keys (ATree.avlRun_good_ordered ops).2
    rwa [ATree.strip_keys] at hpw
  · obtain ⟨t, h, ho⟩ := TBT.tbtRun_inv ops
    exact ⟨t, h, TBT.tbt_inorder_list_eq h, BSTree.pairwise_keys ho⟩

/-- Claim C2: after every sequence of inserts and deletes on the AVL
tree, every node's stored height field equals 1 + max of the children's
real heights (WellH), and every node's children differ in real height by
at most 1 (BalancedT). -/
theorem claim_C2 : ∀ ops : List DictOp,
    ATree.WellH (ATree.avlRun ops) ∧ ATree.BalancedT (ATree.avlRun ops) :=
  fun ops => (ATree.avlRun_good_ordered ops).1

/-- Claim C3: for the threaded tree built from any insert sequence, the
in-order thread walk visits exactly the in-order records of the
unbalanced BST built from the same inserts, tbt_count matches its size,
and for a non-empty tree iterating tbt_inorder_successor from the
leftmost real node lands back on the header sentinel (address 0) after
exactly tbt_count steps. -/
theorem claim_C3 : ∀ ws : List WordRecord,
    TBT.tbt_inorder_list (TBT.tbtInsHeap ws) =
      some (BSTree.inorder (ws.foldl BSTree.bst_insert .leaf)) ∧
    TBT.tbt_count (TBT.tbtInsHeap ws) =
      BSTree.size (ws.foldl BSTree.bst_insert .leaf) ∧
    (ws.foldl BSTree.bst_insert .leaf ≠ .leaf →
      ∃ hd start, (TBT.tbtInsHeap ws)[0]? = some hd ∧ hd.lthread = false ∧
        TBT.leftmostFrom (TBT.tbtInsHeap ws) ((TBT.tbtInsHeap ws).length + 1)
          hd.left = some start ∧
        TBT.succN (TBT.tbtInsHeap ws) (TBT.tbt_count (TBT.tbtInsHeap ws))
          start = some 0) := by
  intro ws
  have h := TBT.tbtInsHeap_inv ws
  refine ⟨TBT.tbt_inorder_list_eq h, ?_, ?_⟩
  · rw [TBT.tbt_count_eq h, BSTree.length_inorder]
  · intro hne
    rcases hstruct : ws.foldl BSTree.bst_insert .leaf with _ | ⟨l, d, r⟩
    · exact absurd hstruct hne
    · rw [hstruct] at h
      obtain ⟨hd, A, hget, hr0, hrth, hlth, hrep, hnd, hb⟩ :=
        TBT.heapinv_node_iff.mp h
      have hndA : A.Nodup := (List.nodup_cons.mp hnd).2
      have hlenA : A.length ≤ (TBT.tbtInsHeap ws).length :=
        TBT.nodup_bounded_length hndA hb
      have hlm := TBT.repr_leftmost hrep ((TBT.tbtInsHeap ws).length + 1)
        (by omega)
      have hchain := TBT.repr_chain hrep hndA hb
      have hcnt : TBT.tbt_count (TBT.tbtInsHeap ws) = A.length := by
        rw [TBT.tbt_count_eq h, ← (TBT.repr_records hrep).length_eq]
      cases hA : A with
      | nil =>
        exact absurd (hA ▸ TBT.repr_mem_self hrep) (List.not_mem_nil _)
      | cons a0 rest =>
        refine ⟨hd, a0, hget, hlth, ?_, ?_⟩
        · rw [hlm, hA]
          rfl
        · rw [hcnt, hA]
          rw [hA, List.cons_append] at hchain
          have hsucc := TBT.chain_succN (a0 :: rest).length (rest ++ [0])
            (TBT.tbtInsHeap ws) a0 hchain (by simp)
          rw [hsucc]
          rw [show a0 :: (rest ++ [0]) = (a0 :: rest) ++ [0] from rfl,
            List.getElem?_concat_length]

/-- Claim C3 witness: concrete single-insert heap; the successor walk
from the leftmost node reaches the header after exactly one step. -/
theorem claim_C3_witness :
    ∃ hd start,
      (TBT.tbtInsHeap [⟨[97], [], [], 1, 0⟩])[0]? = some hd ∧
      hd.lthread = false ∧
      TBT.leftmostFrom (TBT.tbtInsHeap [⟨[97], [], [], 1, 0⟩])
        ((TBT.tbtInsHeap [⟨[97], [], [], 1, 0⟩]).length + 1) hd.left =
        some start ∧
      TBT.succN (TBT.tbtInsHeap [⟨[97], [], [], 1, 0⟩])
        (TBT.tbt_count (TBT.tbtInsHeap [⟨[97], [], [], 1, 0⟩])) start =
        some 0 :=
  (claim_C3 [⟨[97], [], [], 1, 0⟩]).2.2 (by decide)

/-- Claim C4 (amended): an empty tree yields an empty result for all
three engines, and the threaded engine returns empty on an empty
normalized prefix; but the BST and AVL engines have no empty-prefix
guard: strncmp with length 0 matches every word, so an empty prefix
returns the top-k of the whole dictionary. -/
theorem claim_C4 :
    (∀ (pfx : Key) (k : Nat), BSTree.autocomplete_bst .leaf pfx k = []) ∧
    (∀ (pfx : Key) (k : Nat), ATree.autocomplete_avl .leaf pfx k = []) ∧
    (∀ (hp : THeap) (pfx : Key) (k : Nat), (strToLower pfx).length = 0 →
      TBT.autocomplete_tbt hp pfx k = []) ∧
    (∀ (hp : THeap) (t : BSTree) (pfx : Key) (k : Nat), TBT.HeapInv hp t →
      t = .leaf → TBT.autocomplete_tbt hp pfx k = []) ∧
    (∀ (t : BSTree) (k : Nat), BSTree.Ordered t →
      BSTree.size t ≤ MAX_CANDIDATES →
      BSTree.autocomplete_bst t [] k =
        (sortDesc (BSTree.inorder t)).take (min (BSTree.size t) k)) ∧
    (∀ (t2 : ATree) (k : Nat), BSTree.Ordered (ATree.strip t2) →
      BSTree.size (ATree.strip t2) ≤ MAX_CANDIDATES →
      ATree.autocomplete_avl t2 [] k =
        (sortDesc (ATree.inorder t2)).take
          (min (BSTree.size (ATree.strip t2)) k)) := by
  have hbst : ∀ (t : BSTree) (k : Nat), BSTree.Ordered t →
      BSTree.size t ≤ MAX_CANDIDATES →
      BSTree.autocomplete_bst t [] k =
        (sortDesc (BSTree.inorder t)).take (min (BSTree.size t) k) := by
    intro t k ho hsz
    have h := BSTree.autocomplete_bst_eq ho hsz [] k
    have hfilt : (BSTree.inorder t).filter (fun r =>
        sncmp r.word (strToLower []) (strToLower []).length ==
          Ordering.eq) = BSTree.inorder t := by
      rw [List.filter_eq_self]
      intro r _
      simp [strToLower, sncmp_zero, BSTree.beq_eq_eq]
    rw [h, hfilt, BSTree.length_inorder]
  refine ⟨?_, ?_, ?_, ?_, hbst, ?_⟩
  · intro pfx k
    simp [BSTree.autocomplete_bst, BSTree.bst_collect, sortDesc]
  · intro pfx k
    simp [ATree.autocomplete_avl, ATree.avl_collect, sortDesc]
  · intro hp pfx k h
    simp [TBT.autocomplete_tbt, h]
  · intro hp t pfx k h ht
    subst ht
    obtain ⟨hd, hget, hr0, hrth, hlth, hleft⟩ := TBT.heapinv_leaf_iff.mp h
    by_cases hp0 : (strToLower pfx).length = 0
    · simp [TBT.autocomplete_tbt, hp0]
    · simp [TBT.autocomplete_tbt, hp0, hget, hlth]
  · intro t2 k ho hsz
    rw [ATree.autocomplete_avl_eq_strip, hbst (ATree.strip t2) k ho hsz,
      ATree.strip_inorder]

/-- Claim C4 witness: a one-record ordered tree meets the hypotheses; the
empty prefix returns the tree's whole content. -/
theorem claim_C4_witness :
    BSTree.autocomplete_bst (.node .leaf ⟨[97], [], [], 1, 0⟩ .leaf) [] 5 =
      (sortDesc (BSTree.inorder (.node .leaf ⟨[97], [], [], 1, 0⟩ .leaf))).take
        (min (BSTree.size (.node .leaf ⟨[97], [], [], 1, 0⟩ .leaf)) 5) :=
  claim_C4.2.2.2.2.1 (.node .leaf ⟨[97], [], [], 1, 0⟩ .leaf) 5
    ⟨trivial, trivial, trivial, trivial⟩ (by decide)

/-- Claim C4 counterexample: on the BST engine an empty prefix over a
non-empty tree returns a non-empty result, contradicting the claim that
an empty prefix yields an empty result for every tree variant. -/
theorem claim_C4_counterexample :
    BSTree.autocomplete_bst (.node .leaf ⟨[97], [], [], 1, 0⟩ .leaf) [] 5 =
      [⟨[97], [], [], 1, 0⟩] ∧
    ([⟨[97], [], [], 1, 0⟩] : List WordRecord) ≠ [] := by
  constructor
  · have hc : BSTree.bst_collect (strToLower []) (strToLower []).length
        (.node .leaf ⟨[97], [], [], 1, 0⟩ .leaf) [] =
        [⟨[97], [], [], 1, 0⟩] := by decide
    simp [BSTree.autocomplete_bst, hc, sortDesc]
  · decide

/-- Claim C5: for an ordered dictionary within the 512-candidate
ceiling and a non-empty normalized prefix, all three engines return the
records whose normalized word starts with the normalized prefix, sorted
by composite score (frequency + 10×selections) descending, truncated to
min(matches, top_k); the returned list's length is exactly that min. -/
theorem claim_C5 : ∀ (pfx : Key) (top_k : Nat) (t : BSTree),
    BSTree.Ordered t → BSTree.size t ≤ MAX_CANDIDATES → strToLower pfx ≠ [] →
    ∃ M : List WordRecord,
      (∀ r, r ∈ M ↔ r ∈ BSTree.inorder t ∧ (strToLower pfx).IsPrefix r.word) ∧
      BSTree.autocomplete_bst t pfx top_k =
        (sortDesc M).take (min M.length top_k) ∧
      (∀ t2 : ATree, ATree.strip t2 = t →
        ATree.autocomplete_avl t2 pfx top_k =
          (sortDesc M).take (min M.length top_k)) ∧
      (∀ hp : THeap, TBT.HeapInv hp t →
        TBT.autocomplete_tbt hp pfx top_k =
          (sortDesc M).take (min M.length top_k)) ∧
      (BSTree.autocomplete_bst t pfx top_k).Pairwise
        (fun a b => composite_score b ≤ composite_score a) ∧
      (BSTree.autocomplete_bst t pfx top_k).length = min M.length top_k := by
  intro pfx top_k t ho hsz hne
  refine ⟨(BSTree.inorder t).filter (fun r =>
    sncmp r.word (strToLower pfx) (strToLower pfx).length == Ordering.eq),
    ?_, ?_, ?_, ?_, ?_, ?_⟩
  · intro r
    rw [List.mem_filter]
    constructor
    · rintro ⟨h1, h2⟩
      rw [ordering_beq_eq_true_iff] at h2
      exact ⟨h1, (sncmp_prefix_iff _ _).mp h2⟩
    · rintro ⟨h1, h2⟩
      exact ⟨h1, by
        rw [ordering_beq_eq_true_iff]
        exact (sncmp_prefix_iff _ _).mpr h2⟩
  · exact BSTree.autocomplete_bst_eq ho hsz pfx top_k
  · intro t2 hstrip
    rw [ATree.autocomplete_avl_eq_strip, hstrip]
    exact BSTree.autocomplete_bst_eq ho hsz pfx top_k
  · intro hp hinv
    exact TBT.autocomplete_tbt_eq hinv ho hsz pfx top_k
      (fun h => hne (List.length_eq_zero.mp h))
  · rw [BSTree.autocomplete_bst_eq ho hsz pfx top_k]
    exact (sortDesc_pairwise _).sublist (List.take_sublist _ _)
  · rw [BSTree.autocomplete_bst_eq ho hsz pfx top_k, List.length_take,
      (sortDesc_perm _).length_eq]
    omega

/-- Claim C5 witness: concrete one-record tree, prefix "a", top_k 3. -/
theorem claim_C5_witness :
    ∃ M : List WordRecord,
      (∀ r, r ∈ M ↔
        r ∈ BSTree.inorder (.node .leaf ⟨[97], [], [], 1, 0⟩ .leaf) ∧
        (strToLower [97]).IsPrefix r.word) ∧
      BSTree.autocomplete_bst (.node .leaf ⟨[97], [], [], 1, 0⟩ .leaf) [97] 3 =
        (sortDesc M).take (min M.length 3) ∧
      (∀ t2 : ATree,
        ATree.strip t2 = .node .leaf ⟨[97], [], [], 1, 0⟩ .leaf →
        ATree.autocomplete_avl t2 [97] 3 =
          (sortDesc M).take (min M.length 3)) ∧
      (∀ hp : THeap,
        TBT.HeapInv hp (.node .leaf ⟨[97], [], [], 1, 0⟩ .leaf) →
        TBT.autocomplete_tbt hp [97] 3 =
          (sortDesc M).take (min M.length 3)) ∧
      (BSTree.autocomplete_bst
        (.node .leaf ⟨[97], [], [], 1, 0⟩ .leaf) [97] 3).Pairwise
        (fun a b => composite_score b ≤ composite_score a) ∧
      (BSTree.autocomplete_bst
        (.node .leaf ⟨[97], [], [], 1, 0⟩ .leaf) [97] 3).length =
        min M.length 3 :=
  claim_C5 [97] 3 (.node .leaf ⟨[97], [], [], 1, 0⟩ .leaf)
    ⟨trivial, trivial, trivial, trivial⟩ (by decide) (by decide)

/-- Claim C6: on all three trees, inserting a record whose normalized
key is already stored leaves the structure entirely unchanged (first
write wins, silently), and after any insert sequence each count
operation — the tree size, the Morris bst_count, avl_count and
tbt_count — equals the number of distinct normalized keys inserted. -/
theorem claim_C6 : ∀ ws : List WordRecord,
    (∀ r : WordRecord,
      strToLower r.word ∈ BSTree.keys (ws.foldl BSTree.bst_insert .leaf) →
      BSTree.bst_insert (ws.foldl BSTree.bst_insert .leaf) r =
        ws.foldl BSTree.bst_insert .leaf) ∧
    (∀ r : WordRecord,
      strToLower r.word ∈ ATree.keys (ws.foldl ATree.avl_insert .leaf) →
      ATree.avl_insert (ws.foldl ATree.avl_insert .leaf) r =
        ws.foldl ATree.avl_insert .leaf) ∧
    (∀ r : WordRecord,
      strToLower r.word ∈ BSTree.keys (ws.foldl BSTree.bst_insert .leaf) →
      TBT.tbt_insert (TBT.tbtInsHeap ws) r = TBT.tbtInsHeap ws) ∧
    BSTree.size (ws.foldl BSTree.bst_insert .leaf) =
      (ws.map (fun r => strToLower r.word)).dedup.length ∧
    Morris.bst_count (ws.foldl BSTree.bst_insert .leaf) =
      some (Morris.buildHeap (ws.foldl BSTree.bst_insert .leaf),
        (ws.map (fun r => strToLower r.word)).dedup.length) ∧
    ATree.avl_count (ws.foldl ATree.avl_insert .leaf) =
      (ws.map (fun r => strToLower r.word)).dedup.length ∧
    TBT.tbt_count (TBT.tbtInsHeap ws) =
      (ws.map (fun r => strToLower r.word)).dedup.length := by
  intro ws
  have hord : BSTree.Ordered (ws.foldl BSTree.bst_insert .leaf) :=
    BSTree.ordered_insertList ws .leaf trivial
  refine ⟨?_, ?_, ?_, BSTree.distinct_count_insertList ws, ?_,
    ATree.distinct_count_avlInsertList ws, TBT.distinct_count_tbtInsHeap ws⟩
  · intro r hmem
    exact BSTree.insertGo_duplicate hord (by rwa [normRec_word])
  · intro r hmem
    have hg : ATree.Good (ws.foldl ATree.avl_insert .leaf) := by
      rw [ATree.avlInsertList_eq_run]
      exact (ATree.avlRun_good_ordered (ws.map DictOp.ins)).1
    have ho : BSTree.Ordered (ATree.strip (ws.foldl ATree.avl_insert .leaf)) := by
      rw [ATree.avlInsertList_eq_run]
      exact (ATree.avlRun_good_ordered (ws.map DictOp.ins)).2
    exact ATree.avl_insert_impl_duplicate _ hg ho (by rwa [normRec_word])
  · intro r hmem
    exact (TBT.tbt_insert_inv (TBT.tbtInsHeap_inv ws) r).2
      (BSTree.insertGo_duplicate hord (by rwa [normRec_word]))
  · rw [Morris.bst_count_spec, BSTree.distinct_count_insertList ws]

/-- Claim C6 witness: re-inserting the word "a" with a different payload
into structures already holding "a" changes nothing. -/
theorem claim_C6_witness :
    BSTree.bst_insert
      (([⟨[97], [], [], 1, 0⟩] : List WordRecord).foldl BSTree.bst_insert
        .leaf) ⟨[97], [], [], 2, 3⟩ =
      ([⟨[97], [], [], 1, 0⟩] : List WordRecord).foldl BSTree.bst_insert
        .leaf ∧
    TBT.tbt_insert (TBT.tbtInsHeap [⟨[97], [], [], 1, 0⟩])
      ⟨[97], [], [], 2, 3⟩ = TBT.tbtInsHeap [⟨[97], [], [], 1, 0⟩] :=
  ⟨(claim_C6 [⟨[97], [], [], 1, 0⟩]).1 ⟨[97], [], [], 2, 3⟩ (by decide),
   (claim_C6 [⟨[97], [], [], 1, 0⟩]).2.2.1 ⟨[97], [], [], 2, 3⟩ (by decide)⟩

/-- Claim C7 (amended): for an ordered tree and a key not yet stored,
inserting then searching that key under any letter case returns the
normalized record itself (hence the original payload), and searching
after a subsequent delete returns not-found. When the key is already
stored, insert is a silent no-op and search keeps returning the first
record (see the counterexample). -/
theorem claim_C7 : ∀ (t : BSTree) (r : WordRecord) (w : Key),
    BSTree.Ordered t → strToLower r.word ∉ BSTree.keys t →
    strToLower w = strToLower r.word →
    BSTree.bst_search (BSTree.bst_insert t r) (some w) = some (normRec r) ∧
    BSTree.bst_search
      (BSTree.bst_delete (BSTree.bst_insert t r) (some w)) (some w) =
      none := by
  intro t r w ho hfresh hw
  have ho2 : BSTree.Ordered (BSTree.insertGo t (normRec r)) :=
    BSTree.insertGo_Ordered ho
  have hk : (normRec r).word ∈ BSTree.keys (BSTree.insertGo t (normRec r)) :=
    (BSTree.keys_insertGo _ _ _).mpr (Or.inr rfl)
  have hwn : strToLower w = (normRec r).word := hw.trans (normRec_word r).symm
  constructor
  · obtain ⟨d, hd⟩ := BSTree.searchGo_mem ho2 hk
    obtain ⟨hdmem, hdw⟩ := BSTree.searchGo_spec hd
    have hdn : d = normRec r := by
      rcases BSTree.mem_inorder_insertGo t (normRec r) d hdmem with h2 | h2
      · exfalso
        apply hfresh
        rw [← normRec_word, ← hdw]
        exact List.mem_map_of_mem (·.word) h2
      · exact h2
    show BSTree.searchGo (BSTree.insertGo t (normRec r)) (strToLower w) =
      some (normRec r)
    rw [hwn, hd, hdn]
  · have hnot : strToLower w ∉ BSTree.keys
        (BSTree.bst_delete_impl (BSTree.insertGo t (normRec r))
          (strToLower w)) := by
      intro hmem
      exact ((BSTree.keys_delete_iff ho2 (strToLower w) (strToLower w)).mp
        hmem).2 rfl
    show BSTree.searchGo
      (BSTree.bst_delete_impl (BSTree.insertGo t (normRec r))
        (strToLower w)) (strToLower w) = none
    exact BSTree.searchGo_not_mem
      (BSTree.delete_Ordered ho2 (strToLower w)) hnot

/-- Claim C7 witness: insert "a" into the empty tree, search it as "A"
(different case), then delete and search again. -/
theorem claim_C7_witness :
    BSTree.bst_search (BSTree.bst_insert .leaf ⟨[97], [], [], 1, 0⟩)
      (some [65]) = some (normRec ⟨[97], [], [], 1, 0⟩) ∧
    BSTree.bst_search
      (BSTree.bst_delete (BSTree.bst_insert .leaf ⟨[97], [], [], 1, 0⟩)
        (some [65])) (some [65]) = none :=
  claim_C7 .leaf ⟨[97], [], [], 1, 0⟩ [65] trivial (by decide) (by decide)

/-- Claim C7 counterexample: when the key is already stored, insert
silently keeps the first record, so searching after the second insert
returns the first payload, not the inserted one — the round-trip of the
claim fails on duplicate-present states. -/
theorem claim_C7_counterexample :
    BSTree.bst_search
      (BSTree.bst_insert (BSTree.bst_insert .leaf ⟨[97], [], [], 1, 0⟩)
        ⟨[97], [109], [], 5, 7⟩) (some [97]) =
      some (normRec ⟨[97], [], [], 1, 0⟩) ∧
    payloadOf (normRec ⟨[97], [], [], 1, 0⟩) ≠
      payloadOf ⟨[97], [109], [], 5, 7⟩ := by
  constructor <;> decide

/-- Claim C8 (amended): allocation failure is fatal (exit) only in the
AVL and threaded-tree node constructors; bst_new_node returns NULL, so a
BST insert under memory exhaustion returns normally with the tree
unchanged, and tbt_delete recovers locally from a failed scratch-array
malloc, returning with the heap unchanged. -/
theorem claim_C8 :
    (∀ (t : BSTree) (r : WordRecord),
      BSTree.bst_insert_alloc false t r = t) ∧
    (∀ (t : ATree) (r : WordRecord), strToLower r.word ∉ ATree.keys t →
      ATree.avl_insert_alloc false t r = .error ()) ∧
    (∀ (hp : THeap) (t : BSTree) (r : WordRecord), TBT.HeapInv hp t →
      strToLower r.word ∉ BSTree.keys t →
      TBT.tbt_insert_alloc false hp r = .error ()) ∧
    (∀ (hp : THeap) (w : Key), TBT.tbt_delete_alloc false hp w = hp) := by
  refine ⟨?_, ?_, ?_, TBT.tbt_delete_alloc_fail⟩
  · intro t r
    exact BSTree.insertGoAlloc_fail t (normRec r)
  · intro t r h
    exact ATree.avl_insert_impl_alloc_fail t (normRec r) (by rwa [normRec_word])
  · intro hp t r hinv hfresh
    exact TBT.tbt_insert_alloc_fail hinv r hfresh

/-- Claim C8 witness: fresh-key inserts under a failing allocator abort
for the AVL and threaded trees. -/
theorem claim_C8_witness :
    ATree.avl_insert_alloc false .leaf ⟨[97], [], [], 1, 0⟩ = .error () ∧
    TBT.tbt_insert_alloc false TBT.tbt_create_header ⟨[97], [], [], 1, 0⟩ =
      .error () :=
  ⟨claim_C8.2.1 .leaf ⟨[97], [], [], 1, 0⟩ (by decide),
   claim_C8.2.2.1 TBT.tbt_create_header .leaf ⟨[97], [], [], 1, 0⟩
     TBT.tbt_create_header_inv (by decide)⟩

/-- Claim C8 counterexample: a BST insert under memory exhaustion
returns normally (value, not an abort), and tbt_delete under a failed
malloc also returns normally with the heap untouched — so allocation
failure is not uniformly fatal and insert does not uniformly terminate
abruptly. -/
theorem claim_C8_counterexample :
    BSTree.bst_insert_alloc false .leaf ⟨[97], [], [], 1, 0⟩ = .leaf ∧
    TBT.tbt_delete_alloc false (TBT.tbtInsHeap [⟨[97], [], [], 1, 0⟩])
      [97] = TBT.tbtInsHeap [⟨[97], [], [], 1, 0⟩] := by
  constructor <;> decide

/-- Claim C9 (amended): the BST entry points guard NULL pointers —
inserting a NULL record, searching a NULL word and deleting a NULL word
are no-ops/not-found and leave the tree unchanged — but the empty string
is not guarded anywhere: it is inserted, found and deleted like any
ordinary key (the AVL and threaded variants have no NULL guard at all
and pass the NULL on to str_tolower, leaving their lookup buffers
uninitialized). -/
theorem claim_C9 :
    (∀ t : BSTree, BSTree.bst_insert_c t none = t) ∧
    (∀ t : BSTree, BSTree.bst_search t none = none) ∧
    (∀ t : BSTree, BSTree.bst_delete t none = t) ∧
    (∀ r : WordRecord, BSTree.bst_insert .leaf r =
      .node .leaf (normRec r) .leaf) :=
  ⟨fun _ => rfl, fun _ => rfl, fun _ => rfl, fun _ => rfl⟩

/-- Claim C9 counterexample: inserting a record with the empty-string
key changes the tree and the key is subsequently found, so an empty key
is not treated as a no-op/empty-result. -/
theorem claim_C9_counterexample :
    BSTree.bst_insert .leaf ⟨[], [], [], 1, 0⟩ ≠ .leaf ∧
    BSTree.bst_search (BSTree.bst_insert .leaf ⟨[], [], [], 1, 0⟩)
      (some []) = some ⟨[], [], [], 1, 0⟩ := by
  constructor <;> decide

/-- Claim C10: the Morris in-order traversal and the Morris counter
terminate with the heap exactly equal to the input heap — every
temporarily threaded right pointer is restored and no record is
modified — while visiting exactly the in-order record sequence
(respectively counting exactly the tree's size). -/
theorem claim_C10 : ∀ t : BSTree,
    Morris.bst_inorder t = some (Morris.buildHeap t, BSTree.inorder t) ∧
    Morris.bst_count t = some (Morris.buildHeap t, BSTree.size t) :=
  fun t => ⟨Morris.bst_inorder_spec t, Morris.bst_count_spec t⟩

end SmartDict
